import Mathlib

/-!
Verification of the `compgraph` batch dataflow engine
(row-oriented map / group-reduce / sort-merge join / external sort pipelines).

The definitions below are a shallow embedding of `compgraph/operations.py` and
`compgraph/graph.py`.  Python rows (dicts from column name to dynamically typed
value) are association lists with unique keys; fallible Python code (KeyError,
TypeError, AssertionError, missing `run` kwargs) is embedded in `Except Err`.
Python's `heapq` is used by the source only through `heap[0]` (the minimum),
`heappush` and `heapreplace`, so the heap is modelled by its contract: a list
kept sorted ascending holding the same multiset of entries.
-/

namespace Compgraph

/-- A dynamically typed cell value: integer, string, or sequence.
(The claims under verification exercise no floating point arithmetic on key
columns; `rat` embeds Python's exact-result divisions of small dyadics.) -/
inductive Value where
  | int : Int → Value
  | str : String → Value
  | rat : Rat → Value
  | seq : List Value → Value
deriving Repr

mutual

def Value.decEq : (a b : Value) → Decidable (a = b)
  | .int a, .int b =>
    if h : a = b then .isTrue (by rw [h]) else .isFalse (by intro hc; cases hc; exact h rfl)
  | .str a, .str b =>
    if h : a = b then .isTrue (by rw [h]) else .isFalse (by intro hc; cases hc; exact h rfl)
  | .rat a, .rat b =>
    if h : a = b then .isTrue (by rw [h]) else .isFalse (by intro hc; cases hc; exact h rfl)
  | .seq a, .seq b =>
    match Value.decEqList a b with
    | .isTrue h => .isTrue (by rw [h])
    | .isFalse h => .isFalse (by intro hc; cases hc; exact h rfl)
  | .int _, .str _ => .isFalse (by intro hc; cases hc)
  | .int _, .rat _ => .isFalse (by intro hc; cases hc)
  | .int _, .seq _ => .isFalse (by intro hc; cases hc)
  | .str _, .int _ => .isFalse (by intro hc; cases hc)
  | .str _, .rat _ => .isFalse (by intro hc; cases hc)
  | .str _, .seq _ => .isFalse (by intro hc; cases hc)
  | .rat _, .int _ => .isFalse (by intro hc; cases hc)
  | .rat _, .str _ => .isFalse (by intro hc; cases hc)
  | .rat _, .seq _ => .isFalse (by intro hc; cases hc)
  | .seq _, .int _ => .isFalse (by intro hc; cases hc)
  | .seq _, .str _ => .isFalse (by intro hc; cases hc)
  | .seq _, .rat _ => .isFalse (by intro hc; cases hc)

def Value.decEqList : (a b : List Value) → Decidable (a = b)
  | [], [] => .isTrue rfl
  | [], _ :: _ => .isFalse (by intro hc; cases hc)
  | _ :: _, [] => .isFalse (by intro hc; cases hc)
  | x :: xs, y :: ys =>
    match Value.decEq x y, Value.decEqList xs ys with
    | .isTrue h1, .isTrue h2 => .isTrue (by rw [h1, h2])
    | .isFalse h1, _ => .isFalse (by intro hc; cases hc; exact h1 rfl)
    | _, .isFalse h2 => .isFalse (by intro hc; cases hc; exact h2 rfl)

end

instance : DecidableEq Value := Value.decEq

/-- A row: Python dict from column name to value, as an association list in
insertion order with unique keys. -/
abbrev Row := List (String × Value)

/-- Errors surfaced by the engine: a `run` kwarg (source) lookup failure,
a row/dict key lookup failure (Python `KeyError`), an index failure
(Python `IndexError`), a comparison or arithmetic type failure
(Python `TypeError`), and a failed `assert`. -/
inductive Err where
  | missingSource : String → Err
  | keyErr : Err
  | idxErr : Err
  | typeErr : Err
  | assertErr : Err
deriving DecidableEq, Repr

/-- `row[c]` as a total lookup: value of the first binding of column `c`. -/
def rowGet : Row → String → Option Value
  | [], _ => none
  | p :: r, c => if p.1 = c then some p.2 else rowGet r c

instance {ε α : Type} [DecidableEq ε] [DecidableEq α] : DecidableEq (Except ε α) :=
  fun x y =>
    match x, y with
    | .ok a, .ok b =>
      if h : a = b then .isTrue (by rw [h])
      else .isFalse (fun hc => h (Except.ok.inj hc))
    | .error e, .error f =>
      if h : e = f then .isTrue (by rw [h])
      else .isFalse (fun hc => h (Except.error.inj hc))
    | .ok _, .error _ => .isFalse (fun hc => Except.noConfusion hc)
    | .error _, .ok _ => .isFalse (fun hc => Except.noConfusion hc)

/-- `row[c]` raising `KeyError` when the column is absent. -/
def rowGetE (r : Row) (c : String) : Except Err Value :=
  match rowGet r c with
  | some v => .ok v
  | none => .error .keyErr

/-- Whether the row has a binding for column `c` (`c in row`). -/
def hasCol : Row → String → Bool
  | [], _ => false
  | p :: r, c => p.1 = c || hasCol r c

/-- `row[c] = v`: dict assignment — update the existing binding in place,
else append a new binding at the end. -/
def rowSet (r : Row) (c : String) (v : Value) : Row :=
  if hasCol r c then r.map (fun p => if p.1 = c then (c, v) else p)
  else r ++ [(c, v)]

/-- The row's column names in insertion order (`row.keys()`). -/
def rowCols (r : Row) : List String := r.map (·.1)

/-- `tuple(row[col] for col in keys)`: the key tuple of a row, `none` on a
missing key column. -/
def keyTuple (keys : List String) (r : Row) : Option (List Value) :=
  keys.mapM (rowGet r)

/-- Python `<`/`>` on two values: defined within one type (integers by
magnitude, strings lexicographically, sequences like tuples), a `TypeError`
(`none`) across types.  Python sequence comparison first skips equal elements
(cross-type `==` is `False`, not an error) and orders by the first differing
pair. -/
def valueCmp : Value → Value → Option Ordering
  | .int a, .int b => some (compare a b)
  | .str a, .str b => some (compare a b)
  | .rat a, .rat b => some (compare a b)
  | .seq a, .seq b => seqCmp a b
  | _, _ => none
where
  /-- Python sequence/tuple comparison: find the first index whose elements
  differ under `==`, then compare those two elements. -/
  seqCmp : List Value → List Value → Option Ordering
  | [], [] => some .eq
  | [], _ :: _ => some .lt
  | _ :: _, [] => some .gt
  | x :: xs, y :: ys => if x = y then seqCmp xs ys else valueCmp x y

/-- Python tuple comparison for key tuples (same eq-first discipline). -/
def tupleCmp (a b : List Value) : Option Ordering :=
  match a, b with
  | [], [] => some .eq
  | [], _ :: _ => some .lt
  | _ :: _, [] => some .gt
  | x :: xs, y :: ys => if x = y then tupleCmp xs ys else valueCmp x y

/-- `Map`: `for row in rows: yield from mapper(row)` — apply the mapper to
each row independently, concatenating the outputs in input order. -/
def mapOp (mapper : Row → List Row) (rows : List Row) : List Row :=
  rows.flatMap mapper

/-! ### C9: Map applies its mapper row-wise, preserving order -/

theorem mapOp_nil (m : Row → List Row) : mapOp m [] = [] := rfl

theorem mapOp_cons (m : Row → List Row) (r : Row) (rs : List Row) :
    mapOp m (r :: rs) = m r ++ mapOp m rs := rfl

/-- `DummyMapper`: yields exactly the row passed. -/
def dummyMapper (r : Row) : List Row := [r]

/-- C9: `Map` applies the mapper independently to each input row in input
order, concatenating the emitted rows; a one-row-per-row mapper preserves
length and relative order. -/
theorem c9_map_rowwise (m : Row → List Row) (rows : List Row)
    (h1 : ∀ r, (m r).length = 1) :
    mapOp m [] = [] ∧
    (∀ r rs, mapOp m (r :: rs) = m r ++ mapOp m rs) ∧
    (mapOp m rows).length = rows.length ∧
    mapOp m rows = rows.map (fun r => (m r).headI) := by
  refine ⟨rfl, fun r rs => rfl, ?_, ?_⟩
  · induction rows with
    | nil => rfl
    | cons r rs ih =>
      rw [mapOp_cons, List.length_append, ih, h1 r, List.length_cons]
      omega
  · induction rows with
    | nil => rfl
    | cons r rs ih =>
      have hr := h1 r
      obtain ⟨x, hx⟩ : ∃ x, m r = [x] := by
        cases hmr : m r with
        | nil => simp [hmr] at hr
        | cons a t =>
          cases t with
          | nil => exact ⟨a, rfl⟩
          | cons b t' => simp [hmr] at hr
      simp only [mapOp, List.flatMap_cons, List.map_cons, hx]
      simpa [mapOp] using ih

/-! ### Grouping (`itertools.groupby`) and Reduce -/

/-- Worker for `groupRuns`: `k` is the key of the current run, `acc` the
current run's rows in reverse. -/
def runsGo (f : α → κ) [DecidableEq κ] (k : κ) (acc : List α) : List α → List (κ × List α)
  | [] => [(k, acc.reverse)]
  | x :: xs =>
    if f x = k then runsGo f k (x :: acc) xs
    else (k, acc.reverse) :: runsGo f (f x) [x] xs

/-- `itertools.groupby(l, key=f)`: the maximal contiguous runs of elements
sharing a key, with the shared key. -/
def groupRuns (f : α → κ) [DecidableEq κ] : List α → List (κ × List α)
  | [] => []
  | x :: xs => runsGo f (f x) [x] xs

theorem runsGo_nil (f : α → κ) [DecidableEq κ] (k : κ) (acc : List α) :
    runsGo f k acc [] = [(k, acc.reverse)] := rfl

theorem runsGo_cons (f : α → κ) [DecidableEq κ] (k : κ) (acc : List α)
    (x : α) (xs : List α) :
    runsGo f k acc (x :: xs) =
      if f x = k then runsGo f k (x :: acc) xs
      else (k, acc.reverse) :: runsGo f (f x) [x] xs := rfl

theorem groupRuns_nil (f : α → κ) [DecidableEq κ] : groupRuns f ([] : List α) = [] := rfl

theorem runsGo_eq (f : α → κ) [DecidableEq κ] (k : κ) (acc : List α) (xs : List α) :
    runsGo f k acc xs =
      (k, acc.reverse ++ xs.takeWhile (fun a => f a = k)) ::
        groupRuns f (xs.dropWhile (fun a => f a = k)) := by
  induction xs generalizing acc with
  | nil => rw [runsGo_nil]; simp [groupRuns_nil]
  | cons x xs ih =>
    rw [runsGo_cons]
    by_cases h : f x = k
    · rw [if_pos h, ih]
      simp [List.takeWhile_cons, List.dropWhile_cons, h]
    · rw [if_neg h]
      rw [List.takeWhile_cons_of_neg (by simpa using h),
        List.dropWhile_cons_of_neg (by simpa using h), List.append_nil]
      rfl

/-- Master characterization: the first group is the head together with the
longest equal-key run following it; the rest are the runs of the remainder. -/
theorem groupRuns_cons (f : α → κ) [DecidableEq κ] (x : α) (xs : List α) :
    groupRuns f (x :: xs) =
      (f x, x :: xs.takeWhile (fun a => f a = f x)) ::
        groupRuns f (xs.dropWhile (fun a => f a = f x)) := by
  show runsGo f (f x) [x] xs = _
  rw [runsGo_eq]
  simp

/-- The groups partition the input: flattening them restores the stream. -/
theorem groupRuns_flatten (f : α → κ) [DecidableEq κ] :
    ∀ l : List α, (groupRuns f l).flatMap (·.2) = l
  | [] => by rw [groupRuns_nil]; rfl
  | x :: xs => by
    rw [groupRuns_cons, List.flatMap_cons,
      groupRuns_flatten f (xs.dropWhile (fun a => f a = f x))]
    simp [List.takeWhile_append_dropWhile]
termination_by l => l.length
decreasing_by
  simp only [List.length_cons]
  exact Nat.lt_succ_of_le (List.dropWhile_sublist _).length_le

/-- Every group is nonempty and all its rows share the group key. -/
theorem groupRuns_key_const (f : α → κ) [DecidableEq κ] :
    ∀ l : List α, ∀ g ∈ groupRuns f l, g.2 ≠ [] ∧ ∀ a ∈ g.2, f a = g.1
  | [] => by simp [groupRuns_nil]
  | x :: xs => by
    rw [groupRuns_cons]
    intro g hg
    rcases List.mem_cons.mp hg with h | h
    · subst h
      refine ⟨by simp, ?_⟩
      intro a ha
      show f a = f x
      have ha' : a ∈ x :: xs.takeWhile (fun a => decide (f a = f x)) := ha
      rcases List.mem_cons.mp ha' with rfl | ha''
      · rfl
      · simpa using List.mem_takeWhile_imp ha''
    · exact groupRuns_key_const f (xs.dropWhile (fun a => f a = f x)) g h
termination_by l => l.length
decreasing_by
  simp only [List.length_cons]
  exact Nat.lt_succ_of_le (List.dropWhile_sublist _).length_le

/-- Maximality: consecutive groups carry different keys. -/
theorem groupRuns_chain (f : α → κ) [DecidableEq κ] :
    ∀ l : List α, List.Chain' (fun g h => g.1 ≠ h.1) (groupRuns f l)
  | [] => by simp [groupRuns_nil]
  | x :: xs => by
    rw [groupRuns_cons]
    have htail := groupRuns_chain f (xs.dropWhile (fun a => f a = f x))
    refine List.chain'_cons'.mpr ⟨?_, htail⟩
    intro g hg
    cases hd : xs.dropWhile (fun a => f a = f x) with
    | nil => rw [hd] at hg; simp [groupRuns_nil] at hg
    | cons y ys =>
      rw [hd, groupRuns_cons] at hg
      rw [List.head?_cons, Option.mem_def, Option.some_inj] at hg
      subst hg
      have hy : ¬ (f y = f x) := by
        have := List.head?_dropWhile_not (fun a => decide (f a = f x)) xs
        rw [show xs.dropWhile (fun a => decide (f a = f x)) =
              xs.dropWhile (fun a => f a = f x) from rfl, hd] at this
        simpa using this
      simpa using fun h => hy h.symm
termination_by l => l.length
decreasing_by
  simp only [List.length_cons]
  exact Nat.lt_succ_of_le (List.dropWhile_sublist _).length_le

/-- A reducer strategy: receives the group key argument (as passed by
`Reduce`) and the group's rows, may fail with a Python error. -/
abbrev Reducer := List Value → List Row → Except Err (List Row)

/-- `Reduce`: with an empty key list the whole input is one group keyed `()`;
otherwise the stream is split into contiguous key-tuple runs and the reducer
is invoked once per run.  The source passes `tuple(self.keys)` — the key
column NAMES — as the reducer's first argument (operations.py line 87);
a missing key column on any row is a `KeyError`. -/
def reduceOp (red : Reducer) (keys : List String) (rows : List Row) :
    Except Err (List Row) :=
  if keys.isEmpty then red [] rows
  else if ∀ r ∈ rows, (keyTuple keys r).isSome then
    ((groupRuns (keyTuple keys) rows).mapM
      (fun g => red (keys.map Value.str) g.2)).map List.flatten
  else .error .keyErr

/-- Loop of `{col: row[col] for col in group_key}`: dict-comprehension
insertions; each element of the key argument must be a string naming a
present column, else `KeyError`. -/
def projKeysGo : List Value → Row → Row → Except Err Row
  | [], _, acc => .ok acc
  | v :: gk, r, acc =>
    match v with
    | .str c =>
      match rowGet r c with
      | some val => projKeysGo gk r (rowSet acc c val)
      | none => .error .keyErr
    | _ => .error .keyErr

/-- `{col: row[col] for col in group_key}`. -/
def projKeys (gk : List Value) (r : Row) : Except Err Row :=
  projKeysGo gk r []

/-- The `Count` reducer: one output row per group holding the first row's
key-column values plus the group's row count. -/
def countRed (column : String) : Reducer := fun gk rows => do
  let newRow ←
    match rows with
    | [] => Except.ok ([] : Row)
    | r :: _ => if gk.isEmpty then Except.ok ([] : Row) else projKeys gk r
  Except.ok [rowSet newRow column (.int rows.length)]

/-! ### Row-level helper lemmas -/

theorem rowGet_append (r s : Row) (c : String) :
    rowGet (r ++ s) c = (rowGet r c).orElse (fun _ => rowGet s c) := by
  induction r with
  | nil => simp [rowGet]
  | cons q r ih =>
    by_cases hq : q.1 = c
    · simp [rowGet, hq]
    · simp [rowGet, hq, ih]

theorem rowGet_map_set_ne (r : Row) (c c' : String) (v : Value) (h : c' ≠ c) :
    rowGet (r.map (fun p => if p.1 = c then (c, v) else p)) c' = rowGet r c' := by
  induction r with
  | nil => rfl
  | cons q r ih =>
    by_cases hq : q.1 = c
    · have h1 : ¬ ((c : String) = c') := fun hh => h (hh ▸ rfl)
      have h2 : ¬ (q.1 = c') := fun hh => h (by rw [← hh, hq])
      simp [rowGet, hq, h1, h2, ih]
    · by_cases hqc : q.1 = c'
      · simp [rowGet, hq, hqc, h, ih]
      · simp [rowGet, hq, hqc, h, ih]

theorem rowGet_map_set_self (r : Row) (c : String) (v : Value) (h : hasCol r c) :
    rowGet (r.map (fun p => if p.1 = c then (c, v) else p)) c = some v := by
  induction r with
  | nil => cases h
  | cons q r ih =>
    by_cases hq : q.1 = c
    · simp [rowGet, hq]
    · have h' : hasCol r c := by
        unfold hasCol at h
        simpa [hq] using h
      simp [rowGet, hq, ih h']

theorem hasCol_false_get (r : Row) (c : String) (h : ¬ hasCol r c) :
    rowGet r c = none := by
  induction r with
  | nil => rfl
  | cons q r ih =>
    unfold hasCol at h
    by_cases hq : q.1 = c
    · exact absurd (by simp [hq]) h
    · have h' : ¬ hasCol r c := fun hh => h (by simp [hh])
      simp [rowGet, hq, ih h']

/-- Dict assignment then lookup: the set column reads back the new value,
other columns are unchanged. -/
theorem rowGet_rowSet (r : Row) (c c' : String) (v : Value) :
    rowGet (rowSet r c v) c' = if c' = c then some v else rowGet r c' := by
  unfold rowSet
  by_cases hc : hasCol r c
  · rw [if_pos hc]
    by_cases h : c' = c
    · subst h
      rw [if_pos rfl]
      exact rowGet_map_set_self r c' v hc
    · rw [if_neg h]
      exact rowGet_map_set_ne r c c' v h
  · rw [if_neg hc, rowGet_append]
    by_cases h : c' = c
    · subst h
      rw [if_pos rfl, hasCol_false_get r c' hc]
      simp [rowGet]
    · rw [if_neg h]
      cases hr : rowGet r c' with
      | some w => simp
      | none => simp [rowGet, Ne.symm h]

theorem keyTuple_congr (keys : List String) (a b : Row)
    (h : ∀ c ∈ keys, rowGet a c = rowGet b c) :
    keyTuple keys a = keyTuple keys b := by
  unfold keyTuple
  induction keys with
  | nil => rfl
  | cons c ks ih =>
    rw [List.mapM_cons, List.mapM_cons, h c (by simp),
      ih (fun c' hc' => h c' (by simp [hc']))]

theorem keyTuple_isSome_get (keys : List String) (r : Row) :
    (keyTuple keys r).isSome → ∀ c ∈ keys, (rowGet r c).isSome := by
  induction keys with
  | nil => intro _ c hc; cases hc
  | cons c ks ih =>
    intro h c' hc'
    unfold keyTuple at h
    rw [List.mapM_cons] at h
    cases hg : rowGet r c with
    | none => rw [hg] at h; simp at h
    | some v =>
      rw [hg] at h
      cases hm : ks.mapM (rowGet r) with
      | none => rw [hm] at h; simp at h
      | some vs =>
        rcases List.mem_cons.mp hc' with rfl | hc''
        · simp [hg]
        · exact ih (by show (ks.mapM (rowGet r)).isSome; rw [hm]; rfl) c' hc''

/-- Loop of the pure key-column projection. -/
def projPGo : List String → Row → Row → Row
  | [], _, acc => acc
  | c :: ks, r, acc =>
    match rowGet r c with
    | some v => projPGo ks r (rowSet acc c v)
    | none => projPGo ks r acc

theorem projPGo_cons (c : String) (ks : List String) (r acc : Row) :
    projPGo (c :: ks) r acc =
      match rowGet r c with
      | some v => projPGo ks r (rowSet acc c v)
      | none => projPGo ks r acc := rfl

/-- Pure projection onto key columns: the `new_row` the standard reducers
build from a group's first row when all key columns are present. -/
def projP (keys : List String) (r : Row) : Row :=
  projPGo keys r []

theorem projKeysGo_ok (r : Row) :
    ∀ (keys : List String) (acc : Row), (∀ c ∈ keys, (rowGet r c).isSome) →
      projKeysGo (keys.map Value.str) r acc = .ok (projPGo keys r acc) := by
  intro keys
  induction keys with
  | nil => intro acc _; rfl
  | cons c ks ih =>
    intro acc h
    show (match rowGet r c with
      | some val => projKeysGo (ks.map Value.str) r (rowSet acc c val)
      | none => Except.error Err.keyErr) = _
    cases hg : rowGet r c with
    | none => have := h c (by simp); rw [hg] at this; cases this
    | some v =>
      show projKeysGo (ks.map Value.str) r (rowSet acc c v) = _
      rw [ih (rowSet acc c v) (fun c' hc' => h c' (by simp [hc']))]
      show _ = Except.ok (match rowGet r c with
        | some v => projPGo ks r (rowSet acc c v)
        | none => projPGo ks r acc)
      rw [hg]

/-- With all key columns present, `projKeys` succeeds with the pure
projection. -/
theorem projKeys_ok (keys : List String) (r : Row)
    (h : ∀ c ∈ keys, (rowGet r c).isSome) :
    projKeys (keys.map Value.str) r = .ok (projP keys r) :=
  projKeysGo_ok r keys [] h

theorem projPGo_get (r : Row) (c' : String) :
    ∀ (ks : List String) (acc : Row), (∀ c ∈ ks, (rowGet r c).isSome) →
      rowGet (projPGo ks r acc) c' =
        if c' ∈ ks then rowGet r c' else rowGet acc c' := by
  intro ks
  induction ks with
  | nil => intro acc _; simp [projPGo]
  | cons c ks ih =>
    intro acc hks
    cases hg : rowGet r c with
    | none => have := hks c (by simp); rw [hg] at this; cases this
    | some v =>
      simp only [projPGo_cons, hg]
      rw [ih (rowSet acc c v) (fun c'' hc'' => hks c'' (by simp [hc'']))]
      by_cases hmem : c' ∈ ks
      · simp [hmem]
      · rw [if_neg hmem, rowGet_rowSet]
        by_cases hc : c' = c
        · subst hc; simp [hg]
        · simp [hc, hmem, Ne.symm hc]

theorem projP_get (keys : List String) (r : Row)
    (h : ∀ c ∈ keys, (rowGet r c).isSome) (c' : String) :
    rowGet (projP keys r) c' = if c' ∈ keys then rowGet r c' else none := by
  rw [projP, projPGo_get r c' keys [] h]
  by_cases hmem : c' ∈ keys <;> simp [hmem, rowGet]

theorem exceptMapM_ok {α β : Type} {F : α → Except Err β} {G : α → β}
    (l : List α) (h : ∀ a ∈ l, F a = .ok (G a)) : l.mapM F = .ok (l.map G) := by
  induction l with
  | nil => rfl
  | cons a l ih =>
    rw [List.mapM_cons, h a (by simp), List.map_cons,
      ih (fun a' ha' => h a' (by simp [ha']))]
    rfl

theorem flatten_singletons {α β : Type} (l : List α) (G : α → β) :
    (l.map (fun a => [G a])).flatten = l.map G := by
  induction l with
  | nil => rfl
  | cons a l ih => simp [ih]

/-! ### Counting maximal contiguous runs with a given key -/

/-- Number of maximal contiguous `k`-runs in the rest of a stream; `inK`
records whether the previous element already belonged to a `k`-run. -/
def runCount (f : α → κ) [DecidableEq κ] (k : κ) : List α → Bool → Nat
  | [], _ => 0
  | x :: xs, inK =>
    if f x = k then (if inK then runCount f k xs true else 1 + runCount f k xs true)
    else runCount f k xs false

theorem runCount_nil (f : α → κ) [DecidableEq κ] (k : κ) (b : Bool) :
    runCount f k [] b = 0 := rfl

theorem runCount_cons (f : α → κ) [DecidableEq κ] (k : κ) (x : α) (xs : List α)
    (b : Bool) :
    runCount f k (x :: xs) b =
      if f x = k then (if b then runCount f k xs true else 1 + runCount f k xs true)
      else runCount f k xs false := rfl

theorem countP_runsGo (f : α → κ) [DecidableEq κ] (k : κ)  (xs : List α) :
    ∀ (kc : κ) (acc : List α),
    (runsGo f kc acc xs).countP (fun g => g.1 = k) =
      (if kc = k then 1 else 0) + runCount f k xs (decide (kc = k)) := by
  induction xs with
  | nil =>
    intro kc acc
    rw [runsGo_nil, runCount_nil]
    by_cases h : kc = k
    · simp [List.countP_cons, h]
    · simp [List.countP_cons, h]
  | cons x xs ih =>
    intro kc acc
    rw [runsGo_cons, runCount_cons]
    by_cases hx : f x = kc
    · rw [if_pos hx, ih]
      by_cases hk : kc = k
      · simp [hx, hk]
      · have hxk : ¬ (f x = k) := fun hh => hk (hx ▸ hh)
        simp [hxk, hk]
    · rw [if_neg hx, List.countP_cons, ih]
      by_cases hxk : f x = k
      · have hkck : ¬ (kc = k) := fun hh => hx (by rw [hxk, hh])
        simp [hxk, hkck]
      · by_cases hk : kc = k
        · simp [hxk, hk]
          omega
        · simp [hxk, hk]

theorem countP_groupRuns (f : α → κ) [DecidableEq κ] (k : κ) (l : List α) :
    (groupRuns f l).countP (fun g => g.1 = k) = runCount f k l false := by
  cases l with
  | nil => rfl
  | cons x xs =>
    show (runsGo f (f x) [x] xs).countP _ = _
    rw [countP_runsGo, runCount_cons]
    by_cases hx : f x = k <;> simp [hx]

/-- If a `k`-element follows somewhere after the current position then at
least one `k`-run is still counted, provided we are not already inside a
`k`-run or a non-`k` element intervenes first. -/
theorem runCount_ge_one (f : α → κ) [DecidableEq κ] (k : κ) (y : α)
    (hy : f y = k) :
    ∀ (m l3 : List α) (b : Bool), (b = false ∨ ∃ w ∈ m, f w ≠ k) →
      1 ≤ runCount f k (m ++ y :: l3) b := by
  intro m
  induction m with
  | nil =>
    intro l3 b hb
    rcases hb with rfl | ⟨w, hw, _⟩
    · rw [List.nil_append, runCount_cons, if_pos hy]
      simp
    · cases hw
  | cons a m ih =>
    intro l3 b hb
    rw [List.cons_append, runCount_cons]
    by_cases ha : f a = k
    · rw [if_pos ha]
      cases b with
      | false =>
        simp only [Bool.false_eq_true, if_false]
        omega
      | true =>
        rw [if_pos rfl]
        rcases hb with hb | ⟨w, hw, hwk⟩
        · cases hb
        · rcases List.mem_cons.mp hw with rfl | hw'
          · exact absurd ha hwk
          · exact ih l3 true (Or.inr ⟨w, hw', hwk⟩)
    · rw [if_neg ha]
      exact ih l3 false (Or.inl rfl)

/-- Two same-key elements separated by a different-key element always yield
at least two maximal `k`-runs. -/
theorem runCount_sep (f : α → κ) [DecidableEq κ] (k : κ) (x y w : α)
    (hx : f x = k) (hy : f y = k) (hwk : f w ≠ k) :
    ∀ (l1 l2 l3 : List α) (b : Bool), w ∈ l2 →
      (if b then 1 else 2) ≤ runCount f k (l1 ++ (x :: (l2 ++ y :: l3))) b := by
  intro l1
  induction l1 with
  | nil =>
    intro l2 l3 b hw
    rw [List.nil_append, runCount_cons, if_pos hx]
    have hone := runCount_ge_one f k y hy l2 l3 true (Or.inr ⟨w, hw, hwk⟩)
    cases b with
    | false =>
      simp only [Bool.false_eq_true, if_false]
      omega
    | true =>
      simp only [if_pos rfl]
      simpa using hone
  | cons a l1 ih =>
    intro l2 l3 b hw
    rw [List.cons_append, runCount_cons]
    by_cases ha : f a = k
    · rw [if_pos ha]
      have htrue : 1 ≤ runCount f k (l1 ++ (x :: (l2 ++ y :: l3))) true := by
        simpa using ih l2 l3 true hw
      cases b with
      | false => simp only [Bool.false_eq_true, if_false]; omega
      | true => simpa using htrue
    · rw [if_neg ha]
      have hfalse : 2 ≤ runCount f k (l1 ++ (x :: (l2 ++ y :: l3))) false := by
        simpa using ih l2 l3 false hw
      cases b with
      | false => simpa using hfalse
      | true => simp only [if_true, reduceIte]; omega

theorem countP_congr_mem {α : Type} (p q : α → Bool) (l : List α)
    (h : ∀ a ∈ l, p a = q a) : l.countP p = l.countP q := by
  induction l with
  | nil => rfl
  | cons a l ih =>
    rw [List.countP_cons, List.countP_cons, h a (by simp),
      ih (fun a' ha' => h a' (by simp [ha']))]

/-! ### C3: what Reduce passes as the group key argument -/

/-- A reducer that records the key argument it receives. -/
def recRed : Reducer := fun gk _ => .ok [[("rec", Value.seq gk)]]

/-- C3 is false as stated: for keys `["a"]` and the single row `{a: 7}`,
`Reduce` passes the key column NAMES (`("a",)`) to the reducer, not the
extracted values (`(7,)`) — `operations.py` line 87 passes
`tuple(self.keys)`. -/
theorem c3_counterexample :
    reduceOp recRed ["a"] [[("a", Value.int 7)]]
      = .ok [[("rec", Value.seq [Value.str "a"])]] ∧
    reduceOp recRed ["a"] [[("a", Value.int 7)]]
      ≠ .ok [[("rec", Value.seq [Value.int 7])]] := by
  constructor
  · decide
  · decide

/-- C3 (amended): for a non-empty key list over rows that all carry the key
columns, Reduce invokes the reducer exactly once per maximal contiguous
same-key-tuple group — the groups partition the stream, are nonempty with a
constant key tuple, and consecutive groups differ in key — passing as first
argument the tuple of key column names (not the extracted values). -/
theorem c3_reduce_per_group (red : Reducer) (keys : List String) (rows : List Row)
    (hk : keys ≠ []) (hcols : ∀ r ∈ rows, (keyTuple keys r).isSome) :
    reduceOp red keys rows =
      ((groupRuns (keyTuple keys) rows).mapM
        (fun g => red (keys.map Value.str) g.2)).map List.flatten ∧
    (groupRuns (keyTuple keys) rows).flatMap (·.2) = rows ∧
    (∀ g ∈ groupRuns (keyTuple keys) rows, g.2 ≠ [] ∧ ∀ r ∈ g.2, keyTuple keys r = g.1) ∧
    List.Chain' (fun g g' => g.1 ≠ g'.1) (groupRuns (keyTuple keys) rows) := by
  refine ⟨?_, groupRuns_flatten _ rows, groupRuns_key_const _ rows, groupRuns_chain _ rows⟩
  unfold reduceOp
  rw [if_neg (by simpa using hk), if_pos hcols]

/-- Witness for C3's amended theorem: two contiguous groups with `Count`. -/
theorem c3_reduce_per_group_witness :
    ((["a"] : List String) ≠ [] ∧
      ∀ r ∈ ([[("a", Value.int 1)], [("a", Value.int 2)]] : List Row),
        (keyTuple ["a"] r).isSome) ∧
    reduceOp (countRed "n") ["a"] [[("a", Value.int 1)], [("a", Value.int 2)]] =
      ((groupRuns (keyTuple ["a"]) [[("a", Value.int 1)], [("a", Value.int 2)]]).mapM
        (fun g => countRed "n" (["a"].map Value.str) g.2)).map List.flatten :=
  ⟨⟨by decide, by decide⟩,
    (c3_reduce_per_group (countRed "n") ["a"]
      [[("a", Value.int 1)], [("a", Value.int 2)]] (by decide) (by decide)).1⟩

/-! ### C7: grouping is positional, not global -/

theorem countRed_red (c k0 : String) (ks0 : List String) (r : Row) (t : List Row) :
    countRed c ((k0 :: ks0).map Value.str) (r :: t) =
      (projKeys ((k0 :: ks0).map Value.str) r) >>= (fun newRow =>
        Except.ok [rowSet newRow c (.int (r :: t : List Row).length)]) := rfl

/-- On a nonempty group whose first row carries all key columns, `Count`
emits exactly one row: the first row's key projection plus the count. -/
theorem countRed_ok (c : String) (keys : List String) (hk : keys ≠ [])
    (r : Row) (t : List Row)
    (hrsome : ∀ c' ∈ keys, (rowGet r c').isSome) :
    countRed c (keys.map Value.str) (r :: t) =
      .ok [rowSet (projP keys r) c (.int (r :: t : List Row).length)] := by
  obtain ⟨k0, ks0, rfl⟩ : ∃ k0 ks0, keys = k0 :: ks0 := by
    cases keys with
    | nil => exact absurd rfl hk
    | cons k0 ks0 => exact ⟨k0, ks0, rfl⟩
  rw [countRed_red, projKeys_ok _ r hrsome]
  rfl

/-- C7: two same-key rows separated by a different-key row form two distinct
contiguous groups, and Reduce with the `Count` reducer emits two independent
result rows for that key. -/
theorem c7_positional_grouping (keys : List String) (c : String) (kv : List Value)
    (l1 l2 l3 : List Row) (x y w : Row)
    (hk : keys ≠ []) (hc : c ∉ keys)
    (hx : keyTuple keys x = some kv) (hy : keyTuple keys y = some kv)
    (hw : w ∈ l2) (hwk : keyTuple keys w ≠ some kv)
    (hcols : ∀ r ∈ l1 ++ (x :: (l2 ++ y :: l3)), (keyTuple keys r).isSome) :
    2 ≤ (groupRuns (keyTuple keys) (l1 ++ (x :: (l2 ++ y :: l3)))).countP
        (fun g => g.1 = some kv) ∧
    ∃ out, reduceOp (countRed c) keys (l1 ++ (x :: (l2 ++ y :: l3))) = .ok out ∧
      2 ≤ out.countP (fun r => keyTuple keys r = some kv) := by
  have hcount : 2 ≤ (groupRuns (keyTuple keys) (l1 ++ (x :: (l2 ++ y :: l3)))).countP
      (fun g => g.1 = some kv) := by
    rw [countP_groupRuns]
    have := runCount_sep (keyTuple keys) (some kv) x y w hx hy hwk l1 l2 l3 false hw
    simpa using this
  refine ⟨hcount, ?_⟩
  have hflat := groupRuns_flatten (keyTuple keys) (l1 ++ (x :: (l2 ++ y :: l3)))
  have hfirst : ∀ g ∈ groupRuns (keyTuple keys) (l1 ++ (x :: (l2 ++ y :: l3))),
      ∀ r t, g.2 = r :: t → ∀ c' ∈ keys, (rowGet r c').isSome := by
    intro g hg r t hg2 c' hc'
    have hrmem : r ∈ l1 ++ (x :: (l2 ++ y :: l3)) := by
      rw [← hflat]
      exact List.mem_flatMap.mpr ⟨g, hg, by rw [hg2]; simp⟩
    exact keyTuple_isSome_get keys r (hcols r hrmem) c' hc'
  have hred : ∀ g ∈ groupRuns (keyTuple keys) (l1 ++ (x :: (l2 ++ y :: l3))),
      countRed c (keys.map Value.str) g.2 =
        .ok [rowSet (projP keys g.2.headI) c (.int g.2.length)] := by
    intro g hg
    obtain ⟨hne, _⟩ := groupRuns_key_const (keyTuple keys) _ g hg
    cases hg2 : g.2 with
    | nil => exact absurd hg2 hne
    | cons r t =>
      rw [countRed_ok c keys hk r t (hfirst g hg r t hg2)]
      rfl
  have hmapM := exceptMapM_ok (groupRuns (keyTuple keys) (l1 ++ (x :: (l2 ++ y :: l3))))
    hred
  have hout : reduceOp (countRed c) keys (l1 ++ (x :: (l2 ++ y :: l3))) =
      .ok ((groupRuns (keyTuple keys) (l1 ++ (x :: (l2 ++ y :: l3)))).map
        (fun g => rowSet (projP keys g.2.headI) c (.int g.2.length))) := by
    unfold reduceOp
    rw [if_neg (by simpa using hk), if_pos hcols, hmapM]
    show Except.ok (List.flatten _) = _
    rw [flatten_singletons]
  refine ⟨_, hout, ?_⟩
  have hGkey : ∀ g ∈ groupRuns (keyTuple keys) (l1 ++ (x :: (l2 ++ y :: l3))),
      keyTuple keys (rowSet (projP keys g.2.headI) c (.int g.2.length)) = g.1 := by
    intro g hg
    obtain ⟨hne, hgkeys⟩ := groupRuns_key_const (keyTuple keys) _ g hg
    cases hg2 : g.2 with
    | nil => exact absurd hg2 hne
    | cons r t =>
      have hrsome := hfirst g hg r t hg2
      show keyTuple keys (rowSet (projP keys r) c
        (.int (r :: t : List Row).length)) = g.1
      have hcongr : keyTuple keys (rowSet (projP keys r) c
          (.int (r :: t : List Row).length)) = keyTuple keys r := by
        apply keyTuple_congr
        intro c' hc'
        rw [rowGet_rowSet, if_neg (fun hh => hc (by rw [← hh]; exact hc'))]
        rw [projP_get keys r hrsome c', if_pos hc']
      rw [hcongr]
      exact hgkeys r (by rw [hg2]; simp)
  have hcongr2 := countP_congr_mem
    (fun g => decide (keyTuple keys
      (rowSet (projP keys g.2.headI) c (.int g.2.length)) = some kv))
    (fun g => decide (g.1 = some kv))
    (groupRuns (keyTuple keys) (l1 ++ (x :: (l2 ++ y :: l3))))
    (fun g hg => by
      show decide (keyTuple keys
        (rowSet (projP keys g.2.headI) c (.int g.2.length)) = some kv) =
        decide (g.1 = some kv)
      rw [hGkey g hg])
  rw [List.countP_map]
  show 2 ≤ List.countP (fun g : Option (List Value) × List Row =>
    decide (keyTuple keys
      (rowSet (projP keys g.2.headI) c (.int g.2.length)) = some kv)) _
  rw [hcongr2]
  exact hcount

/-- Witness for C7: key `a = 1` appears in two separated runs. -/
theorem c7_positional_grouping_witness :
    ((["a"] : List String) ≠ [] ∧ "n" ∉ (["a"] : List String) ∧
      keyTuple ["a"] [("a", Value.int 1)] = some [Value.int 1] ∧
      keyTuple ["a"] [("a", Value.int 2)] ≠ some [Value.int 1]) ∧
    (2 ≤ (groupRuns (keyTuple ["a"])
        ([] ++ ([("a", Value.int 1)] :: ([[("a", Value.int 2)]] ++
          [("a", Value.int 1)] :: [])))).countP (fun g => g.1 = some [Value.int 1]) ∧
      ∃ out, reduceOp (countRed "n") ["a"]
          ([] ++ ([("a", Value.int 1)] :: ([[("a", Value.int 2)]] ++
            [("a", Value.int 1)] :: []))) = .ok out ∧
        2 ≤ out.countP (fun r => keyTuple ["a"] r = some [Value.int 1])) :=
  ⟨⟨by decide, by decide, by decide, by decide⟩,
    c7_positional_grouping ["a"] "n" [Value.int 1] [] [[("a", Value.int 2)]] []
      [("a", Value.int 1)] [("a", Value.int 1)] [("a", Value.int 2)]
      (by decide) (by decide) (by decide) (by decide) (by decide) (by decide)
      (by decide)⟩

/-! ### C4: runs mutate the source's rows in place (`Divide` mapper) -/

theorem hasCol_append (r s : Row) (c : String) :
    hasCol (r ++ s) c = (hasCol r c || hasCol s c) := by
  induction r with
  | nil => simp [hasCol]
  | cons q r ih => by_cases hq : q.1 = c <;> simp [hasCol, hq, ih]

theorem hasCol_map_set (r : Row) (c c' : String) (v : Value) :
    hasCol (r.map (fun p => if p.1 = c then (c, v) else p)) c' = hasCol r c' := by
  induction r with
  | nil => rfl
  | cons q r ih =>
    by_cases hq : q.1 = c
    · rw [List.map_cons, if_pos hq]
      show ((c : String) = c' || _) = (q.1 = c' || _)
      rw [ih, hq]
    · rw [List.map_cons, if_neg hq]
      show (q.1 = c' || _) = (q.1 = c' || _)
      rw [ih]

theorem hasCol_rowSet_self (r : Row) (c : String) (v : Value) :
    hasCol (rowSet r c v) c = true := by
  unfold rowSet
  by_cases hc : hasCol r c
  · rw [if_pos hc, hasCol_map_set]
    exact hc
  · rw [if_neg hc, hasCol_append]
    simp [hasCol]

theorem hasCol_false_entry (r : Row) (c : String) (h : ¬ hasCol r c) :
    ∀ p ∈ r, p.1 ≠ c := by
  induction r with
  | nil => intro p hp; cases hp
  | cons q r ih =>
    intro p hp
    unfold hasCol at h
    rcases List.mem_cons.mp hp with rfl | hp'
    · intro hc; exact h (by simp [hc])
    · exact ih (fun hh => h (by simp [hh])) p hp'

theorem rowSet_key_entry (r : Row) (c : String) (v : Value) :
    ∀ p ∈ rowSet r c v, p.1 = c → p = (c, v) := by
  intro p hp hpc
  unfold rowSet at hp
  by_cases hc : hasCol r c
  · rw [if_pos hc] at hp
    obtain ⟨q, hq, hfq⟩ := List.mem_map.mp hp
    by_cases hqc : q.1 = c
    · rw [if_pos hqc] at hfq; exact hfq.symm
    · rw [if_neg hqc] at hfq
      exact absurd (hfq ▸ hpc) hqc
  · rw [if_neg hc] at hp
    rcases List.mem_append.mp hp with hp' | hp'
    · exact absurd hpc (hasCol_false_entry r c hc p hp')
    · simpa using hp'

/-- Assigning the same value to the same column twice is idempotent. -/
theorem rowSet_idem (r : Row) (c : String) (v : Value) :
    rowSet (rowSet r c v) c v = rowSet r c v := by
  have h1 : hasCol (rowSet r c v) c = true := hasCol_rowSet_self r c v
  show (if hasCol (rowSet r c v) c then _ else _) = _
  rw [if_pos h1]
  have hfix : ∀ p ∈ rowSet r c v, (fun p : String × Value =>
      if p.1 = c then (c, v) else p) p = id p := by
    intro p hp
    by_cases hpc : p.1 = c
    · show (if p.1 = c then (c, v) else p) = p
      rw [if_pos hpc, rowSet_key_entry r c v p hp hpc]
    · show (if p.1 = c then (c, v) else p) = p
      rw [if_neg hpc]
  rw [List.map_congr_left hfix, List.map_id]

/-- The multiplication loop of the `Product` mapper
(`prod = 1; for col in columns: prod *= row[col]`); rows hold integers here —
Python's sequence-repetition overloads of `*` are outside the claims. -/
def prodFold (r : Row) : List String → Int → Except Err Int
  | [], acc => .ok acc
  | c :: cols, acc =>
    match rowGet r c with
    | some (.int n) => prodFold r cols (acc * n)
    | some _ => .error .typeErr
    | none => .error .keyErr

/-- The `Product` mapper body:
`row[result_column] = prod; yield row` — it MUTATES the input row and yields
that same object. -/
def productMut (columns : List String) (res : String) (r : Row) : Except Err Row :=
  match prodFold r columns 1 with
  | .ok prod => .ok (rowSet r res (.int prod))
  | .error e => .error e

/-- One `run` of the pipeline `graph_from_iter(src).map(Product(columns, res))`
against a source factory that re-yields the SAME row objects on every call
(`lambda: iter(data)`, as in the repository's tests).  The state passed in is
the list of row objects the caller holds; `Product` assigns into those rows
in place, so a run returns the output rows together with the mutated backing
store — and they are the very same rows. -/
def runProductOnce (columns : List String) (res : String) (store : List Row) :
    Except Err (List Row × List Row) :=
  match store.mapM (productMut columns res) with
  | .ok out => .ok (out, out)
  | .error e => .error e

theorem prodFold_congr (cols : List String) (a b : Row)
    (h : ∀ c ∈ cols, rowGet a c = rowGet b c) :
    ∀ acc, prodFold a cols acc = prodFold b cols acc := by
  induction cols with
  | nil => intro acc; rfl
  | cons c cols ih =>
    intro acc
    show (match rowGet a c with
      | some (.int n) => prodFold a cols (acc * n)
      | some _ => Except.error Err.typeErr
      | none => Except.error Err.keyErr) =
      (match rowGet b c with
      | some (.int n) => prodFold b cols (acc * n)
      | some _ => Except.error Err.typeErr
      | none => Except.error Err.keyErr)
    rw [h c (by simp)]
    cases hb : rowGet b c with
    | none => rfl
    | some v =>
      cases v with
      | int n => exact ih (fun c' hc' => h c' (by simp [hc'])) (acc * n)
      | str s => rfl
      | rat q => rfl
      | seq l => rfl

/-- A successful `Product` application, re-applied to its own output,
succeeds with the same row when the result column is none of the operand
columns (the in-place mutation is idempotent in that case). -/
theorem productMut_idem (columns : List String) (res : String) (r r' : Row)
    (hres : res ∉ columns)
    (h : productMut columns res r = .ok r') :
    productMut columns res r' = .ok r' := by
  unfold productMut at h
  cases hp : prodFold r columns 1 with
  | error e => rw [hp] at h; exact Except.noConfusion h
  | ok prod =>
    rw [hp] at h
    have hr' : r' = rowSet r res (Value.int prod) := (Except.ok.inj h).symm
    have hsame : ∀ c ∈ columns, rowGet r' c = rowGet r c := by
      intro c hc
      rw [hr', rowGet_rowSet, if_neg (fun hh => hres (by rw [← hh]; exact hc))]
    unfold productMut
    rw [prodFold_congr columns r' r hsame 1, hp, hr']
    show Except.ok (rowSet (rowSet r res (Value.int prod)) res (Value.int prod)) =
      Except.ok (rowSet r res (Value.int prod))
    rw [rowSet_idem]

/-- Row-wise idempotence lifts to the whole store. -/
theorem exceptMapM_fix {α : Type} {F : α → Except Err α}
    (hF : ∀ a b, F a = .ok b → F b = .ok b) :
    ∀ (l out : List α), l.mapM F = .ok out → out.mapM F = .ok out := by
  intro l
  induction l with
  | nil =>
    intro out h
    rw [List.mapM_nil] at h
    cases h
    rfl
  | cons a l ih =>
    intro out h
    rw [List.mapM_cons] at h
    cases ha : F a with
    | error e => rw [ha] at h; exact Except.noConfusion h
    | ok b =>
      rw [ha] at h
      cases hl : l.mapM F with
      | error e => rw [hl] at h; exact Except.noConfusion h
      | ok bs =>
        rw [hl] at h
        have hout : out = b :: bs := (Except.ok.inj h).symm
        subst hout
        rw [List.mapM_cons, hF a b ha, ih bs hl]
        rfl

/-- C4 is false as stated: running the pipeline
`graph_from_iter(src).map(Product(columns=[a, b], result=a))` twice over a
factory re-yielding the same row objects gives different outputs
(`a = 16` then `a = 32` from `{a: 8, b: 2}`), because the first run wrote the
product into the source's own rows; the store visible to the second run has
also changed. -/
theorem c4_counterexample :
    runProductOnce ["a", "b"] "a" [[("a", Value.int 8), ("b", Value.int 2)]] =
      .ok ([[("a", Value.int 16), ("b", Value.int 2)]],
        [[("a", Value.int 16), ("b", Value.int 2)]]) ∧
    runProductOnce ["a", "b"] "a" [[("a", Value.int 16), ("b", Value.int 2)]] =
      .ok ([[("a", Value.int 32), ("b", Value.int 2)]],
        [[("a", Value.int 32), ("b", Value.int 2)]]) ∧
    ([[("a", Value.int 16), ("b", Value.int 2)]] : List Row) ≠
      [[("a", Value.int 32), ("b", Value.int 2)]] ∧
    ([[("a", Value.int 16), ("b", Value.int 2)]] : List Row) ≠
      [[("a", Value.int 8), ("b", Value.int 2)]] := by
  refine ⟨by decide, by decide, by decide, by decide⟩

/-- C4 (amended): a run of a `Product` pipeline writes the result column into
the source's own row objects, so the rows yielded by the factory are mutated;
but when the result column is none of the operand columns the write is
idempotent — a second run over the mutated store returns the same output and
leaves the store unchanged. -/
theorem c4_second_run_stable (columns : List String) (res : String)
    (store out1 st1 : List Row) (hres : res ∉ columns)
    (h1 : runProductOnce columns res store = .ok (out1, st1)) :
    st1 = out1 ∧ runProductOnce columns res st1 = .ok (out1, st1) := by
  unfold runProductOnce at h1 ⊢
  cases hm : store.mapM (productMut columns res) with
  | error e => rw [hm] at h1; exact Except.noConfusion h1
  | ok out =>
    rw [hm] at h1
    have hpair := Except.ok.inj h1
    have hout : out1 = out := (congrArg Prod.fst hpair).symm
    have hst : st1 = out := (congrArg Prod.snd hpair).symm
    have hfix := exceptMapM_fix
      (fun a b hab => productMut_idem columns res a b hres hab) store out hm
    constructor
    · rw [hst, hout]
    · rw [hst, hfix, hout]

/-- Witness for C4's amended theorem: fresh result column `c`. -/
theorem c4_second_run_stable_witness :
    (("c" : String) ∉ (["a", "b"] : List String) ∧
      runProductOnce ["a", "b"] "c" [[("a", Value.int 8), ("b", Value.int 2)]] =
        .ok ([[("a", Value.int 8), ("b", Value.int 2), ("c", Value.int 16)]],
          [[("a", Value.int 8), ("b", Value.int 2), ("c", Value.int 16)]])) ∧
    ([[("a", Value.int 8), ("b", Value.int 2), ("c", Value.int 16)]] : List Row) =
        [[("a", Value.int 8), ("b", Value.int 2), ("c", Value.int 16)]] ∧
    runProductOnce ["a", "b"] "c"
        [[("a", Value.int 8), ("b", Value.int 2), ("c", Value.int 16)]] =
      .ok ([[("a", Value.int 8), ("b", Value.int 2), ("c", Value.int 16)]],
        [[("a", Value.int 8), ("b", Value.int 2), ("c", Value.int 16)]]) :=
  ⟨⟨by decide, by decide⟩,
    c4_second_run_stable ["a", "b"] "c"
      [[("a", Value.int 8), ("b", Value.int 2)]]
      [[("a", Value.int 8), ("b", Value.int 2), ("c", Value.int 16)]]
      [[("a", Value.int 8), ("b", Value.int 2), ("c", Value.int 16)]]
      (by decide) (by decide)⟩
/-! ### Sort-merge join: joiner strategies -/

/-- `Joiner.separate_columns(row_a, row_b, keys)`.  With Python's operator
precedence (`&` binds tighter than `-`):
`col_from_right = set_b - (set_a & set_b) = set_b \ set_a`,
`common_col = set_a & (set_b - set_keys)`,
`col_from_left = set_a - common_col`.
Python sets carry no order; membership-equivalent lists in the rows' key
order stand in for them, and theorems inspect output rows only through
`rowGet`. -/
def separateColumns (rowA rowB : Row) (keys : List String) :
    List String × List String × List String :=
  let colFromRight := (rowCols rowB).filter (fun c => !decide (c ∈ rowCols rowA))
  let commonCol := (rowCols rowA).filter
    (fun c => decide (c ∈ rowCols rowB) && !decide (c ∈ keys))
  let colFromLeft := (rowCols rowA).filter
    (fun c => !(decide (c ∈ rowCols rowB) && !decide (c ∈ keys)))
  (colFromLeft, colFromRight, commonCol)

/-- `for col in col_from_left: new_row[col] = row_a[col]` (same loop shape for
`col_from_right` with the right row). -/
def setFrom (src : Row) : List String → Row → Except Err Row
  | [], acc => .ok acc
  | c :: cols, acc =>
    match rowGet src c with
    | some v => setFrom src cols (rowSet acc c v)
    | none => .error .keyErr

/-- `for col in common_col: new_row[col + suffix_a] = row_a[col];
new_row[col + suffix_b] = row_b[col]`. -/
def setCommon (sufA sufB : String) (ra rb : Row) :
    List String → Row → Except Err Row
  | [], acc => .ok acc
  | c :: cols, acc =>
    match rowGet ra c, rowGet rb c with
    | some va, some vb =>
      setCommon sufA sufB ra rb cols
        (rowSet (rowSet acc (c ++ sufA) va) (c ++ sufB) vb)
    | _, _ => .error .keyErr

/-- One output row of `join_row_list` for the pair `(row_a, row_b)`:
`new_row = {}` then the three assignment loops. -/
def joinRowE (sufA sufB : String) (cl cr cc : List String) (ra rb : Row) :
    Except Err Row := do
  let s1 ← setFrom ra cl []
  let s2 ← setFrom rb cr s1
  setCommon sufA sufB ra rb cc s2

/-- `join_row_list(row_a, lst_b, *columns)`: one combined row per right row. -/
def joinRowList (sufA sufB : String) (ra : Row) (lstB : List Row)
    (cl cr cc : List String) : Except Err (List Row) :=
  lstB.mapM (joinRowE sufA sufB cl cr cc ra)

/-- `join_both`: the column partition is computed ONCE, from `row` (the first
left-position row) and `list_b[0]`, and applied to every pair. -/
def joinBoth (sufA sufB : String) (keys : List String) (row : Row)
    (rowsA : List Row) (listB : List Row) : Except Err (List Row) :=
  match listB with
  | [] => .error .idxErr
  | b0 :: _ =>
    match joinRowList sufA sufB row listB (separateColumns row b0 keys).1
        (separateColumns row b0 keys).2.1 (separateColumns row b0 keys).2.2 with
    | .error e => .error e
    | .ok first =>
      match rowsA.mapM (fun r => joinRowList sufA sufB r listB
          (separateColumns row b0 keys).1 (separateColumns row b0 keys).2.1
          (separateColumns row b0 keys).2.2) with
      | .error e => .error e
      | .ok rest => .ok (first ++ rest.flatten)

/-- `InnerJoiner`: empty on either side emits nothing. -/
def innerJoiner (sufA sufB : String) (keys : List String)
    (rowsA rowsB : List Row) : Except Err (List Row) :=
  if rowsB.isEmpty then .ok []
  else
    match rowsA with
    | [] => .ok []
    | row :: rest => joinBoth sufA sufB keys row rest rowsB

/-- `OuterJoiner`: an empty side passes the other side through. -/
def outerJoiner (sufA sufB : String) (keys : List String)
    (rowsA rowsB : List Row) : Except Err (List Row) :=
  if rowsB.isEmpty then .ok rowsA
  else
    match rowsA with
    | [] => .ok rowsB
    | row :: rest => joinBoth sufA sufB keys row rest rowsB

/-- `LeftJoiner`. -/
def leftJoiner (sufA sufB : String) (keys : List String)
    (rowsA rowsB : List Row) : Except Err (List Row) :=
  if rowsB.isEmpty then .ok rowsA
  else
    match rowsA with
    | [] => .ok []
    | row :: rest => joinBoth sufA sufB keys row rest rowsB

/-- `RightJoiner`: note it passes the RIGHT stream through the `row`/`rows_a`
positions of `join_both` and the LEFT rows as `list_b` — the swap of the
mirror construction.  (Its missing `return` after the unmatched-left branch
is harmless in context: `rows_b` is a generator already exhausted by the
`yield from`.) -/
def rightJoiner (sufA sufB : String) (keys : List String)
    (rowsA rowsB : List Row) : Except Err (List Row) :=
  if rowsA.isEmpty then .ok rowsB
  else
    match rowsB with
    | [] => .ok []
    | row :: rest => joinBoth sufA sufB keys row rest rowsA

/-! ### C10: the column partition comes from the first rows only -/

/-- C10: `separate_columns` runs once per matched group pair, on the first
left and first right rows, and `join_row_list` applies that partition to
every pair.  Concretely: (a) a later left row lacking a column of the first
left row makes the lookup fail with a missing-key error; (b) a later right
row carrying an extra column not on the first right row has that column
silently dropped from its combined output row. -/
theorem c10_first_row_partition :
    innerJoiner "_1" "_2" ["k"]
      [[("k", Value.int 1), ("c", Value.int 10)], [("k", Value.int 1)]]
      [[("k", Value.int 1), ("d", Value.int 20)]] = .error .keyErr ∧
    innerJoiner "_1" "_2" ["k"]
      [[("k", Value.int 1), ("c", Value.int 10)]]
      [[("k", Value.int 1), ("d", Value.int 20)],
        [("k", Value.int 1), ("d", Value.int 30), ("e", Value.int 99)]] =
      .ok [[("k", Value.int 1), ("c", Value.int 10), ("d", Value.int 20)],
        [("k", Value.int 1), ("c", Value.int 10), ("d", Value.int 30)]] ∧
    rowGet [("k", Value.int 1), ("c", Value.int 10), ("d", Value.int 30)] "e"
      = none ∧
    hasCol [("k", Value.int 1), ("d", Value.int 30), ("e", Value.int 99)] "e"
      = true := by
  refine ⟨by decide, by decide, by decide, by decide⟩

/-! ### Pure counterparts of the join-row builders, for reasoning -/

/-- Pure version of `setFrom` (missing columns are skipped; the bridging
lemmas only use it where all columns are present). -/
def setFromP (src : Row) : List String → Row → Row
  | [], acc => acc
  | c :: cols, acc =>
    match rowGet src c with
    | some v => setFromP src cols (rowSet acc c v)
    | none => setFromP src cols acc

/-- Pure version of `setCommon`. -/
def setCommonP (sufA sufB : String) (ra rb : Row) : List String → Row → Row
  | [], acc => acc
  | c :: cols, acc =>
    match rowGet ra c, rowGet rb c with
    | some va, some vb =>
      setCommonP sufA sufB ra rb cols
        (rowSet (rowSet acc (c ++ sufA) va) (c ++ sufB) vb)
    | _, _ => setCommonP sufA sufB ra rb cols acc

/-- The combined row for one pair, as a pure function of the partition. -/
def joinRowP (sufA sufB : String) (cl cr cc : List String) (ra rb : Row) : Row :=
  setCommonP sufA sufB ra rb cc (setFromP rb cr (setFromP ra cl []))

/-- Full cross-product of a matched group pair, with the column partition
taken from the two FIRST rows (as `join_both` does). -/
def crossPairs (sufA sufB : String) (keys : List String) (ga gb : List Row) :
    List Row :=
  match ga, gb with
  | a0 :: _, b0 :: _ =>
    let cols := separateColumns a0 b0 keys
    ga.flatMap (fun l => gb.map
      (fun r => joinRowP sufA sufB cols.1 cols.2.1 cols.2.2 l r))
  | _, _ => []

/-- The output column names written by the common-column loop, in order. -/
def sufNames (sufA sufB : String) (cc : List String) : List String :=
  cc.flatMap (fun c => [c ++ sufA, c ++ sufB])

theorem sufNames_cons (sufA sufB c : String) (cols : List String) :
    sufNames sufA sufB (c :: cols) =
      (c ++ sufA) :: (c ++ sufB) :: sufNames sufA sufB cols := rfl

theorem mem_rowCols (r : Row) (c : String) : c ∈ rowCols r ↔ hasCol r c = true := by
  induction r with
  | nil => simp [rowCols, hasCol]
  | cons p r ih =>
    show c ∈ p.1 :: rowCols r ↔ (p.1 = c || hasCol r c) = true
    rw [List.mem_cons]
    constructor
    · rintro (rfl | h)
      · simp
      · rw [ih] at h
        simp [h]
    · intro h
      rcases (Bool.or_eq_true _ _).mp h with h1 | h2
      · left; exact (of_decide_eq_true h1).symm
      · right; exact ih.mpr h2

theorem hasCol_isSome (r : Row) (c : String) : hasCol r c = (rowGet r c).isSome := by
  induction r with
  | nil => rfl
  | cons p r ih =>
    by_cases hp : p.1 = c
    · simp [hasCol, rowGet, hp]
    · simp [hasCol, rowGet, hp, ih]

theorem sameCols_of_bounded (a b : Row)
    (h : ∀ c ∈ rowCols a ++ rowCols b, hasCol a c = hasCol b c) :
    ∀ c, hasCol a c = hasCol b c := by
  intro c
  by_cases hc : c ∈ rowCols a ++ rowCols b
  · exact h c hc
  · rw [List.mem_append] at hc
    push_neg at hc
    have ha : hasCol a c = false := by
      cases hha : hasCol a c with
      | false => rfl
      | true => exact absurd ((mem_rowCols a c).mpr hha) hc.1
    have hb : hasCol b c = false := by
      cases hhb : hasCol b c with
      | false => rfl
      | true => exact absurd ((mem_rowCols b c).mpr hhb) hc.2
    rw [ha, hb]

theorem boolNotAnd_iff (b1 b2 : Bool) :
    (!(b1 && !b2)) = true ↔ ¬ (b1 = true ∧ b2 = false) := by
  cases b1 <;> cases b2 <;> simp

theorem mem_colFromLeft (a0 b0 : Row) (keys : List String) (c : String) :
    c ∈ (separateColumns a0 b0 keys).1 ↔
      hasCol a0 c = true ∧ ¬ (hasCol b0 c = true ∧ c ∉ keys) := by
  show c ∈ (rowCols a0).filter
    (fun c => !(decide (c ∈ rowCols b0) && !decide (c ∈ keys))) ↔ _
  rw [List.mem_filter, mem_rowCols]
  apply and_congr_right
  intro _
  rw [boolNotAnd_iff]
  constructor
  · intro h hcontra
    exact h ⟨decide_eq_true ((mem_rowCols b0 c).mpr hcontra.1),
      decide_eq_false hcontra.2⟩
  · intro h hcontra
    exact h ⟨(mem_rowCols b0 c).mp (of_decide_eq_true hcontra.1),
      of_decide_eq_false hcontra.2⟩

theorem mem_colFromRight (a0 b0 : Row) (keys : List String) (c : String) :
    c ∈ (separateColumns a0 b0 keys).2.1 ↔
      hasCol b0 c = true ∧ hasCol a0 c = false := by
  show c ∈ (rowCols b0).filter (fun c => !decide (c ∈ rowCols a0)) ↔ _
  rw [List.mem_filter, mem_rowCols]
  apply and_congr_right
  intro _
  rw [Bool.not_eq_true', decide_eq_false_iff_not, mem_rowCols]
  constructor
  · intro h
    cases hh : hasCol a0 c with
    | false => rfl
    | true => exact absurd hh h
  · intro h hh
    rw [h] at hh
    cases hh

theorem mem_commonCol (a0 b0 : Row) (keys : List String) (c : String) :
    c ∈ (separateColumns a0 b0 keys).2.2 ↔
      hasCol a0 c = true ∧ hasCol b0 c = true ∧ c ∉ keys := by
  show c ∈ (rowCols a0).filter
    (fun c => decide (c ∈ rowCols b0) && !decide (c ∈ keys)) ↔ _
  rw [List.mem_filter, mem_rowCols]
  apply and_congr_right
  intro _
  rw [Bool.and_eq_true, decide_eq_true_eq, Bool.not_eq_true',
    decide_eq_false_iff_not, mem_rowCols]

theorem setFrom_ok (src : Row) :
    ∀ (cols : List String) (acc : Row), (∀ c ∈ cols, (rowGet src c).isSome) →
      setFrom src cols acc = .ok (setFromP src cols acc) := by
  intro cols
  induction cols with
  | nil => intro acc _; rfl
  | cons c cols ih =>
    intro acc h
    cases hg : rowGet src c with
    | none => have := h c (by simp); rw [hg] at this; cases this
    | some v =>
      show (match rowGet src c with
        | some v => setFrom src cols (rowSet acc c v)
        | none => Except.error Err.keyErr) = .ok (setFromP src (c :: cols) acc)
      rw [hg]
      show setFrom src cols (rowSet acc c v) = _
      rw [ih (rowSet acc c v) (fun c' hc' => h c' (by simp [hc']))]
      show _ = Except.ok (match rowGet src c with
        | some v => setFromP src cols (rowSet acc c v)
        | none => setFromP src cols acc)
      rw [hg]

theorem setCommon_ok (sufA sufB : String) (ra rb : Row) :
    ∀ (cols : List String) (acc : Row),
      (∀ c ∈ cols, (rowGet ra c).isSome ∧ (rowGet rb c).isSome) →
      setCommon sufA sufB ra rb cols acc = .ok (setCommonP sufA sufB ra rb cols acc) := by
  intro cols
  induction cols with
  | nil => intro acc _; rfl
  | cons c cols ih =>
    intro acc h
    obtain ⟨ha, hb⟩ := h c (by simp)
    cases hga : rowGet ra c with
    | none => rw [hga] at ha; cases ha
    | some va =>
      cases hgb : rowGet rb c with
      | none => rw [hgb] at hb; cases hb
      | some vb =>
        show (match rowGet ra c, rowGet rb c with
          | some va, some vb => setCommon sufA sufB ra rb cols
              (rowSet (rowSet acc (c ++ sufA) va) (c ++ sufB) vb)
          | _, _ => Except.error Err.keyErr) = _
        rw [hga, hgb]
        show setCommon sufA sufB ra rb cols _ = _
        rw [ih _ (fun c' hc' => h c' (by simp [hc']))]
        show _ = Except.ok (match rowGet ra c, rowGet rb c with
          | some va, some vb => setCommonP sufA sufB ra rb cols
              (rowSet (rowSet acc (c ++ sufA) va) (c ++ sufB) vb)
          | _, _ => setCommonP sufA sufB ra rb cols acc)
        rw [hga, hgb]

/-- With all partition columns present on the right rows, one combined row
computes purely. -/
theorem joinRowE_ok (sufA sufB : String) (cl cr cc : List String) (ra rb : Row)
    (hcl : ∀ c ∈ cl, (rowGet ra c).isSome)
    (hcr : ∀ c ∈ cr, (rowGet rb c).isSome)
    (hcc : ∀ c ∈ cc, (rowGet ra c).isSome ∧ (rowGet rb c).isSome) :
    joinRowE sufA sufB cl cr cc ra rb = .ok (joinRowP sufA sufB cl cr cc ra rb) := by
  unfold joinRowE joinRowP
  rw [setFrom_ok ra cl [] hcl]
  show setFrom rb cr (setFromP ra cl []) >>= _ = _
  rw [setFrom_ok rb cr _ hcr]
  show setCommon sufA sufB ra rb cc _ = _
  rw [setCommon_ok sufA sufB ra rb cc _ hcc]

theorem setFromP_get (src : Row) (x : String) :
    ∀ (cols : List String) (acc : Row), (∀ c ∈ cols, (rowGet src c).isSome) →
      rowGet (setFromP src cols acc) x =
        if x ∈ cols then rowGet src x else rowGet acc x := by
  intro cols
  induction cols with
  | nil => intro acc _; simp [setFromP]
  | cons c cols ih =>
    intro acc h
    cases hg : rowGet src c with
    | none => have := h c (by simp); rw [hg] at this; cases this
    | some v =>
      show rowGet (match rowGet src c with
        | some v => setFromP src cols (rowSet acc c v)
        | none => setFromP src cols acc) x = _
      rw [hg]
      rw [ih (rowSet acc c v) (fun c' hc' => h c' (by simp [hc']))]
      by_cases hmem : x ∈ cols
      · simp [hmem]
      · rw [if_neg hmem, rowGet_rowSet]
        by_cases hx : x = c
        · subst hx; simp [hg]
        · simp [hx, hmem, Ne.symm hx]

theorem setCommonP_get_out (sufA sufB : String) (ra rb : Row) (x : String) :
    ∀ (cols : List String) (acc : Row), x ∉ sufNames sufA sufB cols →
      rowGet (setCommonP sufA sufB ra rb cols acc) x = rowGet acc x := by
  intro cols
  induction cols with
  | nil => intro acc _; simp [setCommonP]
  | cons c cols ih =>
    intro acc hx
    rw [sufNames_cons] at hx
    have hxA : x ≠ c ++ sufA := fun hh => hx (by simp [hh])
    have hxB : x ≠ c ++ sufB := fun hh => hx (by simp [hh])
    have hxT : x ∉ sufNames sufA sufB cols := fun hh => hx (by simp [hh])
    cases hga : rowGet ra c with
    | none =>
      show rowGet (match rowGet ra c, rowGet rb c with
        | some va, some vb => setCommonP sufA sufB ra rb cols
            (rowSet (rowSet acc (c ++ sufA) va) (c ++ sufB) vb)
        | _, _ => setCommonP sufA sufB ra rb cols acc) x = _
      rw [hga]
      cases rowGet rb c with
      | none => exact ih acc hxT
      | some vb => exact ih acc hxT
    | some va =>
      cases hgb : rowGet rb c with
      | none =>
        show rowGet (match rowGet ra c, rowGet rb c with
          | some va, some vb => setCommonP sufA sufB ra rb cols
              (rowSet (rowSet acc (c ++ sufA) va) (c ++ sufB) vb)
          | _, _ => setCommonP sufA sufB ra rb cols acc) x = _
        rw [hga, hgb]
        exact ih acc hxT
      | some vb =>
        show rowGet (match rowGet ra c, rowGet rb c with
          | some va, some vb => setCommonP sufA sufB ra rb cols
              (rowSet (rowSet acc (c ++ sufA) va) (c ++ sufB) vb)
          | _, _ => setCommonP sufA sufB ra rb cols acc) x = _
        rw [hga, hgb, ih _ hxT, rowGet_rowSet, if_neg hxB, rowGet_rowSet, if_neg hxA]

theorem setCommonP_get_in (sufA sufB : String) (ra rb : Row) :
    ∀ (cols : List String) (acc : Row), (sufNames sufA sufB cols).Nodup →
      (∀ c ∈ cols, (rowGet ra c).isSome ∧ (rowGet rb c).isSome) →
      ∀ c ∈ cols,
        rowGet (setCommonP sufA sufB ra rb cols acc) (c ++ sufA) = rowGet ra c ∧
        rowGet (setCommonP sufA sufB ra rb cols acc) (c ++ sufB) = rowGet rb c := by
  intro cols
  induction cols with
  | nil => intro acc _ _ c hc; cases hc
  | cons c0 cols ih =>
    intro acc hnd hpres c hc
    obtain ⟨ha0, hb0⟩ := hpres c0 (by simp)
    cases hga : rowGet ra c0 with
    | none => rw [hga] at ha0; cases ha0
    | some va =>
      cases hgb : rowGet rb c0 with
      | none => rw [hgb] at hb0; cases hb0
      | some vb =>
        have hstep : setCommonP sufA sufB ra rb (c0 :: cols) acc =
            setCommonP sufA sufB ra rb cols
              (rowSet (rowSet acc (c0 ++ sufA) va) (c0 ++ sufB) vb) := by
          show (match rowGet ra c0, rowGet rb c0 with
            | some va, some vb => setCommonP sufA sufB ra rb cols
                (rowSet (rowSet acc (c0 ++ sufA) va) (c0 ++ sufB) vb)
            | _, _ => setCommonP sufA sufB ra rb cols acc) = _
          rw [hga, hgb]
        rw [sufNames_cons] at hnd
        obtain ⟨hA_not, hnd1⟩ := List.nodup_cons.mp hnd
        obtain ⟨hndB, hndT⟩ := List.nodup_cons.mp hnd1
        have hAB : (c0 ++ sufA) ≠ (c0 ++ sufB) := fun hh => hA_not (by simp [hh])
        have hndA : (c0 ++ sufA) ∉ sufNames sufA sufB cols :=
          fun hh => hA_not (by simp [hh])
        rcases List.mem_cons.mp hc with rfl | hc'
        · rw [hstep]
          constructor
          · rw [setCommonP_get_out sufA sufB ra rb _ cols _ hndA,
              rowGet_rowSet, if_neg hAB, rowGet_rowSet, if_pos rfl, hga]
          · rw [setCommonP_get_out sufA sufB ra rb _ cols _ hndB,
              rowGet_rowSet, if_pos rfl, hgb]
        · rw [hstep]
          exact ih _ hndT (fun c' hc'' => hpres c' (by simp [hc''])) c hc'

/-! ### C1: matched-pair combination across joiner strategies -/

/-- The matched-pair row combination described by the specification, read off
an output row `o` for the pair `(l, r)`: columns only on the left row come
from the left row unchanged, columns only on the right row from the right
row unchanged, and columns on both (except join keys) appear twice under the
two configured suffixes with the left and right values respectively. -/
def CombinesLR (sufA sufB : String) (keys : List String) (l r o : Row) : Prop :=
  (∀ c ∈ rowCols l, hasCol r c = false → rowGet o c = rowGet l c) ∧
  (∀ c ∈ rowCols r, hasCol l c = false → rowGet o c = rowGet r c) ∧
  (∀ c ∈ rowCols l, hasCol r c = true → c ∉ keys →
    rowGet o (c ++ sufA) = rowGet l c ∧ rowGet o (c ++ sufB) = rowGet r c)

theorem joinRowP_combines (sufA sufB : String) (keys : List String)
    (a0 b0 l r : Row)
    (hl : ∀ c, hasCol l c = hasCol a0 c) (hr : ∀ c, hasCol r c = hasCol b0 c)
    (hnodup : (sufNames sufA sufB (separateColumns a0 b0 keys).2.2).Nodup)
    (hsafe : ∀ c, (hasCol a0 c = true ∨ hasCol b0 c = true) →
      c ∉ sufNames sufA sufB (separateColumns a0 b0 keys).2.2) :
    CombinesLR sufA sufB keys l r
      (joinRowP sufA sufB (separateColumns a0 b0 keys).1
        (separateColumns a0 b0 keys).2.1 (separateColumns a0 b0 keys).2.2 l r) := by
  have hpresL : ∀ c ∈ (separateColumns a0 b0 keys).1, (rowGet l c).isSome := by
    intro c hc
    have h1 := ((mem_colFromLeft a0 b0 keys c).mp hc).1
    rw [← hl c, hasCol_isSome] at h1
    exact h1
  have hpresR : ∀ c ∈ (separateColumns a0 b0 keys).2.1, (rowGet r c).isSome := by
    intro c hc
    have h1 := ((mem_colFromRight a0 b0 keys c).mp hc).1
    rw [← hr c, hasCol_isSome] at h1
    exact h1
  have hpresC : ∀ c ∈ (separateColumns a0 b0 keys).2.2,
      (rowGet l c).isSome ∧ (rowGet r c).isSome := by
    intro c hc
    obtain ⟨h1, h2, _⟩ := (mem_commonCol a0 b0 keys c).mp hc
    rw [← hl c, hasCol_isSome] at h1
    rw [← hr c, hasCol_isSome] at h2
    exact ⟨h1, h2⟩
  refine ⟨?_, ?_, ?_⟩
  · intro c hcl hrcol
    have ha0 : hasCol a0 c = true := by rw [← hl c]; exact (mem_rowCols l c).mp hcl
    have hb0 : hasCol b0 c = false := by rw [← hr c]; exact hrcol
    have hmemL : c ∈ (separateColumns a0 b0 keys).1 :=
      (mem_colFromLeft a0 b0 keys c).mpr
        ⟨ha0, fun hb => by rw [hb0] at hb; cases hb.1⟩
    have hmemR : c ∉ (separateColumns a0 b0 keys).2.1 := by
      intro hc
      have := ((mem_colFromRight a0 b0 keys c).mp hc).1
      rw [hb0] at this
      cases this
    show rowGet (setCommonP sufA sufB l r _ _) c = rowGet l c
    rw [setCommonP_get_out sufA sufB l r c _ _ (hsafe c (Or.inl ha0)),
      setFromP_get r c _ _ hpresR, if_neg hmemR,
      setFromP_get l c _ _ hpresL, if_pos hmemL]
  · intro c hcr hlcol
    have hb0 : hasCol b0 c = true := by rw [← hr c]; exact (mem_rowCols r c).mp hcr
    have ha0 : hasCol a0 c = false := by rw [← hl c]; exact hlcol
    have hmemR : c ∈ (separateColumns a0 b0 keys).2.1 :=
      (mem_colFromRight a0 b0 keys c).mpr ⟨hb0, ha0⟩
    show rowGet (setCommonP sufA sufB l r _ _) c = rowGet r c
    rw [setCommonP_get_out sufA sufB l r c _ _ (hsafe c (Or.inr hb0)),
      setFromP_get r c _ _ hpresR, if_pos hmemR]
  · intro c hcl hrcol hknot
    have ha0 : hasCol a0 c = true := by rw [← hl c]; exact (mem_rowCols l c).mp hcl
    have hb0 : hasCol b0 c = true := by rw [← hr c]; exact hrcol
    have hmemC : c ∈ (separateColumns a0 b0 keys).2.2 :=
      (mem_commonCol a0 b0 keys c).mpr ⟨ha0, hb0, hknot⟩
    exact setCommonP_get_in sufA sufB l r _ _ hnodup hpresC c hmemC

/-- On a matched pair with column-homogeneous groups, `join_both` computes
the full left-major cross-product with the partition from the first rows. -/
theorem joinBoth_ok (sufA sufB : String) (keys : List String)
    (a0 b0 : Row) (restA bs : List Row)
    (hhomA : ∀ l ∈ a0 :: restA, ∀ c, hasCol l c = hasCol a0 c)
    (hhomB : ∀ r ∈ b0 :: bs, ∀ c, hasCol r c = hasCol b0 c) :
    joinBoth sufA sufB keys a0 restA (b0 :: bs) =
      .ok (crossPairs sufA sufB keys (a0 :: restA) (b0 :: bs)) := by
  have hrowlist : ∀ l ∈ a0 :: restA,
      joinRowList sufA sufB l (b0 :: bs) (separateColumns a0 b0 keys).1
        (separateColumns a0 b0 keys).2.1 (separateColumns a0 b0 keys).2.2 =
      .ok ((b0 :: bs).map (fun r => joinRowP sufA sufB
        (separateColumns a0 b0 keys).1 (separateColumns a0 b0 keys).2.1
        (separateColumns a0 b0 keys).2.2 l r)) := by
    intro l hlmem
    apply exceptMapM_ok
    intro r hrmem
    apply joinRowE_ok
    · intro c hc
      have h1 := ((mem_colFromLeft a0 b0 keys c).mp hc).1
      rw [← hhomA l hlmem c, hasCol_isSome] at h1
      exact h1
    · intro c hc
      have h1 := ((mem_colFromRight a0 b0 keys c).mp hc).1
      rw [← hhomB r hrmem c, hasCol_isSome] at h1
      exact h1
    · intro c hc
      obtain ⟨h1, h2, _⟩ := (mem_commonCol a0 b0 keys c).mp hc
      rw [← hhomA l hlmem c, hasCol_isSome] at h1
      rw [← hhomB r hrmem c, hasCol_isSome] at h2
      exact ⟨h1, h2⟩
  have h2 : restA.mapM (fun l => joinRowList sufA sufB l (b0 :: bs)
      (separateColumns a0 b0 keys).1 (separateColumns a0 b0 keys).2.1
      (separateColumns a0 b0 keys).2.2) =
      .ok (restA.map (fun l => (b0 :: bs).map (fun r => joinRowP sufA sufB
        (separateColumns a0 b0 keys).1 (separateColumns a0 b0 keys).2.1
        (separateColumns a0 b0 keys).2.2 l r))) :=
    exceptMapM_ok restA (fun l hl => hrowlist l (by simp [hl]))
  unfold joinBoth
  simp only [hrowlist a0 (by simp), h2]
  show Except.ok _ =
    Except.ok ((a0 :: restA).flatMap (fun l => (b0 :: bs).map
      (fun r => joinRowP sufA sufB (separateColumns a0 b0 keys).1
        (separateColumns a0 b0 keys).2.1 (separateColumns a0 b0 keys).2.2 l r)))
  rw [List.flatMap_cons]
  rfl

/-- C1 is false as stated: on the matched pair `{k:1, c:10}` × `{k:1, c:20}`
the Inner/Left/Outer strategies put the LEFT value under the left suffix
(`c_1 = 10`), but `RightJoiner` — which hands `join_both` its arguments
swapped — puts the RIGHT value there (`c_1 = 20`), so the matched-pair
combination is NOT identical across all four strategies. -/
theorem c1_counterexample :
    innerJoiner "_1" "_2" ["k"] [[("k", Value.int 1), ("c", Value.int 10)]]
      [[("k", Value.int 1), ("c", Value.int 20)]] =
      .ok [[("k", Value.int 1), ("c_1", Value.int 10), ("c_2", Value.int 20)]] ∧
    rightJoiner "_1" "_2" ["k"] [[("k", Value.int 1), ("c", Value.int 10)]]
      [[("k", Value.int 1), ("c", Value.int 20)]] =
      .ok [[("k", Value.int 1), ("c_1", Value.int 20), ("c_2", Value.int 10)]] ∧
    rightJoiner "_1" "_2" ["k"] [[("k", Value.int 1), ("c", Value.int 10)]]
        [[("k", Value.int 1), ("c", Value.int 20)]] ≠
      innerJoiner "_1" "_2" ["k"] [[("k", Value.int 1), ("c", Value.int 10)]]
        [[("k", Value.int 1), ("c", Value.int 20)]] ∧
    rowGet [("k", Value.int 1), ("c_1", Value.int 20), ("c_2", Value.int 10)]
      "c_1" = some (Value.int 20) := by
  refine ⟨by decide, by decide, by decide, by decide⟩

/-- C1 (amended): on a matched group pair (nonempty groups, rows column-
homogeneous within each group, suffixed common-column names fresh), Inner,
Left and Outer all emit the same left-major full cross-product, combining
each pair as the specification describes (left-only from left, right-only
from right, common non-key columns twice, left suffix ← left value); Right
instead emits the right-major cross-product with the argument roles swapped,
so its left-suffix column holds the RIGHT row's value and vice versa. -/
theorem c1_matched_combination (sufA sufB : String) (keys : List String)
    (a0 b0 : Row) (restA restB : List Row)
    (hhomA : ∀ l ∈ a0 :: restA, ∀ c ∈ rowCols l ++ rowCols a0,
      hasCol l c = hasCol a0 c)
    (hhomB : ∀ r ∈ b0 :: restB, ∀ c ∈ rowCols r ++ rowCols b0,
      hasCol r c = hasCol b0 c)
    (hnodupAB : (sufNames sufA sufB (separateColumns a0 b0 keys).2.2).Nodup)
    (hsafeAB : ∀ c ∈ rowCols a0 ++ rowCols b0,
      c ∉ sufNames sufA sufB (separateColumns a0 b0 keys).2.2)
    (hnodupBA : (sufNames sufA sufB (separateColumns b0 a0 keys).2.2).Nodup)
    (hsafeBA : ∀ c ∈ rowCols b0 ++ rowCols a0,
      c ∉ sufNames sufA sufB (separateColumns b0 a0 keys).2.2) :
    innerJoiner sufA sufB keys (a0 :: restA) (b0 :: restB) =
      .ok (crossPairs sufA sufB keys (a0 :: restA) (b0 :: restB)) ∧
    leftJoiner sufA sufB keys (a0 :: restA) (b0 :: restB) =
      .ok (crossPairs sufA sufB keys (a0 :: restA) (b0 :: restB)) ∧
    outerJoiner sufA sufB keys (a0 :: restA) (b0 :: restB) =
      .ok (crossPairs sufA sufB keys (a0 :: restA) (b0 :: restB)) ∧
    (∀ l ∈ a0 :: restA, ∀ r ∈ b0 :: restB,
      CombinesLR sufA sufB keys l r
        (joinRowP sufA sufB (separateColumns a0 b0 keys).1
          (separateColumns a0 b0 keys).2.1 (separateColumns a0 b0 keys).2.2 l r)) ∧
    rightJoiner sufA sufB keys (a0 :: restA) (b0 :: restB) =
      .ok (crossPairs sufA sufB keys (b0 :: restB) (a0 :: restA)) ∧
    (∀ r ∈ b0 :: restB, ∀ l ∈ a0 :: restA,
      CombinesLR sufA sufB keys r l
        (joinRowP sufA sufB (separateColumns b0 a0 keys).1
          (separateColumns b0 a0 keys).2.1 (separateColumns b0 a0 keys).2.2 r l)) := by
  have hhomA' : ∀ l ∈ a0 :: restA, ∀ c, hasCol l c = hasCol a0 c :=
    fun l hl => sameCols_of_bounded l a0 (hhomA l hl)
  have hhomB' : ∀ r ∈ b0 :: restB, ∀ c, hasCol r c = hasCol b0 c :=
    fun r hr => sameCols_of_bounded r b0 (hhomB r hr)
  have hsafeAB' : ∀ c, (hasCol a0 c = true ∨ hasCol b0 c = true) →
      c ∉ sufNames sufA sufB (separateColumns a0 b0 keys).2.2 := by
    intro c hc
    apply hsafeAB
    rw [List.mem_append, mem_rowCols, mem_rowCols]
    exact hc
  have hsafeBA' : ∀ c, (hasCol b0 c = true ∨ hasCol a0 c = true) →
      c ∉ sufNames sufA sufB (separateColumns b0 a0 keys).2.2 := by
    intro c hc
    apply hsafeBA
    rw [List.mem_append, mem_rowCols, mem_rowCols]
    exact hc
  have hb := joinBoth_ok sufA sufB keys a0 b0 restA restB hhomA' hhomB'
  have hbSwap := joinBoth_ok sufA sufB keys b0 a0 restB restA hhomB' hhomA'
  refine ⟨hb, hb, hb, ?_, hbSwap, ?_⟩
  · intro l hl r hr
    exact joinRowP_combines sufA sufB keys a0 b0 l r
      (hhomA' l hl) (hhomB' r hr) hnodupAB hsafeAB'
  · intro r hr l hl
    exact joinRowP_combines sufA sufB keys b0 a0 r l
      (hhomB' r hr) (hhomA' l hl) hnodupBA hsafeBA'

/-- Witness for C1's amended theorem at a concrete matched pair. -/
theorem c1_matched_combination_witness :
    ((∀ l ∈ ([[("k", Value.int 1), ("c", Value.int 10)],
        [("k", Value.int 1), ("c", Value.int 11)]] : List Row),
      ∀ c ∈ rowCols l ++ rowCols [("k", Value.int 1), ("c", Value.int 10)],
        hasCol l c = hasCol [("k", Value.int 1), ("c", Value.int 10)] c) ∧
     (∀ r ∈ ([[("k", Value.int 1), ("c", Value.int 20)]] : List Row),
      ∀ c ∈ rowCols r ++ rowCols [("k", Value.int 1), ("c", Value.int 20)],
        hasCol r c = hasCol [("k", Value.int 1), ("c", Value.int 20)] c)) ∧
    innerJoiner "_1" "_2" ["k"]
      [[("k", Value.int 1), ("c", Value.int 10)],
        [("k", Value.int 1), ("c", Value.int 11)]]
      [[("k", Value.int 1), ("c", Value.int 20)]] =
      .ok (crossPairs "_1" "_2" ["k"]
        [[("k", Value.int 1), ("c", Value.int 10)],
          [("k", Value.int 1), ("c", Value.int 11)]]
        [[("k", Value.int 1), ("c", Value.int 20)]]) :=
  ⟨⟨by decide, by decide⟩,
    (c1_matched_combination "_1" "_2" ["k"]
      [("k", Value.int 1), ("c", Value.int 10)]
      [("k", Value.int 1), ("c", Value.int 20)]
      [[("k", Value.int 1), ("c", Value.int 11)]] []
      (by decide) (by decide) (by decide) (by decide) (by decide)
      (by decide)).1⟩

/-! ### Ordering facts for integer key tuples -/

/-- Whether a value is a Python `int`. -/
def Value.isInt : Value → Bool
  | .int _ => true
  | _ => false

/-- All elements of a key tuple are integers (comparisons never raise). -/
def IntL (l : List Value) : Prop := ∀ v ∈ l, v.isInt = true

theorem isInt_elim {v : Value} (h : v.isInt = true) : ∃ n : Int, v = .int n := by
  cases v with
  | int n => exact ⟨n, rfl⟩
  | str s => cases h
  | rat q => cases h
  | seq l => cases h

theorem tupleCmp_total : ∀ (a b : List Value), IntL a → IntL b →
    tupleCmp a b = some .lt ∨ tupleCmp a b = some .eq ∨ tupleCmp a b = some .gt := by
  intro a
  induction a with
  | nil =>
    intro b _ _
    cases b with
    | nil => right; left; rfl
    | cons y ys => left; rfl
  | cons x xs ih =>
    intro b ha hb
    cases b with
    | nil => right; right; rfl
    | cons y ys =>
      show (if x = y then tupleCmp xs ys else valueCmp x y) = some .lt ∨
        (if x = y then tupleCmp xs ys else valueCmp x y) = some .eq ∨
        (if x = y then tupleCmp xs ys else valueCmp x y) = some .gt
      by_cases hxy : x = y
      · rw [if_pos hxy]
        exact ih ys (fun v hv => ha v (by simp [hv])) (fun v hv => hb v (by simp [hv]))
      · rw [if_neg hxy]
        obtain ⟨m, rfl⟩ := isInt_elim (ha x (by simp))
        obtain ⟨n, rfl⟩ := isInt_elim (hb y (by simp))
        show some (compare m n) = some .lt ∨ some (compare m n) = some .eq ∨
          some (compare m n) = some .gt
        cases compare m n with
        | lt => left; rfl
        | eq => right; left; rfl
        | gt => right; right; rfl

theorem tupleCmp_refl (a : List Value) : tupleCmp a a = some .eq := by
  induction a with
  | nil => rfl
  | cons x xs ih =>
    show (if x = x then tupleCmp xs xs else valueCmp x x) = some .eq
    rw [if_pos rfl, ih]

theorem tupleCmp_cons (x y : Value) (xs ys : List Value) :
    tupleCmp (x :: xs) (y :: ys) =
      if x = y then tupleCmp xs ys else valueCmp x y := rfl

theorem tupleCmp_eq_iff : ∀ (a b : List Value), IntL a → IntL b →
    (tupleCmp a b = some .eq ↔ a = b) := by
  intro a
  induction a with
  | nil =>
    intro b _ _
    cases b with
    | nil => simp [tupleCmp]
    | cons y ys =>
      constructor
      · intro h; cases h
      · intro h; cases h
  | cons x xs ih =>
    intro b ha hb
    cases b with
    | nil =>
      constructor
      · intro h; cases h
      · intro h; cases h
    | cons y ys =>
      rw [tupleCmp_cons]
      by_cases hxy : x = y
      · subst hxy
        rw [if_pos rfl,
          ih ys (fun v hv => ha v (by simp [hv])) (fun v hv => hb v (by simp [hv]))]
        constructor
        · intro h; rw [h]
        · intro h; exact (List.cons.inj h).2
      · rw [if_neg hxy]
        obtain ⟨m, rfl⟩ := isInt_elim (ha x (by simp))
        obtain ⟨n, rfl⟩ := isInt_elim (hb y (by simp))
        have hmn : m ≠ n := fun hh => hxy (by rw [hh])
        constructor
        · intro h
          have := Option.some.inj h
          exact absurd (compare_eq_iff_eq.mp this) hmn
        · intro h
          exact absurd (List.cons.inj h).1 hxy

theorem tupleCmp_gt_iff : ∀ (a b : List Value), IntL a → IntL b →
    (tupleCmp a b = some .gt ↔ tupleCmp b a = some .lt) := by
  intro a
  induction a with
  | nil =>
    intro b _ _
    cases b with
    | nil =>
      constructor
      · intro h; cases h
      · intro h; cases h
    | cons y ys =>
      constructor
      · intro h; cases h
      · intro h; cases h
  | cons x xs ih =>
    intro b ha hb
    cases b with
    | nil =>
      constructor
      · intro _; rfl
      · intro _; rfl
    | cons y ys =>
      rw [tupleCmp_cons, tupleCmp_cons]
      by_cases hxy : x = y
      · subst hxy
        rw [if_pos rfl, if_pos rfl]
        exact ih ys (fun v hv => ha v (by simp [hv])) (fun v hv => hb v (by simp [hv]))
      · rw [if_neg hxy, if_neg (fun hh => hxy hh.symm)]
        obtain ⟨m, rfl⟩ := isInt_elim (ha x (by simp))
        obtain ⟨n, rfl⟩ := isInt_elim (hb y (by simp))
        show some (compare m n) = some .gt ↔ some (compare n m) = some .lt
        constructor
        · intro h
          have := compare_gt_iff_gt.mp (Option.some.inj h)
          exact congrArg some (compare_lt_iff_lt.mpr this)
        · intro h
          have := compare_lt_iff_lt.mp (Option.some.inj h)
          exact congrArg some (compare_gt_iff_gt.mpr this)

theorem tupleCmp_lt_trans : ∀ (a b c : List Value), IntL a → IntL b → IntL c →
    tupleCmp a b = some .lt → tupleCmp b c = some .lt →
    tupleCmp a c = some .lt := by
  intro a
  induction a with
  | nil =>
    intro b c _ hbI _ hab hbc
    cases b with
    | nil => cases hab
    | cons y ys =>
      cases c with
      | nil => cases hbc
      | cons z zs => rfl
  | cons x xs ih =>
    intro b c haI hbI hcI hab hbc
    cases b with
    | nil => cases hab
    | cons y ys =>
      cases c with
      | nil => cases hbc
      | cons z zs =>
        rw [tupleCmp_cons] at hab hbc ⊢
        by_cases hxy : x = y
        · subst hxy
          rw [if_pos rfl] at hab
          by_cases hyz : x = z
          · subst hyz
            rw [if_pos rfl] at hbc
            rw [if_pos rfl]
            exact ih ys zs (fun v hv => haI v (by simp [hv]))
              (fun v hv => hbI v (by simp [hv])) (fun v hv => hcI v (by simp [hv]))
              hab hbc
          · rw [if_neg hyz] at hbc
            rw [if_neg hyz]
            exact hbc
        · rw [if_neg hxy] at hab
          obtain ⟨m, rfl⟩ := isInt_elim (haI x (by simp))
          obtain ⟨n, rfl⟩ := isInt_elim (hbI y (by simp))
          have hmn : m < n := compare_lt_iff_lt.mp (Option.some.inj hab)
          by_cases hyz : (Value.int n) = z
          · subst hyz
            rw [if_neg hxy]
            exact hab
          · rw [if_neg hyz] at hbc
            obtain ⟨p, rfl⟩ := isInt_elim (hcI z (by simp))
            have hnp : n < p := compare_lt_iff_lt.mp (Option.some.inj hbc)
            have hmp : m < p := lt_trans hmn hnp
            have hxz : (Value.int m) ≠ (Value.int p) := by
              intro hh
              cases hh
              exact absurd hmp (lt_irrefl m)
            rw [if_neg hxz]
            show some (compare m p) = some .lt
            exact congrArg some (compare_lt_iff_lt.mpr hmp)

theorem tupleCmp_lt_ne (a b : List Value) (h : tupleCmp a b = some .lt) :
    a ≠ b := by
  intro hh
  subst hh
  rw [tupleCmp_refl] at h
  cases h

/-! ### The synchronized merge of `Join.__call__` -/

/-- A joiner strategy as consumed by `Join`. -/
abbrev JoinerFn := List String → List Row → List Row → Except Err (List Row)

/-- The two-pointer merge over the group sequences of the two streams:
compare current group keys, feed unmatched or matched groups to the joiner,
drain the remaining tail one-sidedly. -/
def joinLoop (j : JoinerFn) (keys : List String) :
    List (List Value × List Row) → List (List Value × List Row) →
      Except Err (List Row)
  | [], [] => .ok []
  | [], (_, gb) :: gbs =>
    match j keys [] gb, joinLoop j keys [] gbs with
    | .ok h, .ok t => .ok (h ++ t)
    | .error e, _ => .error e
    | _, .error e => .error e
  | (_, ga) :: gas, [] =>
    match j keys ga [], joinLoop j keys gas [] with
    | .ok h, .ok t => .ok (h ++ t)
    | .error e, _ => .error e
    | _, .error e => .error e
  | (ka, ga) :: gas, (kb, gb) :: gbs =>
    match tupleCmp ka kb with
    | none => .error .typeErr
    | some .lt =>
      match j keys ga [], joinLoop j keys gas ((kb, gb) :: gbs) with
      | .ok h, .ok t => .ok (h ++ t)
      | .error e, _ => .error e
      | _, .error e => .error e
    | some .gt =>
      match j keys [] gb, joinLoop j keys ((ka, ga) :: gas) gbs with
      | .ok h, .ok t => .ok (h ++ t)
      | .error e, _ => .error e
      | _, .error e => .error e
    | some .eq =>
      match j keys ga gb, joinLoop j keys gas gbs with
      | .ok h, .ok t => .ok (h ++ t)
      | .error e, _ => .error e
      | _, .error e => .error e
termination_by gas gbs => gas.length + gbs.length

/-- A row's key tuple, defaulting (never hit under the `joinOp` check). -/
def optKey (keys : List String) (r : Row) : List Value :=
  (keyTuple keys r).getD []

/-- `Join.__call__`: group both (sorted) inputs into contiguous key runs and
run the synchronized merge; a missing key column is a `KeyError`. -/
def joinOp (j : JoinerFn) (keys : List String) (rowsA rowsB : List Row) :
    Except Err (List Row) :=
  if (∀ r ∈ rowsA, (keyTuple keys r).isSome) ∧
      (∀ r ∈ rowsB, (keyTuple keys r).isSome) then
    joinLoop j keys (groupRuns (optKey keys) rowsA) (groupRuns (optKey keys) rowsB)
  else .error .keyErr

/-- The key-matched group pairs, in left order: each left group paired with
the (unique, by sortedness) right group of equal key, if any. -/
def matchedOf (gAs gBs : List (List Value × List Row)) :
    List ((List Value × List Row) × (List Value × List Row)) :=
  gAs.filterMap (fun ga =>
    (gBs.find? (fun gb => gb.1 = ga.1)).map (fun gb => (ga, gb)))

theorem matchedOf_nil_right (gAs : List (List Value × List Row)) :
    matchedOf gAs [] = [] := by
  simp [matchedOf]

theorem matchedOf_drop_right (gAs : List (List Value × List Row))
    (kb : List Value) (gb : List Row) (gbs : List (List Value × List Row))
    (h : ∀ ga ∈ gAs, ga.1 ≠ kb) :
    matchedOf gAs ((kb, gb) :: gbs) = matchedOf gAs gbs := by
  induction gAs with
  | nil => rfl
  | cons ga gas ih =>
    unfold matchedOf
    rw [List.filterMap_cons, List.filterMap_cons]
    have hdec : decide ((kb, gb).1 = ga.1) = false := by
      simp only [decide_eq_false_iff_not]
      exact fun hh => h ga (by simp) hh.symm
    have hfind : List.find? (fun g => g.1 = ga.1) ((kb, gb) :: gbs) =
        List.find? (fun g => g.1 = ga.1) gbs := by
      simp only [List.find?_cons, hdec]
    rw [hfind]
    have ih' := ih (fun g hg => h g (by simp [hg]))
    unfold matchedOf at ih'
    rw [ih']

theorem matchedOf_drop_left (ka : List Value) (ga : List Row)
    (gas gBs : List (List Value × List Row))
    (h : ∀ gb ∈ gBs, gb.1 ≠ ka) :
    matchedOf ((ka, ga) :: gas) gBs = matchedOf gas gBs := by
  unfold matchedOf
  rw [List.filterMap_cons]
  have hfind : List.find? (fun gb => gb.1 = (ka, ga).1) gBs = none := by
    rw [List.find?_eq_none]
    intro gb hgb
    simp
    exact h gb hgb
  rw [hfind]
  rfl

theorem matchedOf_cons_eq (ka : List Value) (ga gb : List Row)
    (gas gbs : List (List Value × List Row))
    (hgas : ∀ g ∈ gas, g.1 ≠ ka) :
    matchedOf ((ka, ga) :: gas) ((ka, gb) :: gbs) =
      ((ka, ga), (ka, gb)) :: matchedOf gas gbs := by
  unfold matchedOf
  rw [List.filterMap_cons]
  have hfind : List.find? (fun g => g.1 = (ka, ga).1) ((ka, gb) :: gbs) =
      some (ka, gb) := by
    simp [List.find?_cons]
  rw [hfind]
  show ((ka, ga), (ka, gb)) :: _ = _
  congr 1
  have := matchedOf_drop_right gas ka gb gbs hgas
  unfold matchedOf at this
  exact this

theorem innerJoiner_empty_right (sufA sufB : String) (keys : List String)
    (ga : List Row) : innerJoiner sufA sufB keys ga [] = .ok [] := rfl

theorem innerJoiner_empty_left (sufA sufB : String) (keys : List String)
    (gb : List Row) : innerJoiner sufA sufB keys [] gb = .ok [] := by
  cases gb with
  | nil => rfl
  | cons b bs => rfl

theorem innerJoiner_cons (sufA sufB : String) (keys : List String)
    (a0 b0 : Row) (restA restB : List Row) :
    innerJoiner sufA sufB keys (a0 :: restA) (b0 :: restB) =
      joinBoth sufA sufB keys a0 restA (b0 :: restB) := rfl

/-- The merge with the Inner strategy produces exactly the concatenated
cross-products of the key-matched group pairs, in key order, and nothing
from unmatched groups. -/
theorem joinLoop_inner (sufA sufB : String) (keys : List String) :
    ∀ (n : Nat) (gAs gBs : List (List Value × List Row)),
    gAs.length + gBs.length ≤ n →
    (∀ g ∈ gAs, IntL g.1) → (∀ g ∈ gBs, IntL g.1) →
    List.Pairwise (fun g g' => tupleCmp g.1 g'.1 = some .lt) gAs →
    List.Pairwise (fun g g' => tupleCmp g.1 g'.1 = some .lt) gBs →
    (∀ g ∈ gAs, g.2 ≠ [] ∧ ∀ l ∈ g.2, ∀ c, hasCol l c = hasCol g.2.headI c) →
    (∀ g ∈ gBs, g.2 ≠ [] ∧ ∀ r ∈ g.2, ∀ c, hasCol r c = hasCol g.2.headI c) →
    joinLoop (innerJoiner sufA sufB) keys gAs gBs =
      .ok ((matchedOf gAs gBs).flatMap
        (fun p => crossPairs sufA sufB keys p.1.2 p.2.2)) := by
  intro n
  induction n with
  | zero =>
    intro gAs gBs hlen _ _ _ _ _ _
    have hA : gAs.length = 0 := by omega
    have hB : gBs.length = 0 := by omega
    rw [List.length_eq_zero] at hA hB
    subst hA
    subst hB
    simp [joinLoop, matchedOf]
  | succ n ihn =>
    intro gAs gBs hlen hIA hIB hPA hPB hGA hGB
    cases gAs with
    | nil =>
      cases gBs with
      | nil => simp [joinLoop, matchedOf]
      | cons gbp gbs =>
        obtain ⟨kb, gb⟩ := gbp
        cases hPB with
        | cons hPBh hPBt =>
          have hrec := ihn [] gbs (by simp at hlen ⊢; omega)
            (fun g hg => absurd hg (List.not_mem_nil g))
            (fun g hg => hIB g (by simp [hg]))
            List.Pairwise.nil hPBt
            (fun g hg => absurd hg (List.not_mem_nil g))
            (fun g hg => hGB g (by simp [hg]))
          simp only [joinLoop]
          rw [innerJoiner_empty_left, hrec]
          simp [matchedOf]
    | cons gap gas =>
      obtain ⟨ka, ga⟩ := gap
      cases gBs with
      | nil =>
        cases hPA with
        | cons hPAh hPAt =>
          have hrec := ihn gas [] (by simp at hlen ⊢; omega)
            (fun g hg => hIA g (by simp [hg]))
            (fun g hg => absurd hg (List.not_mem_nil g))
            hPAt List.Pairwise.nil
            (fun g hg => hGA g (by simp [hg]))
            (fun g hg => absurd hg (List.not_mem_nil g))
          simp only [joinLoop]
          rw [innerJoiner_empty_right, hrec]
          simp [matchedOf_nil_right]
      | cons gbp gbs =>
        obtain ⟨kb, gb⟩ := gbp
        have hIka : IntL ka := hIA (ka, ga) (by simp)
        have hIkb : IntL kb := hIB (kb, gb) (by simp)
        cases hPA with
        | cons hPAh hPAt =>
          cases hPB with
          | cons hPBh hPBt =>
            rcases tupleCmp_total ka kb hIka hIkb with hcmp | hcmp | hcmp
            · -- left key smaller: left group unmatched
              have hrec := ihn gas ((kb, gb) :: gbs) (by simp at hlen ⊢; omega)
                (fun g hg => hIA g (by simp [hg])) hIB hPAt
                (List.Pairwise.cons hPBh hPBt)
                (fun g hg => hGA g (by simp [hg])) hGB
              simp only [joinLoop, hcmp]
              rw [innerJoiner_empty_right, hrec]
              have hne : ∀ g ∈ (kb, gb) :: gbs, g.1 ≠ ka := by
                intro g hg
                rcases List.mem_cons.mp hg with rfl | hg'
                · exact fun hh => (tupleCmp_lt_ne ka kb hcmp) hh.symm
                · have hlt := hPBh g hg'
                  have := tupleCmp_lt_trans ka kb g.1 hIka hIkb
                    (hIB g (by simp [hg'])) hcmp hlt
                  exact fun hh => (tupleCmp_lt_ne ka g.1 this) hh.symm
              rw [matchedOf_drop_left ka ga gas ((kb, gb) :: gbs) hne]
              simp
            · -- equal keys: matched pair
              have hkakb : ka = kb := (tupleCmp_eq_iff ka kb hIka hIkb).mp hcmp
              subst hkakb
              obtain ⟨hgane, hhomga⟩ := hGA (ka, ga) (by simp)
              obtain ⟨hgbne, hhomgb⟩ := hGB (ka, gb) (by simp)
              cases hga : ga with
              | nil => exact absurd hga hgane
              | cons a0 restA =>
                cases hgb : gb with
                | nil => exact absurd hgb hgbne
                | cons b0 restB =>
                  subst hga
                  subst hgb
                  have hrec := ihn gas gbs (by simp at hlen ⊢; omega)
                    (fun g hg => hIA g (by simp [hg]))
                    (fun g hg => hIB g (by simp [hg]))
                    hPAt hPBt
                    (fun g hg => hGA g (by simp [hg]))
                    (fun g hg => hGB g (by simp [hg]))
                  have hjb := joinBoth_ok sufA sufB keys a0 b0 restA restB
                    (fun l hl c => hhomga l hl c) (fun r hr c => hhomgb r hr c)
                  simp only [joinLoop, hcmp]
                  rw [innerJoiner_cons, hjb, hrec]
                  have hgasne : ∀ g ∈ gas, g.1 ≠ ka := by
                    intro g hg
                    have hlt := hPAh g hg
                    exact fun hh => (tupleCmp_lt_ne ka g.1 hlt) hh.symm
                  rw [matchedOf_cons_eq ka (a0 :: restA) (b0 :: restB) gas gbs hgasne]
                  simp
            · -- right key smaller: right group unmatched
              have hltba : tupleCmp kb ka = some .lt :=
                (tupleCmp_gt_iff ka kb hIka hIkb).mp hcmp
              have hrec := ihn ((ka, ga) :: gas) gbs (by simp at hlen ⊢; omega)
                hIA (fun g hg => hIB g (by simp [hg]))
                (List.Pairwise.cons hPAh hPAt) hPBt
                hGA (fun g hg => hGB g (by simp [hg]))
              simp only [joinLoop, hcmp]
              rw [innerJoiner_empty_left, hrec]
              have hne : ∀ g ∈ (ka, ga) :: gas, g.1 ≠ kb := by
                intro g hg
                rcases List.mem_cons.mp hg with rfl | hg'
                · exact fun hh => (tupleCmp_lt_ne kb ka hltba) hh.symm
                · have hlt := hPAh g hg'
                  have := tupleCmp_lt_trans kb ka g.1 hIkb hIka
                    (hIA g (by simp [hg'])) hltba hlt
                  exact fun hh => (tupleCmp_lt_ne kb g.1 this) hh.symm
              rw [matchedOf_drop_right ((ka, ga) :: gas) kb gb gbs hne]
              simp

theorem outerJoiner_empty_right (sufA sufB : String) (keys : List String)
    (ga : List Row) : outerJoiner sufA sufB keys ga [] = .ok ga := rfl

theorem outerJoiner_empty_left (sufA sufB : String) (keys : List String)
    (gb : List Row) : outerJoiner sufA sufB keys [] gb = .ok gb := by
  cases gb with
  | nil => rfl
  | cons b bs => rfl

theorem outerJoiner_cons (sufA sufB : String) (keys : List String)
    (a0 b0 : Row) (restA restB : List Row) :
    outerJoiner sufA sufB keys (a0 :: restA) (b0 :: restB) =
      joinBoth sufA sufB keys a0 restA (b0 :: restB) := rfl

/-- A left-stream row appears in the join output: passed through as-is, or
inside a combined row built from it, a right partner, and a first-row
column partition. -/
def AppearsL (sufA sufB : String) (keys : List String) (l : Row)
    (out : List Row) : Prop :=
  l ∈ out ∨ ∃ a0 b0 r, joinRowP sufA sufB (separateColumns a0 b0 keys).1
    (separateColumns a0 b0 keys).2.1 (separateColumns a0 b0 keys).2.2 l r ∈ out

/-- A right-stream row appears in the join output. -/
def AppearsR (sufA sufB : String) (keys : List String) (r : Row)
    (out : List Row) : Prop :=
  r ∈ out ∨ ∃ a0 b0 l, joinRowP sufA sufB (separateColumns a0 b0 keys).1
    (separateColumns a0 b0 keys).2.1 (separateColumns a0 b0 keys).2.2 l r ∈ out

theorem appearsL_append_left (sufA sufB : String) (keys : List String)
    (l : Row) (pre out : List Row) (h : AppearsL sufA sufB keys l out) :
    AppearsL sufA sufB keys l (pre ++ out) := by
  rcases h with h | ⟨a0, b0, r, h⟩
  · exact Or.inl (List.mem_append.mpr (Or.inr h))
  · exact Or.inr ⟨a0, b0, r, List.mem_append.mpr (Or.inr h)⟩

theorem appearsL_append_right (sufA sufB : String) (keys : List String)
    (l : Row) (out post : List Row) (h : AppearsL sufA sufB keys l out) :
    AppearsL sufA sufB keys l (out ++ post) := by
  rcases h with h | ⟨a0, b0, r, h⟩
  · exact Or.inl (List.mem_append.mpr (Or.inl h))
  · exact Or.inr ⟨a0, b0, r, List.mem_append.mpr (Or.inl h)⟩

theorem appearsR_append_left (sufA sufB : String) (keys : List String)
    (r : Row) (pre out : List Row) (h : AppearsR sufA sufB keys r out) :
    AppearsR sufA sufB keys r (pre ++ out) := by
  rcases h with h | ⟨a0, b0, l, h⟩
  · exact Or.inl (List.mem_append.mpr (Or.inr h))
  · exact Or.inr ⟨a0, b0, l, List.mem_append.mpr (Or.inr h)⟩

theorem appearsR_append_right (sufA sufB : String) (keys : List String)
    (r : Row) (out post : List Row) (h : AppearsR sufA sufB keys r out) :
    AppearsR sufA sufB keys r (out ++ post) := by
  rcases h with h | ⟨a0, b0, l, h⟩
  · exact Or.inl (List.mem_append.mpr (Or.inl h))
  · exact Or.inr ⟨a0, b0, l, List.mem_append.mpr (Or.inl h)⟩

/-- The merge with the Outer strategy succeeds and every row of every group
on either side appears in the output at least once. -/
theorem joinLoop_outer (sufA sufB : String) (keys : List String) :
    ∀ (n : Nat) (gAs gBs : List (List Value × List Row)),
    gAs.length + gBs.length ≤ n →
    (∀ g ∈ gAs, IntL g.1) → (∀ g ∈ gBs, IntL g.1) →
    (∀ g ∈ gAs, g.2 ≠ [] ∧ ∀ l ∈ g.2, ∀ c, hasCol l c = hasCol g.2.headI c) →
    (∀ g ∈ gBs, g.2 ≠ [] ∧ ∀ r ∈ g.2, ∀ c, hasCol r c = hasCol g.2.headI c) →
    ∃ out, joinLoop (outerJoiner sufA sufB) keys gAs gBs = .ok out ∧
      (∀ g ∈ gAs, ∀ l ∈ g.2, AppearsL sufA sufB keys l out) ∧
      (∀ g ∈ gBs, ∀ r ∈ g.2, AppearsR sufA sufB keys r out) := by
  intro n
  induction n with
  | zero =>
    intro gAs gBs hlen _ _ _ _
    have hA : gAs.length = 0 := by omega
    have hB : gBs.length = 0 := by omega
    rw [List.length_eq_zero] at hA hB
    subst hA
    subst hB
    exact ⟨[], by simp [joinLoop], by simp, by simp⟩
  | succ n ihn =>
    intro gAs gBs hlen hIA hIB hGA hGB
    cases gAs with
    | nil =>
      cases gBs with
      | nil => exact ⟨[], by simp [joinLoop], by simp, by simp⟩
      | cons gbp gbs =>
        obtain ⟨kb, gb⟩ := gbp
        obtain ⟨out', hout', hLA', hRB'⟩ := ihn [] gbs (by simp at hlen ⊢; omega)
          (fun g hg => absurd hg (List.not_mem_nil g))
          (fun g hg => hIB g (by simp [hg]))
          (fun g hg => absurd hg (List.not_mem_nil g))
          (fun g hg => hGB g (by simp [hg]))
        refine ⟨gb ++ out', ?_, by simp, ?_⟩
        · simp only [joinLoop]
          rw [outerJoiner_empty_left, hout']
        · intro g hg r hr
          rcases List.mem_cons.mp hg with rfl | hg'
          · exact Or.inl (List.mem_append.mpr (Or.inl hr))
          · exact appearsR_append_left sufA sufB keys r gb out' (hRB' g hg' r hr)
    | cons gap gas =>
      obtain ⟨ka, ga⟩ := gap
      cases gBs with
      | nil =>
        obtain ⟨out', hout', hLA', hRB'⟩ := ihn gas [] (by simp at hlen ⊢; omega)
          (fun g hg => hIA g (by simp [hg]))
          (fun g hg => absurd hg (List.not_mem_nil g))
          (fun g hg => hGA g (by simp [hg]))
          (fun g hg => absurd hg (List.not_mem_nil g))
        refine ⟨ga ++ out', ?_, ?_, by simp⟩
        · simp only [joinLoop]
          rw [outerJoiner_empty_right, hout']
        · intro g hg l hl
          rcases List.mem_cons.mp hg with rfl | hg'
          · exact Or.inl (List.mem_append.mpr (Or.inl hl))
          · exact appearsL_append_left sufA sufB keys l ga out' (hLA' g hg' l hl)
      | cons gbp gbs =>
        obtain ⟨kb, gb⟩ := gbp
        have hIka : IntL ka := hIA (ka, ga) (by simp)
        have hIkb : IntL kb := hIB (kb, gb) (by simp)
        rcases tupleCmp_total ka kb hIka hIkb with hcmp | hcmp | hcmp
        · obtain ⟨out', hout', hLA', hRB'⟩ := ihn gas ((kb, gb) :: gbs)
            (by simp at hlen ⊢; omega)
            (fun g hg => hIA g (by simp [hg])) hIB
            (fun g hg => hGA g (by simp [hg])) hGB
          refine ⟨ga ++ out', ?_, ?_, ?_⟩
          · simp only [joinLoop, hcmp]
            rw [outerJoiner_empty_right, hout']
          · intro g hg l hl
            rcases List.mem_cons.mp hg with rfl | hg'
            · exact Or.inl (List.mem_append.mpr (Or.inl hl))
            · exact appearsL_append_left sufA sufB keys l ga out' (hLA' g hg' l hl)
          · intro g hg r hr
            exact appearsR_append_left sufA sufB keys r ga out' (hRB' g hg r hr)
        · -- equal keys: matched pair
          obtain ⟨hgane, hhomga⟩ := hGA (ka, ga) (by simp)
          obtain ⟨hgbne, hhomgb⟩ := hGB (kb, gb) (by simp)
          cases hga : ga with
          | nil => exact absurd hga hgane
          | cons a0 restA =>
            cases hgb : gb with
            | nil => exact absurd hgb hgbne
            | cons b0 restB =>
              subst hga
              subst hgb
              obtain ⟨out', hout', hLA', hRB'⟩ := ihn gas gbs
                (by simp at hlen ⊢; omega)
                (fun g hg => hIA g (by simp [hg]))
                (fun g hg => hIB g (by simp [hg]))
                (fun g hg => hGA g (by simp [hg]))
                (fun g hg => hGB g (by simp [hg]))
              have hjb := joinBoth_ok sufA sufB keys a0 b0 restA restB
                (fun l hl c => hhomga l hl c) (fun r hr c => hhomgb r hr c)
              refine ⟨crossPairs sufA sufB keys (a0 :: restA) (b0 :: restB) ++ out',
                ?_, ?_, ?_⟩
              · simp only [joinLoop, hcmp]
                rw [outerJoiner_cons, hjb, hout']
              · intro g hg l hl
                rcases List.mem_cons.mp hg with rfl | hg'
                · refine Or.inr ⟨a0, b0, b0, List.mem_append.mpr (Or.inl ?_)⟩
                  show _ ∈ (a0 :: restA).flatMap (fun l => (b0 :: restB).map
                    (fun r => joinRowP sufA sufB (separateColumns a0 b0 keys).1
                      (separateColumns a0 b0 keys).2.1
                      (separateColumns a0 b0 keys).2.2 l r))
                  exact List.mem_flatMap.mpr ⟨l, hl,
                    List.mem_map.mpr ⟨b0, by simp, rfl⟩⟩
                · exact appearsL_append_left sufA sufB keys l _ out' (hLA' g hg' l hl)
              · intro g hg r hr
                rcases List.mem_cons.mp hg with rfl | hg'
                · refine Or.inr ⟨a0, b0, a0, List.mem_append.mpr (Or.inl ?_)⟩
                  show _ ∈ (a0 :: restA).flatMap (fun l => (b0 :: restB).map
                    (fun r => joinRowP sufA sufB (separateColumns a0 b0 keys).1
                      (separateColumns a0 b0 keys).2.1
                      (separateColumns a0 b0 keys).2.2 l r))
                  exact List.mem_flatMap.mpr ⟨a0, by simp,
                    List.mem_map.mpr ⟨r, hr, rfl⟩⟩
                · exact appearsR_append_left sufA sufB keys r _ out' (hRB' g hg' r hr)
        · obtain ⟨out', hout', hLA', hRB'⟩ := ihn ((ka, ga) :: gas) gbs
            (by simp at hlen ⊢; omega)
            hIA (fun g hg => hIB g (by simp [hg]))
            hGA (fun g hg => hGB g (by simp [hg]))
          refine ⟨gb ++ out', ?_, ?_, ?_⟩
          · simp only [joinLoop, hcmp]
            rw [outerJoiner_empty_left, hout']
          · intro g hg l hl
            exact appearsL_append_left sufA sufB keys l gb out' (hLA' g hg l hl)
          · intro g hg r hr
            rcases List.mem_cons.mp hg with rfl | hg'
            · exact Or.inl (List.mem_append.mpr (Or.inl hr))
            · exact appearsR_append_left sufA sufB keys r gb out' (hRB' g hg' r hr)

/-! ### From row-level hypotheses to group-level hypotheses -/

theorem mem_of_mem_groupRuns (f : α → κ) [DecidableEq κ] (l : List α)
    (g : κ × List α) (hg : g ∈ groupRuns f l) (a : α) (ha : a ∈ g.2) :
    a ∈ l := by
  rw [← groupRuns_flatten f l]
  exact List.mem_flatMap.mpr ⟨g, hg, ha⟩

/-- A chain on the underlying elements (through `f`) induces the same chain
on the group keys of `groupRuns`. -/
theorem groupRuns_chain_of_chain (f : α → κ) [DecidableEq κ] (R : κ → κ → Prop) :
    ∀ l : List α, List.Chain' (fun a b => R (f a) (f b)) l →
      List.Chain' (fun g g' : κ × List α => R g.1 g'.1) (groupRuns f l)
  | [] => by intro _; rw [groupRuns_nil]; exact List.chain'_nil
  | x :: xs => by
    intro h
    rw [groupRuns_cons]
    have hsplit : x :: xs = (x :: xs.takeWhile (fun a => f a = f x)) ++
        xs.dropWhile (fun a => f a = f x) := by
      simp [List.takeWhile_append_dropWhile]
    rw [hsplit, List.chain'_append] at h
    obtain ⟨h1, h2, hlink⟩ := h
    have htail := groupRuns_chain_of_chain f R
      (xs.dropWhile (fun a => f a = f x)) h2
    refine List.chain'_cons'.mpr ⟨?_, htail⟩
    intro g' hg'
    cases hd : xs.dropWhile (fun a => f a = f x) with
    | nil => rw [hd] at hg'; simp [groupRuns_nil] at hg'
    | cons y ys =>
      rw [hd, groupRuns_cons] at hg'
      rw [List.head?_cons, Option.mem_def, Option.some_inj] at hg'
      have hkey : g'.1 = f y := by rw [← hg']
      have hne : (x :: xs.takeWhile (fun a => f a = f x)) ≠ [] := by simp
      have hlastmem := List.getLast_mem hne
      have hfl : f ((x :: xs.takeWhile (fun a => f a = f x)).getLast hne) =
          f x := by
        rcases List.mem_cons.mp hlastmem with heq | hmem
        · rw [heq]
        · have hp := List.mem_takeWhile_imp hmem
          exact of_decide_eq_true hp
      rw [hd] at hlink
      have hR := hlink _ (by
          rw [List.getLast?_eq_getLast _ hne]
          exact rfl)
        y (by rw [List.head?_cons]; exact rfl)
      show R (f x) g'.1
      rw [hkey]
      rw [hfl] at hR
      exact hR
termination_by l => l.length
decreasing_by
  simp only [List.length_cons]
  exact Nat.lt_succ_of_le (List.dropWhile_sublist _).length_le

theorem chain'_conj {R S : α → α → Prop} :
    ∀ {l : List α}, List.Chain' R l → List.Chain' S l →
      List.Chain' (fun a b => R a b ∧ S a b) l := by
  intro l
  induction l with
  | nil => intro _ _; exact List.chain'_nil
  | cons x xs ih =>
    intro hR hS
    cases xs with
    | nil => simp
    | cons y ys =>
      rw [List.chain'_cons] at hR hS ⊢
      exact ⟨⟨hR.1, hS.1⟩, ih hR.2 hS.2⟩

theorem chain'_imp_mem {R S : α → α → Prop} :
    ∀ (l : List α), (∀ a ∈ l, ∀ b ∈ l, R a b → S a b) →
      List.Chain' R l → List.Chain' S l := by
  intro l
  induction l with
  | nil => intro _ _; exact List.chain'_nil
  | cons x xs ih =>
    intro h hc
    cases xs with
    | nil => simp
    | cons y ys =>
      rw [List.chain'_cons] at hc ⊢
      exact ⟨h x (by simp) y (by simp) hc.1,
        ih (fun a ha b hb => h a (by simp [ha]) b (by simp [hb])) hc.2⟩

/-- `Chain'` implies `Pairwise` when the relation is transitive on the
members of the list. -/
theorem pairwise_of_chain'_trans {R : α → α → Prop} :
    ∀ (l : List α), (∀ a ∈ l, ∀ b ∈ l, ∀ c ∈ l, R a b → R b c → R a c) →
      List.Chain' R l → List.Pairwise R l := by
  intro l
  induction l with
  | nil => intro _ _; exact List.Pairwise.nil
  | cons x xs ih =>
    intro htr hc
    rw [List.chain'_cons'] at hc
    obtain ⟨hhd, htl⟩ := hc
    have hp := ih (fun a ha b hb c hc' =>
      htr a (by simp [ha]) b (by simp [hb]) c (by simp [hc'])) htl
    refine List.pairwise_cons.mpr ⟨?_, hp⟩
    intro b hb
    cases xs with
    | nil => cases hb
    | cons y ys =>
      have hxy : R x y := hhd y rfl
      rcases List.mem_cons.mp hb with rfl | hb'
      · exact hxy
      · have hyb : R y b := (List.pairwise_cons.mp hp).1 b hb'
        exact htr x (by simp) y (by simp) b (by simp [hb']) hxy hyb

/-- When all key values of all rows are integers, every group key of the
key-grouped stream is an integer tuple. -/
theorem groupRuns_intKeys (keys : List String) (rows : List Row)
    (hK : ∀ r ∈ rows, ∀ v ∈ optKey keys r, v.isInt = true) :
    ∀ g ∈ groupRuns (optKey keys) rows, IntL g.1 := by
  intro g hg
  obtain ⟨hne, hkc⟩ := groupRuns_key_const (optKey keys) rows g hg
  cases h2 : g.2 with
  | nil => exact absurd h2 hne
  | cons a t =>
    have ha : a ∈ g.2 := by rw [h2]; simp
    have har : a ∈ rows := mem_of_mem_groupRuns (optKey keys) rows g hg a ha
    have hka := hkc a ha
    intro v hv
    exact hK a har v (by rw [hka]; exact hv)

/-- Column homogeneity per key (bounded form) yields column-homogeneous
groups. -/
theorem groupRuns_homog (keys : List String) (rows : List Row)
    (hH : ∀ a ∈ rows, ∀ b ∈ rows, optKey keys a = optKey keys b →
      ∀ c ∈ rowCols a ++ rowCols b, hasCol a c = hasCol b c) :
    ∀ g ∈ groupRuns (optKey keys) rows,
      g.2 ≠ [] ∧ ∀ l ∈ g.2, ∀ c, hasCol l c = hasCol g.2.headI c := by
  intro g hg
  obtain ⟨hne, hkc⟩ := groupRuns_key_const (optKey keys) rows g hg
  refine ⟨hne, ?_⟩
  intro l hl c
  have hhead : g.2.headI ∈ g.2 := by
    cases h2 : g.2 with
    | nil => exact absurd h2 hne
    | cons h t => simp [List.headI]
  have hlr : l ∈ rows := mem_of_mem_groupRuns (optKey keys) rows g hg l hl
  have hhr : g.2.headI ∈ rows :=
    mem_of_mem_groupRuns (optKey keys) rows g hg _ hhead
  have hkey : optKey keys l = optKey keys g.2.headI := by
    rw [hkc l hl, hkc _ hhead]
  exact sameCols_of_bounded l g.2.headI (hH l hlr _ hhr hkey) c

/-- A weakly key-ascending row stream yields strictly ascending group keys. -/
theorem groupRuns_pairwise_lt (keys : List String) (rows : List Row)
    (hK : ∀ r ∈ rows, ∀ v ∈ optKey keys r, v.isInt = true)
    (hS : List.Chain' (fun a b =>
      tupleCmp (optKey keys a) (optKey keys b) = some .lt ∨
      tupleCmp (optKey keys a) (optKey keys b) = some .eq) rows) :
    List.Pairwise (fun g g' => tupleCmp g.1 g'.1 = some .lt)
      (groupRuns (optKey keys) rows) := by
  have hI : ∀ g ∈ groupRuns (optKey keys) rows, IntL g.1 :=
    groupRuns_intKeys keys rows hK
  have hweak := groupRuns_chain_of_chain (optKey keys)
    (fun u v => tupleCmp u v = some .lt ∨ tupleCmp u v = some .eq) rows hS
  have hneq := groupRuns_chain (optKey keys) rows
  have hconj := chain'_conj hweak hneq
  have hstrict : List.Chain' (fun g g' => tupleCmp g.1 g'.1 = some .lt)
      (groupRuns (optKey keys) rows) := by
    refine chain'_imp_mem _ ?_ hconj
    intro g hg g' hg' hrs
    rcases hrs.1 with h | h
    · exact h
    · exact absurd ((tupleCmp_eq_iff g.1 g'.1 (hI g hg) (hI g' hg')).mp h) hrs.2
  refine pairwise_of_chain'_trans _ ?_ hstrict
  intro a ha b hb c hc hab hbc
  exact tupleCmp_lt_trans a.1 b.1 c.1 (hI a ha) (hI b hb) (hI c hc) hab hbc

/-- **C6.** For key-sorted, key-grouped input streams (every row carries all
key columns with integer values, rows weakly ascending by key tuple, rows of
equal key column-homogeneous): the Inner join returns exactly the
concatenated cross-products of the key-matched group pairs — hence no row
derived from an unmatched-side group — and the Outer join succeeds with every
input row of either side appearing in the output at least once, either
passed through as-is or inside a combined row. -/
theorem c6_join_completeness (sufA sufB : String) (keys : List String)
    (rowsA rowsB : List Row)
    (hKA : ∀ r ∈ rowsA, (keyTuple keys r).isSome = true ∧
      ∀ v ∈ optKey keys r, v.isInt = true)
    (hKB : ∀ r ∈ rowsB, (keyTuple keys r).isSome = true ∧
      ∀ v ∈ optKey keys r, v.isInt = true)
    (hSA : List.Chain' (fun a b =>
      tupleCmp (optKey keys a) (optKey keys b) = some .lt ∨
      tupleCmp (optKey keys a) (optKey keys b) = some .eq) rowsA)
    (hSB : List.Chain' (fun a b =>
      tupleCmp (optKey keys a) (optKey keys b) = some .lt ∨
      tupleCmp (optKey keys a) (optKey keys b) = some .eq) rowsB)
    (hHA : ∀ a ∈ rowsA, ∀ b ∈ rowsA, optKey keys a = optKey keys b →
      ∀ c ∈ rowCols a ++ rowCols b, hasCol a c = hasCol b c)
    (hHB : ∀ a ∈ rowsB, ∀ b ∈ rowsB, optKey keys a = optKey keys b →
      ∀ c ∈ rowCols a ++ rowCols b, hasCol a c = hasCol b c) :
    joinOp (innerJoiner sufA sufB) keys rowsA rowsB =
      .ok ((matchedOf (groupRuns (optKey keys) rowsA)
          (groupRuns (optKey keys) rowsB)).flatMap
        (fun p => crossPairs sufA sufB keys p.1.2 p.2.2)) ∧
    ∃ out, joinOp (outerJoiner sufA sufB) keys rowsA rowsB = .ok out ∧
      (∀ l ∈ rowsA, AppearsL sufA sufB keys l out) ∧
      (∀ r ∈ rowsB, AppearsR sufA sufB keys r out) := by
  have hcond : (∀ r ∈ rowsA, (keyTuple keys r).isSome) ∧
      (∀ r ∈ rowsB, (keyTuple keys r).isSome) :=
    ⟨fun r hr => (hKA r hr).1, fun r hr => (hKB r hr).1⟩
  have hIA := groupRuns_intKeys keys rowsA (fun r hr => (hKA r hr).2)
  have hIB := groupRuns_intKeys keys rowsB (fun r hr => (hKB r hr).2)
  have hGA := groupRuns_homog keys rowsA hHA
  have hGB := groupRuns_homog keys rowsB hHB
  have hPA := groupRuns_pairwise_lt keys rowsA (fun r hr => (hKA r hr).2) hSA
  have hPB := groupRuns_pairwise_lt keys rowsB (fun r hr => (hKB r hr).2) hSB
  constructor
  · unfold joinOp
    rw [if_pos hcond]
    exact joinLoop_inner sufA sufB keys
      ((groupRuns (optKey keys) rowsA).length +
        (groupRuns (optKey keys) rowsB).length)
      _ _ (le_refl _) hIA hIB hPA hPB hGA hGB
  · obtain ⟨out, hout, hL, hR⟩ := joinLoop_outer sufA sufB keys
      ((groupRuns (optKey keys) rowsA).length +
        (groupRuns (optKey keys) rowsB).length)
      _ _ (le_refl _) hIA hIB hGA hGB
    refine ⟨out, ?_, ?_, ?_⟩
    · unfold joinOp
      rw [if_pos hcond]
      exact hout
    · intro l hl
      have hmem : l ∈ (groupRuns (optKey keys) rowsA).flatMap (·.2) := by
        rw [groupRuns_flatten]; exact hl
      obtain ⟨g, hg, hlg⟩ := List.mem_flatMap.mp hmem
      exact hL g hg l hlg
    · intro r hr
      have hmem : r ∈ (groupRuns (optKey keys) rowsB).flatMap (·.2) := by
        rw [groupRuns_flatten]; exact hr
      obtain ⟨g, hg, hrg⟩ := List.mem_flatMap.mp hmem
      exact hR g hg r hrg

/-- Witness for C6: a two-group left stream against a two-group right stream
with one matched key. -/
theorem c6_join_completeness_witness :
    joinOp (innerJoiner "_1" "_2") ["k"]
      [[("k", Value.int 1), ("x", Value.int 10)],
        [("k", Value.int 3), ("x", Value.int 30)]]
      [[("k", Value.int 1), ("y", Value.int 5)],
        [("k", Value.int 2), ("y", Value.int 6)]] =
      .ok ((matchedOf
          (groupRuns (optKey ["k"])
            [[("k", Value.int 1), ("x", Value.int 10)],
              [("k", Value.int 3), ("x", Value.int 30)]])
          (groupRuns (optKey ["k"])
            [[("k", Value.int 1), ("y", Value.int 5)],
              [("k", Value.int 2), ("y", Value.int 6)]])).flatMap
        (fun p => crossPairs "_1" "_2" ["k"] p.1.2 p.2.2)) ∧
    ∃ out, joinOp (outerJoiner "_1" "_2") ["k"]
      [[("k", Value.int 1), ("x", Value.int 10)],
        [("k", Value.int 3), ("x", Value.int 30)]]
      [[("k", Value.int 1), ("y", Value.int 5)],
        [("k", Value.int 2), ("y", Value.int 6)]] = .ok out ∧
      (∀ l ∈ ([[("k", Value.int 1), ("x", Value.int 10)],
        [("k", Value.int 3), ("x", Value.int 30)]] : List Row),
        AppearsL "_1" "_2" ["k"] l out) ∧
      (∀ r ∈ ([[("k", Value.int 1), ("y", Value.int 5)],
        [("k", Value.int 2), ("y", Value.int 6)]] : List Row),
        AppearsR "_1" "_2" ["k"] r out) :=
  c6_join_completeness "_1" "_2" ["k"]
    [[("k", Value.int 1), ("x", Value.int 10)],
      [("k", Value.int 3), ("x", Value.int 30)]]
    [[("k", Value.int 1), ("y", Value.int 5)],
      [("k", Value.int 2), ("y", Value.int 6)]]
    (by decide) (by decide)
    (by exact List.Chain.cons (Or.inl (by decide)) List.Chain.nil)
    (by exact List.Chain.cons (Or.inl (by decide)) List.Chain.nil)
    (by decide) (by decide)

/-! ### TopN (`operations.py` lines 475-499)

`TopN` keeps a bounded min-heap of `(value, slot)` pairs via `heapq`, where
`slot` indexes the parallel `topn` buffer, and finally sorts the buffer
descending by the column.  The source only observes the heap through
`heap[0]`, `heappush` and `heapreplace`, all of which are determined by the
heap's multiset of entries; we realise the same contract with a list kept
fully sorted by the entry order. -/

/-- Integer value of a row's column (default `0`; meaningful only under the
hypothesis that the column holds a Python `int`). -/
def colIntV (col : String) (r : Row) : Int :=
  match rowGet r col with
  | some (.int k) => k
  | _ => 0

/-- The row's column exists and holds a Python `int`. -/
def colIntB (col : String) (r : Row) : Bool :=
  match rowGet r col with
  | some (.int _) => true
  | _ => false

def toIntD : Value → Int
  | .int k => k
  | _ => 0

/-- Python tuple comparison on heap entries `(value, slot)`: equality first,
then `<` on the first differing component (a `TypeError` across value
types). -/
def pairCmp (p q : Value × Nat) : Except Err Ordering :=
  if p.1 = q.1 then .ok (compare p.2 q.2)
  else
    match valueCmp p.1 q.1 with
    | some o => .ok o
    | none => .error .typeErr

/-- Strict entry order of the heap. -/
def pairLt (p q : Value × Nat) : Prop :=
  valueCmp p.1 q.1 = some .lt ∨ (p.1 = q.1 ∧ p.2 < q.2)

/-- `heapq.heappush` on the sorted-list realisation. -/
def heapIns (p : Value × Nat) :
    List (Value × Nat) → Except Err (List (Value × Nat))
  | [] => .ok [p]
  | q :: t =>
    match pairCmp p q with
    | .error e => .error e
    | .ok .lt => .ok (p :: q :: t)
    | .ok _ =>
      match heapIns p t with
      | .error e => .error e
      | .ok t' => .ok (q :: t')

theorem heapIns_nil (p : Value × Nat) : heapIns p [] = .ok [p] := rfl

theorem heapIns_cons (p q : Value × Nat) (t : List (Value × Nat)) :
    heapIns p (q :: t) =
      match pairCmp p q with
      | .error e => .error e
      | .ok .lt => .ok (p :: q :: t)
      | .ok _ =>
        match heapIns p t with
        | .error e => .error e
        | .ok t' => .ok (q :: t') := rfl

/-- One iteration of the `TopN.__call__` loop over `rows`: grow the heap
while it has fewer than `n` entries, otherwise replace the minimum when the
incoming value is strictly greater (`row[column] > heap[0][0]`), overwriting
the evicted entry's buffer slot. -/
def topNStep (col : String) (n : Nat)
    (st : List (Value × Nat) × List Row) (row : Row) :
    Except Err (List (Value × Nat) × List Row) :=
  match rowGet row col with
  | none => .error .keyErr
  | some v =>
    if st.1.length < n then
      match heapIns (v, st.1.length) st.1 with
      | .error e => .error e
      | .ok h' => .ok (h', st.2 ++ [row])
    else
      match st.1 with
      | [] => .error .idxErr
      | (v0, i0) :: hrest =>
        match valueCmp v v0 with
        | none => .error .typeErr
        | some .gt =>
          match heapIns (v, i0) hrest with
          | .error e => .error e
          | .ok h' => .ok (h', st.2.set i0 row)
        | some _ => .ok st

/-- `topn.sort(key=..., reverse=True)` is Python's stable descending sort;
stability makes the sorted permutation unique, so stable insertion realises
it.  A new row is placed before the first strictly smaller row. -/
def insDescE (col : String) (row : Row) : List Row → Except Err (List Row)
  | [] => .ok [row]
  | r :: t =>
    match rowGet row col, rowGet r col with
    | some v, some w =>
      match valueCmp v w with
      | some .gt => .ok (row :: r :: t)
      | some _ =>
        match insDescE col row t with
        | .error e => .error e
        | .ok t' => .ok (r :: t')
      | none => .error .typeErr
    | none, _ => .error .keyErr
    | _, none => .error .keyErr

def sortDescE (col : String) (rows : List Row) : Except Err (List Row) :=
  rows.foldlM (fun acc r => insDescE col r acc) []

/-- `TopN(column, n)` as a reducer (the group key is unused by the source). -/
def topNRed (col : String) (n : Nat) : Reducer := fun _ rows =>
  match rows.foldlM (topNStep col n) ([], []) with
  | .error e => .error e
  | .ok st => sortDescE col st.2

theorem valueCmp_int (a b : Int) :
    valueCmp (Value.int a) (Value.int b) = some (compare a b) := rfl

theorem insDescE_cons (col : String) (row r : Row) (t : List Row) :
    insDescE col row (r :: t) =
      match rowGet row col, rowGet r col with
      | some v, some w =>
        match valueCmp v w with
        | some .gt => .ok (row :: r :: t)
        | some _ =>
          match insDescE col row t with
          | .error e => .error e
          | .ok t' => .ok (r :: t')
        | none => .error .typeErr
      | none, _ => .error .keyErr
      | _, none => .error .keyErr := rfl

theorem pairCmp_int (a b : Int) (i j : Nat) :
    pairCmp (Value.int a, i) (Value.int b, j) =
      .ok (if a = b then compare i j else compare a b) := by
  unfold pairCmp
  by_cases h : a = b
  · subst h
    rw [if_pos rfl, if_pos rfl]
  · have hne : (Value.int a, i).1 ≠ (Value.int b, j).1 := by
      simpa using h
    rw [if_neg hne, if_neg h]
    rfl

theorem pairLt_trans_int {p q r : Value × Nat}
    (hp : ∃ k : Int, p.1 = Value.int k) (hq : ∃ k : Int, q.1 = Value.int k)
    (hr : ∃ k : Int, r.1 = Value.int k) :
    pairLt p q → pairLt q r → pairLt p r := by
  obtain ⟨a, ha⟩ := hp
  obtain ⟨b, hb⟩ := hq
  obtain ⟨c, hc⟩ := hr
  intro h1 h2
  rw [pairLt, ha, hb, valueCmp_int] at h1
  rw [pairLt, hb, hc, valueCmp_int] at h2
  rw [pairLt, ha, hc, valueCmp_int]
  have e1 : a < b ∨ (a = b ∧ p.2 < q.2) := by
    rcases h1 with h | ⟨hv, hs⟩
    · exact Or.inl (compare_lt_iff_lt.mp (Option.some_inj.mp h))
    · exact Or.inr ⟨by simpa using hv, hs⟩
  have e2 : b < c ∨ (b = c ∧ q.2 < r.2) := by
    rcases h2 with h | ⟨hv, hs⟩
    · exact Or.inl (compare_lt_iff_lt.mp (Option.some_inj.mp h))
    · exact Or.inr ⟨by simpa using hv, hs⟩
  rcases e1 with h1' | ⟨hv1, hs1⟩ <;> rcases e2 with h2' | ⟨hv2, hs2⟩
  · exact Or.inl (by rw [compare_lt_iff_lt.mpr (by omega)])
  · exact Or.inl (by rw [compare_lt_iff_lt.mpr (by omega)])
  · exact Or.inl (by rw [compare_lt_iff_lt.mpr (by omega)])
  · exact Or.inr ⟨by rw [hv1, hv2], by omega⟩

theorem pairLt_le_int {p q : Value × Nat}
    (hp : ∃ k : Int, p.1 = Value.int k) (hq : ∃ k : Int, q.1 = Value.int k)
    (h : pairLt p q) : toIntD p.1 ≤ toIntD q.1 := by
  obtain ⟨a, ha⟩ := hp
  obtain ⟨b, hb⟩ := hq
  rw [pairLt, ha, hb, valueCmp_int] at h
  rw [ha, hb]
  show a ≤ b
  rcases h with h | ⟨hv, _⟩
  · exact le_of_lt (compare_lt_iff_lt.mp (Option.some_inj.mp h))
  · have : a = b := by simpa using hv
    omega

/-- Sorted-insertion specification of the heap push: on integer-valued
entries with distinct slots it succeeds, permutes in the new entry, and
keeps the heap sorted. -/
theorem heapIns_spec :
    ∀ (t : List (Value × Nat)) (p : Value × Nat),
    (∀ q ∈ p :: t, ∃ k : Int, q.1 = Value.int k) →
    ((p :: t).map (fun q => q.2)).Nodup →
    List.Pairwise pairLt t →
    ∃ t', heapIns p t = .ok t' ∧ t'.Perm (p :: t) ∧
      List.Pairwise pairLt t' := by
  intro t
  induction t with
  | nil =>
    intro p _ _ _
    exact ⟨[p], rfl, List.Perm.refl _, List.pairwise_singleton _ _⟩
  | cons q rest ih =>
    intro p hint hnd hsort
    obtain ⟨a, ha⟩ := hint p (by simp)
    obtain ⟨b, hb⟩ := hint q (by simp)
    have hpq : pairCmp p q = .ok (if a = b then compare p.2 q.2
        else compare a b) := by
      have : pairCmp p q = pairCmp (Value.int a, p.2) (Value.int b, q.2) := by
        rw [show p = (p.1, p.2) from rfl, show q = (q.1, q.2) from rfl, ha, hb]
      rw [this, pairCmp_int]
    have hslot : p.2 ≠ q.2 := by
      have h0 : (List.map (fun q => q.2) (p :: q :: rest)).Nodup := hnd
      simp only [List.map_cons, List.nodup_cons] at h0
      intro hh
      exact h0.1 (by simp [hh])
    have hsub : ((p :: rest).map (fun q => q.2)).Nodup := by
      have hsl : (p :: rest).Sublist (p :: q :: rest) := by
        refine List.Sublist.cons₂ p ?_
        exact List.sublist_cons_self q rest
      exact (hsl.map (fun q => q.2)).nodup hnd
    have hrec := ih p (fun x hx => hint x (by
        rcases List.mem_cons.mp hx with rfl | hx'
        · simp
        · simp [hx'])) hsub (List.Pairwise.sublist (List.sublist_cons_self q rest) hsort)
    by_cases hab : a = b
    · subst hab
      rw [if_pos rfl] at hpq
      have hij : p.2 < q.2 ∨ q.2 < p.2 := by omega
      rcases hij with hij | hij
      · refine ⟨p :: q :: rest, ?_, List.Perm.refl _, ?_⟩
        · rw [heapIns_cons, hpq]
          have : compare p.2 q.2 = .lt := by
            rw [compare_lt_iff_lt.mpr hij]
          rw [this]
        · refine List.pairwise_cons.mpr ⟨?_, hsort⟩
          intro x hx
          have hpq' : pairLt p q := Or.inr ⟨by rw [ha, hb], hij⟩
          rcases List.mem_cons.mp hx with rfl | hx'
          · exact hpq'
          · exact pairLt_trans_int ⟨a, ha⟩ ⟨a, hb⟩
              (hint x (by simp [hx'])) hpq'
              ((List.pairwise_cons.mp hsort).1 x hx')
      · obtain ⟨t', ht', hperm, hsort'⟩ := hrec
        refine ⟨q :: t', ?_, ?_, ?_⟩
        · rw [heapIns_cons, hpq]
          have : compare p.2 q.2 = .gt := by
            rw [Nat.compare_eq_gt.mpr hij]
          rw [this, ht']
        · exact List.Perm.trans (hperm.cons q) (List.Perm.swap p q rest)
        · refine List.pairwise_cons.mpr ⟨?_, hsort'⟩
          intro x hx
          have hx' : x ∈ p :: rest := hperm.mem_iff.mp hx
          rcases List.mem_cons.mp hx' with rfl | hx''
          · exact Or.inr ⟨by rw [hb, ha], hij⟩
          · exact (List.pairwise_cons.mp hsort).1 x hx''
    · rw [if_neg hab] at hpq
      rcases lt_or_gt_of_ne hab with hlt | hgt
      · refine ⟨p :: q :: rest, ?_, List.Perm.refl _, ?_⟩
        · rw [heapIns_cons, hpq, compare_lt_iff_lt.mpr hlt]
        · refine List.pairwise_cons.mpr ⟨?_, hsort⟩
          intro x hx
          have hpq' : pairLt p q := Or.inl (by
            rw [ha, hb, valueCmp_int, compare_lt_iff_lt.mpr hlt])
          rcases List.mem_cons.mp hx with rfl | hx'
          · exact hpq'
          · exact pairLt_trans_int ⟨a, ha⟩ ⟨b, hb⟩
              (hint x (by simp [hx'])) hpq'
              ((List.pairwise_cons.mp hsort).1 x hx')
      · obtain ⟨t', ht', hperm, hsort'⟩ := hrec
        refine ⟨q :: t', ?_, ?_, ?_⟩
        · rw [heapIns_cons, hpq]
          have : compare a b = .gt := by
            rw [compare_gt_iff_gt.mpr hgt]
          rw [this, ht']
        · exact List.Perm.trans (hperm.cons q) (List.Perm.swap p q rest)
        · refine List.pairwise_cons.mpr ⟨?_, hsort'⟩
          intro x hx
          have hx' : x ∈ p :: rest := hperm.mem_iff.mp hx
          rcases List.mem_cons.mp hx' with rfl | hx''
          · exact Or.inl (by
              rw [hb, ha, valueCmp_int, compare_lt_iff_lt.mpr hgt])
          · exact (List.pairwise_cons.mp hsort).1 x hx''

/-- Stable descending insertion: succeeds on integer-valued columns, permutes
the new row in, keeps the list weakly descending, and the head is the new
row or the old head. -/
theorem insDescE_spec (col : String) :
    ∀ (acc : List Row) (row : Row),
    colIntB col row = true → (∀ x ∈ acc, colIntB col x = true) →
    List.Chain' (fun a b => colIntV col b ≤ colIntV col a) acc →
    ∃ out, insDescE col row acc = .ok out ∧ out.Perm (row :: acc) ∧
      List.Chain' (fun a b => colIntV col b ≤ colIntV col a) out ∧
      ∀ y ∈ out.head?, y = row ∨ acc.head? = some y := by
  intro acc
  induction acc with
  | nil =>
    intro row _ _ _
    exact ⟨[row], rfl, List.Perm.refl _, List.chain'_singleton row, by
      intro y hy
      rw [List.head?_cons, Option.mem_def, Option.some_inj] at hy
      exact Or.inl hy.symm⟩
  | cons r t ih =>
    intro row hrow hacc hch
    have hv : ∃ a : Int, rowGet row col = some (Value.int a) := by
      unfold colIntB at hrow
      cases hg : rowGet row col with
      | none => rw [hg] at hrow; cases hrow
      | some v =>
        cases v with
        | int a => exact ⟨a, rfl⟩
        | str s => rw [hg] at hrow; cases hrow
        | rat q => rw [hg] at hrow; cases hrow
        | seq l => rw [hg] at hrow; cases hrow
    have hw : ∃ b : Int, rowGet r col = some (Value.int b) := by
      have hr := hacc r (by simp)
      unfold colIntB at hr
      cases hg : rowGet r col with
      | none => rw [hg] at hr; cases hr
      | some v =>
        cases v with
        | int b => exact ⟨b, rfl⟩
        | str s => rw [hg] at hr; cases hr
        | rat q => rw [hg] at hr; cases hr
        | seq l => rw [hg] at hr; cases hr
    obtain ⟨a, ha⟩ := hv
    obtain ⟨b, hb⟩ := hw
    have hva : colIntV col row = a := by unfold colIntV; rw [ha]
    have hvb : colIntV col r = b := by unfold colIntV; rw [hb]
    by_cases hab : b < a
    · refine ⟨row :: r :: t, ?_, List.Perm.refl _, ?_, ?_⟩
      · rw [insDescE_cons]
        simp only [ha, hb, valueCmp_int, compare_gt_iff_gt.mpr hab]
      · refine List.chain'_cons.mpr ⟨?_, hch⟩
        rw [hva, hvb]
        omega
      · intro y hy
        rw [List.head?_cons, Option.mem_def, Option.some_inj] at hy
        exact Or.inl hy.symm
    · obtain ⟨t', ht', hperm, hch', hhd'⟩ := ih row hrow
        (fun x hx => hacc x (by simp [hx])) (List.Chain'.tail hch)
      have hcmp : compare a b ≠ Ordering.gt := by
        intro hh
        exact hab (compare_gt_iff_gt.mp hh)
      refine ⟨r :: t', ?_, ?_, ?_, ?_⟩
      · rw [insDescE_cons]
        simp only [ha, hb, valueCmp_int]
        cases hc : compare a b with
        | lt => simp only [ht']
        | eq => simp only [ht']
        | gt => exact absurd hc hcmp
      · exact List.Perm.trans (hperm.cons r) (List.Perm.swap row r t)
      · refine List.chain'_cons'.mpr ⟨?_, hch'⟩
        intro y hy
        rcases hhd' y hy with rfl | hy'
        · rw [hva, hvb]
          omega
        · exact (List.chain'_cons'.mp hch).1 y hy'
      · intro y hy
        rw [List.head?_cons, Option.mem_def, Option.some_inj] at hy
        exact Or.inr (by rw [List.head?_cons, hy])

/-- The final stable descending sort of the buffer: succeeds, permutes, and
sorts weakly descending by the column value. -/
theorem sortDescE_spec (col : String) :
    ∀ (rows acc : List Row),
    (∀ x ∈ rows, colIntB col x = true) →
    (∀ x ∈ acc, colIntB col x = true) →
    List.Chain' (fun a b => colIntV col b ≤ colIntV col a) acc →
    ∃ out, List.foldlM (fun acc r => insDescE col r acc) acc rows = .ok out ∧
      out.Perm (acc ++ rows) ∧
      List.Chain' (fun a b => colIntV col b ≤ colIntV col a) out := by
  intro rows
  induction rows with
  | nil =>
    intro acc _ hacc hch
    exact ⟨acc, rfl, by simp, hch⟩
  | cons r rest ih =>
    intro acc hrows hacc hch
    obtain ⟨acc1, hins, hperm1, hch1, _⟩ :=
      insDescE_spec col acc r (hrows r (by simp)) hacc hch
    obtain ⟨out, hout, hperm, hchout⟩ := ih acc1
      (fun x hx => hrows x (by simp [hx]))
      (fun x hx => by
        rcases List.mem_cons.mp (hperm1.mem_iff.mp hx) with rfl | hx'
        · exact hrows x (by simp)
        · exact hacc x hx')
      hch1
    refine ⟨out, ?_, ?_, hchout⟩
    · rw [List.foldlM_cons, hins]
      exact hout
    · refine hperm.trans ?_
      refine List.Perm.trans (hperm1.append_right rest) ?_
      exact List.perm_middle.symm

theorem mem_set_or {l : List α} {x a : α} {i : Nat} (hx : x ∈ l)
    (hi : i < l.length) : x ∈ l.set i a ∨ x = l[i] := by
  obtain ⟨j, hj, hxj⟩ := List.mem_iff_getElem.mp hx
  by_cases hji : j = i
  · right
    subst hji
    exact hxj.symm
  · left
    rw [List.mem_iff_getElem]
    refine ⟨j, by simpa using hj, ?_⟩
    rw [List.getElem_set_ne (fun hh => hji hh.symm)]
    exact hxj

theorem mem_set_self {l : List α} {a : α} {i : Nat} (hi : i < l.length) :
    a ∈ l.set i a := by
  rw [List.mem_iff_getElem]
  exact ⟨i, by simpa using hi, List.getElem_set_self ..⟩

/-- `heap[0][0]` as an integer (default `0` on an empty heap). -/
def minV : List (Value × Nat) → Int
  | [] => 0
  | p :: _ => toIntD p.1

/-- In a sorted integer heap the head value bounds every entry. -/
theorem minV_le (h : List (Value × Nat))
    (hint : ∀ q ∈ h, ∃ k : Int, q.1 = Value.int k)
    (hs : List.Pairwise pairLt h) :
    ∀ q ∈ h, minV h ≤ toIntD q.1 := by
  cases h with
  | nil => intro q hq; cases hq
  | cons p t =>
    intro q hq
    rcases List.mem_cons.mp hq with rfl | hq'
    · exact le_refl _
    · exact pairLt_le_int (hint p (by simp)) (hint q (by simp [hq']))
        ((List.pairwise_cons.mp hs).1 q hq')

/-- Loop invariant of `TopN`: heap and buffer have equal length bounded by
`n`; the heap is sorted with integer values and distinct slots; every heap
entry names the buffer row holding its value; every buffer index is named by
a heap entry. -/
def HInv (col : String) (n : Nat) (st : List (Value × Nat) × List Row) :
    Prop :=
  st.1.length = st.2.length ∧
  st.1.length ≤ n ∧
  List.Pairwise pairLt st.1 ∧
  (st.1.map (fun p => p.2)).Nodup ∧
  (∀ p ∈ st.1, (∃ k : Int, p.1 = Value.int k) ∧ p.2 < st.2.length ∧
    ∃ r, st.2[p.2]? = some r ∧ rowGet r col = some p.1) ∧
  (∀ j, j < st.2.length → ∃ v, (v, j) ∈ st.1)

theorem colIntB_elim {col : String} {r : Row} (h : colIntB col r = true) :
    ∃ a : Int, rowGet r col = some (Value.int a) := by
  unfold colIntB at h
  cases hg : rowGet r col with
  | none => rw [hg] at h; cases h
  | some v =>
    cases v with
    | int a => exact ⟨a, rfl⟩
    | str s => rw [hg] at h; cases h
    | rat q => rw [hg] at h; cases h
    | seq l => rw [hg] at h; cases h

theorem topNStep_push (col : String) (n : Nat) (heap : List (Value × Nat))
    (topn : List Row) (row : Row) (v : Value)
    (hget : rowGet row col = some v) (hlt : heap.length < n) :
    topNStep col n (heap, topn) row =
      match heapIns (v, heap.length) heap with
      | .error e => .error e
      | .ok h' => .ok (h', topn ++ [row]) := by
  unfold topNStep
  rw [hget]
  dsimp only
  rw [if_pos hlt]

theorem topNStep_full (col : String) (n : Nat) (v0 : Value) (i0 : Nat)
    (hrest : List (Value × Nat)) (topn : List Row) (row : Row) (v : Value)
    (hget : rowGet row col = some v)
    (hfull : ¬ ((v0, i0) :: hrest).length < n) :
    topNStep col n ((v0, i0) :: hrest, topn) row =
      match valueCmp v v0 with
      | none => .error .typeErr
      | some .gt =>
        match heapIns (v, i0) hrest with
        | .error e => .error e
        | .ok h' => .ok (h', topn.set i0 row)
      | some _ => .ok ((v0, i0) :: hrest, topn) := by
  unfold topNStep
  rw [hget]
  dsimp only
  rw [if_neg hfull]

/-- Invariant preservation and observable bounds of the whole `TopN` loop:
it succeeds, the buffer holds `min n (seen)` rows drawn from the input, a
row missing from the final buffer has value at most the final heap minimum,
and once the heap is full its minimum never decreases. -/
theorem topNFold_spec (col : String) (n : Nat) (hn : 1 ≤ n) :
    ∀ (rows : List Row) (st : List (Value × Nat) × List Row),
    HInv col n st →
    (∀ r ∈ rows, colIntB col r = true) →
    (∀ r ∈ st.2, colIntB col r = true) →
    ∃ st', List.foldlM (topNStep col n) st rows = .ok st' ∧
      HInv col n st' ∧
      (∀ r ∈ st'.2, colIntB col r = true) ∧
      st'.2.length = min n (st.2.length + rows.length) ∧
      (∀ r ∈ st'.2, r ∈ st.2 ∨ r ∈ rows) ∧
      (∀ r ∈ rows, r ∈ st'.2 ∨ colIntV col r ≤ minV st'.1) ∧
      (∀ r ∈ st.2, r ∈ st'.2 ∨ colIntV col r ≤ minV st'.1) ∧
      (st.1.length = n → minV st.1 ≤ minV st'.1) := by
  intro rows
  induction rows with
  | nil =>
    intro st hinv hrows hst
    refine ⟨st, rfl, hinv, hst, ?_, fun r hr => Or.inl hr,
      fun r hr => absurd hr (List.not_mem_nil r), fun r hr => Or.inl hr,
      fun _ => le_refl _⟩
    have h1 : st.1.length = st.2.length := hinv.1
    have h2 : st.1.length ≤ n := hinv.2.1
    simp only [List.length_nil]
    omega
  | cons row rest ih =>
    intro st hinv hrows hst
    obtain ⟨heap, topn⟩ := st
    unfold HInv at hinv
    obtain ⟨hlen, hle, hsort, hnd, hcorr, hsurj⟩ := hinv
    dsimp only at hlen hle hsort hnd hcorr hsurj hst
    obtain ⟨a, ha⟩ := colIntB_elim (hrows row (by simp))
    have hva : colIntV col row = a := by unfold colIntV; rw [ha]
    by_cases hfull : heap.length < n
    · -- grow: push (value, len(heap)) and append the row to the buffer
      have hintp : ∀ q ∈ (Value.int a, heap.length) :: heap,
          ∃ k : Int, q.1 = Value.int k := by
        intro q hq
        rcases List.mem_cons.mp hq with rfl | hq'
        · exact ⟨a, rfl⟩
        · exact (hcorr q hq').1
      have hndp : (((Value.int a, heap.length) :: heap).map
          (fun p => p.2)).Nodup := by
        simp only [List.map_cons, List.nodup_cons]
        refine ⟨?_, hnd⟩
        intro hmem
        obtain ⟨p, hp, hps⟩ := List.mem_map.mp hmem
        have hplt := (hcorr p hp).2.1
        omega
      obtain ⟨h', hh', hperm, hsort'⟩ :=
        heapIns_spec heap (Value.int a, heap.length) hintp hndp hsort
      have hstep : topNStep col n (heap, topn) row =
          .ok (h', topn ++ [row]) := by
        rw [topNStep_push col n heap topn row (Value.int a) ha hfull, hh']
      have hlen' : h'.length = heap.length + 1 := by
        rw [hperm.length_eq]
        rfl
      have hinv1 : HInv col n (h', topn ++ [row]) := by
        unfold HInv
        dsimp only
        refine ⟨?_, ?_, hsort', ?_, ?_, ?_⟩
        · rw [hlen', List.length_append, List.length_singleton]
          omega
        · rw [hlen']
          omega
        · exact ((hperm.map (fun p => p.2)).nodup_iff).mpr hndp
        · intro p hp
          rcases List.mem_cons.mp (hperm.mem_iff.mp hp) with rfl | hp'
          · refine ⟨⟨a, rfl⟩, ?_, ⟨row, ?_, ha⟩⟩
            · show heap.length < (topn ++ [row]).length
              rw [List.length_append, List.length_singleton]
              omega
            · show (topn ++ [row])[heap.length]? = some row
              rw [hlen]
              exact List.getElem?_concat_length topn row
          · obtain ⟨hi, hlt', r, hget, hrg⟩ := hcorr p hp'
            refine ⟨hi, ?_, ⟨r, ?_, hrg⟩⟩
            · show p.2 < (topn ++ [row]).length
              rw [List.length_append]
              omega
            · show (topn ++ [row])[p.2]? = some r
              rw [List.getElem?_append_left hlt']
              exact hget
        · intro j hj
          rw [List.length_append, List.length_singleton] at hj
          by_cases hjl : j < topn.length
          · obtain ⟨v, hv⟩ := hsurj j hjl
            exact ⟨v, hperm.mem_iff.mpr (by simp [hv])⟩
          · have hje : j = heap.length := by omega
            refine ⟨Value.int a, hperm.mem_iff.mpr ?_⟩
            rw [hje]
            simp
      have hst1 : ∀ r ∈ topn ++ [row], colIntB col r = true := by
        intro x hx
        rcases List.mem_append.mp hx with hx' | hx'
        · exact hst x hx'
        · rw [List.mem_singleton.mp hx']
          exact hrows row (by simp)
      obtain ⟨st', hfold, hinv', hint', hlen'', hprov, hB, hC, hE⟩ :=
        ih (h', topn ++ [row]) hinv1 (fun x hx => hrows x (by simp [hx])) hst1
      refine ⟨st', ?_, hinv', hint', ?_, ?_, ?_, ?_, ?_⟩
      · rw [List.foldlM_cons, hstep]
        exact hfold
      · dsimp only at hlen'' ⊢
        rw [List.length_append, List.length_singleton] at hlen''
        simp only [List.length_cons]
        omega
      · intro r hr
        rcases hprov r hr with hr' | hr'
        · rcases List.mem_append.mp hr' with h0 | h0
          · exact Or.inl h0
          · exact Or.inr (by simp [List.mem_singleton.mp h0])
        · exact Or.inr (by simp [hr'])
      · intro r hr
        rcases List.mem_cons.mp hr with rfl | hr'
        · exact hC r (by simp)
        · exact hB r hr'
      · intro r hr
        exact hC r (by simp [hr])
      · intro hfn
        dsimp only at hfn
        omega
    · -- heap full (or n = 0): compare with the minimum
      cases heap with
      | nil =>
        exfalso
        simp only [List.length_nil] at hfull
        omega
      | cons p0 hrest =>
        obtain ⟨v0, i0⟩ := p0
        obtain ⟨⟨k0, hk0⟩, hi0lt, r0, hr0get, hr0rg⟩ :=
          hcorr (v0, i0) (by simp)
        have hk0' : v0 = Value.int k0 := hk0
        subst hk0'
        have hi0lt' : i0 < topn.length := hi0lt
        have hr0get' : topn[i0]? = some r0 := hr0get
        have hr0rg' : rowGet r0 col = some (Value.int k0) := hr0rg
        have hfn : ((Value.int k0, i0) :: hrest).length = n := by
          simp only [List.length_cons] at hfull hle ⊢
          omega
        have hminv : minV ((Value.int k0, i0) :: hrest) = k0 := rfl
        have hstep0 := topNStep_full col n (Value.int k0) i0 hrest topn row
          (Value.int a) ha hfull
        rw [valueCmp_int] at hstep0
        cases hc : compare a k0 with
        | gt =>
          -- replace the minimum: evict its slot, overwrite the buffer row
          rw [hc] at hstep0
          have hak : k0 < a := compare_gt_iff_gt.mp hc
          have hintp : ∀ q ∈ (Value.int a, i0) :: hrest,
              ∃ k : Int, q.1 = Value.int k := by
            intro q hq
            rcases List.mem_cons.mp hq with rfl | hq'
            · exact ⟨a, rfl⟩
            · exact (hcorr q (by simp [hq'])).1
          have hndp : (((Value.int a, i0) :: hrest).map
              (fun p => p.2)).Nodup := by
            simp only [List.map_cons]
            simpa only [List.map_cons] using hnd
          obtain ⟨h', hh', hperm, hsort'⟩ := heapIns_spec hrest
            (Value.int a, i0) hintp hndp (List.pairwise_cons.mp hsort).2
          rw [hh'] at hstep0
          have hi0ne : i0 ∉ hrest.map (fun p => p.2) := by
            simp only [List.map_cons, List.nodup_cons] at hnd
            exact hnd.1
          have hlenh' : h'.length = hrest.length + 1 := by
            rw [hperm.length_eq]
            rfl
          have hbound : ∀ q ∈ h', (k0 : Int) ≤ toIntD q.1 := by
            intro q hq
            rcases List.mem_cons.mp (hperm.mem_iff.mp hq) with rfl | hq'
            · show k0 ≤ a
              omega
            · have hle0 := pairLt_le_int ⟨k0, hk0⟩
                (hcorr q (by simp [hq'])).1
                ((List.pairwise_cons.mp hsort).1 q hq')
              rw [hk0] at hle0
              exact hle0
          have hminh' : (k0 : Int) ≤ minV h' := by
            cases hh : h' with
            | nil => rw [hh] at hlenh'; cases hlenh'
            | cons ph pt =>
              have : ph ∈ h' := by rw [hh]; simp
              have := hbound ph this
              unfold minV
              exact this
          have hinv1 : HInv col n (h', topn.set i0 row) := by
            unfold HInv
            dsimp only
            refine ⟨?_, ?_, hsort', ?_, ?_, ?_⟩
            · rw [hlenh', List.length_set]
              simp only [List.length_cons] at hlen
              omega
            · rw [hlenh']
              simp only [List.length_cons] at hle
              omega
            · refine ((hperm.map (fun p => p.2)).nodup_iff).mpr ?_
              simp only [List.map_cons]
              simpa only [List.map_cons] using hnd
            · intro p hp
              rcases List.mem_cons.mp (hperm.mem_iff.mp hp) with rfl | hp'
              · refine ⟨⟨a, rfl⟩, ?_, ⟨row, ?_, ha⟩⟩
                · rw [List.length_set]
                  exact hi0lt
                · exact List.getElem?_set_self hi0lt'
              · obtain ⟨hi, hlt', r, hget, hrg⟩ := hcorr p (by simp [hp'])
                have hpne : i0 ≠ p.2 := by
                  intro hh
                  exact hi0ne (List.mem_map.mpr ⟨p, hp', hh.symm⟩)
                refine ⟨hi, ?_, ⟨r, ?_, hrg⟩⟩
                · rw [List.length_set]
                  exact hlt'
                · rw [List.getElem?_set_ne hpne]
                  exact hget
            · intro j hj
              rw [List.length_set] at hj
              by_cases hji : j = i0
              · subst hji
                exact ⟨Value.int a, hperm.mem_iff.mpr (by simp)⟩
              · obtain ⟨v, hv⟩ := hsurj j hj
                rcases List.mem_cons.mp hv with heq | hv'
                · exact absurd (congrArg Prod.snd heq) (by simpa using hji)
                · exact ⟨v, hperm.mem_iff.mpr (by simp [hv'])⟩
          have hst1 : ∀ r ∈ topn.set i0 row, colIntB col r = true := by
            intro x hx
            rcases List.mem_or_eq_of_mem_set hx with hx' | rfl
            · exact hst x hx'
            · exact hrows x (by simp)
          obtain ⟨st', hfold, hinv', hint', hlen'', hprov, hB, hC, hE⟩ :=
            ih (h', topn.set i0 row) hinv1
              (fun x hx => hrows x (by simp [hx])) hst1
          have hEfull : minV h' ≤ minV st'.1 := by
            refine hE ?_
            dsimp only
            rw [hlenh']
            simp only [List.length_cons] at hfn
            omega
          refine ⟨st', ?_, hinv', hint', ?_, ?_, ?_, ?_, ?_⟩
          · rw [List.foldlM_cons, hstep0]
            exact hfold
          · dsimp only at hlen'' ⊢
            rw [List.length_set] at hlen''
            simp only [List.length_cons] at hfn hlen
            simp only [List.length_cons]
            omega
          · intro r hr
            rcases hprov r hr with hr' | hr'
            · rcases List.mem_or_eq_of_mem_set hr' with h0 | rfl
              · exact Or.inl h0
              · exact Or.inr (by simp)
            · exact Or.inr (by simp [hr'])
          · intro r hr
            rcases List.mem_cons.mp hr with rfl | hr'
            · exact hC r (mem_set_self hi0lt')
            · exact hB r hr'
          · intro r hr
            rcases mem_set_or hr hi0lt' with hr' | hr'
            · exact hC r hr'
            · right
              have hre : r = r0 := by
                rw [List.getElem?_eq_getElem hi0lt'] at hr0get'
                rw [hr', Option.some_inj.mp hr0get']
              have hrval : colIntV col r = k0 := by
                rw [hre]
                unfold colIntV
                rw [hr0rg']
              rw [hrval]
              exact le_trans hminh' hEfull
          · intro _
            rw [hminv]
            exact le_trans hminh' hEfull
        | lt =>
          rw [hc] at hstep0
          have hak : a < k0 := compare_lt_iff_lt.mp hc
          obtain ⟨st', hfold, hinv', hint', hlen'', hprov, hB, hC, hE⟩ :=
            ih ((Value.int k0, i0) :: hrest, topn)
              ⟨hlen, hle, hsort, hnd, hcorr, hsurj⟩
              (fun x hx => hrows x (by simp [hx])) hst
          have hEfull : minV ((Value.int k0, i0) :: hrest) ≤ minV st'.1 :=
            hE hfn
          refine ⟨st', ?_, hinv', hint', ?_, ?_, ?_, ?_, ?_⟩
          · rw [List.foldlM_cons, hstep0]
            exact hfold
          · dsimp only at hlen'' ⊢
            simp only [List.length_cons] at hfn hlen
            simp only [List.length_cons]
            omega
          · intro r hr
            rcases hprov r hr with hr' | hr'
            · exact Or.inl hr'
            · exact Or.inr (by simp [hr'])
          · intro r hr
            rcases List.mem_cons.mp hr with rfl | hr'
            · right
              rw [hva]
              rw [hminv] at hEfull
              omega
            · exact hB r hr'
          · exact hC
          · intro _
            exact hEfull
        | eq =>
          rw [hc] at hstep0
          have hak : a = k0 := compare_eq_iff_eq.mp hc
          obtain ⟨st', hfold, hinv', hint', hlen'', hprov, hB, hC, hE⟩ :=
            ih ((Value.int k0, i0) :: hrest, topn)
              ⟨hlen, hle, hsort, hnd, hcorr, hsurj⟩
              (fun x hx => hrows x (by simp [hx])) hst
          have hEfull : minV ((Value.int k0, i0) :: hrest) ≤ minV st'.1 :=
            hE hfn
          refine ⟨st', ?_, hinv', hint', ?_, ?_, ?_, ?_, ?_⟩
          · rw [List.foldlM_cons, hstep0]
            exact hfold
          · dsimp only at hlen'' ⊢
            simp only [List.length_cons] at hfn hlen
            simp only [List.length_cons]
            omega
          · intro r hr
            rcases hprov r hr with hr' | hr'
            · exact Or.inl hr'
            · exact Or.inr (by simp [hr'])
          · intro r hr
            rcases List.mem_cons.mp hr with rfl | hr'
            · right
              rw [hva]
              rw [hminv] at hEfull
              omega
            · exact hB r hr'
          · exact hC
          · intro _
            exact hEfull

/-- **C2 (amended).** For every group with an integer-valued column and
`n ≥ 1`, `TopN(column, n)` succeeds and returns `min n |group|` rows of the
group sorted weakly descending by the column, and every value not retained
is at most every retained value — so the retained rows do carry the `n`
largest values.  (The spec's tie-break claim is refuted separately: among
equal values the heap evicts the EARLIEST-seen retained row, and `n = 0`
raises `IndexError` on a nonempty group.) -/
theorem c2_topn (col : String) (n : Nat) (key : List Value) (rows : List Row)
    (hn : 1 ≤ n) (hint : ∀ r ∈ rows, colIntB col r = true) :
    ∃ out, topNRed col n key rows = .ok out ∧
      out.length = min n rows.length ∧
      List.Chain' (fun a b => colIntV col b ≤ colIntV col a) out ∧
      (∀ o ∈ out, o ∈ rows) ∧
      (∀ r ∈ rows, r ∉ out → ∀ o ∈ out, colIntV col r ≤ colIntV col o) := by
  have hinv0 : HInv col n ([], []) := by
    unfold HInv
    refine ⟨rfl, by simp, List.Pairwise.nil, by simp, ?_, ?_⟩
    · intro p hp
      cases hp
    · intro j hj
      simp at hj
  obtain ⟨st', hfold, hinv', hint', hlen', hprov, hB, _, _⟩ :=
    topNFold_spec col n hn rows ([], []) hinv0 hint
      (fun r hr => absurd hr (List.not_mem_nil r))
  unfold HInv at hinv'
  obtain ⟨hlen, hle, hsort, hnd, hcorr, hsurj⟩ := hinv'
  obtain ⟨out, hsout, hperm0, hch⟩ := sortDescE_spec col st'.2 [] hint'
    (fun x hx => absurd hx (List.not_mem_nil x)) List.chain'_nil
  have hperm : out.Perm st'.2 := by simpa using hperm0
  have heq : topNRed col n key rows = .ok out := by
    unfold topNRed
    rw [hfold]
    exact hsout
  have hl2 : st'.2.length = min n (0 + rows.length) := hlen'
  refine ⟨out, heq, ?_, hch, ?_, ?_⟩
  · rw [hperm.length_eq]
    omega
  · intro o ho
    rcases hprov o (hperm.mem_iff.mp ho) with h0 | h0
    · cases h0
    · exact h0
  · intro r hr hrout o ho
    have hrn : r ∉ st'.2 := fun hh => hrout (hperm.mem_iff.mpr hh)
    have hrmin : colIntV col r ≤ minV st'.1 := by
      rcases hB r hr with h0 | h0
      · exact absurd h0 hrn
      · exact h0
    have ho' : o ∈ st'.2 := hperm.mem_iff.mp ho
    obtain ⟨j, hj, hoj⟩ := List.mem_iff_getElem.mp ho'
    obtain ⟨w, hw⟩ := hsurj j hj
    obtain ⟨⟨k, hk⟩, hjlt, rr, hrrget, hrrrow⟩ := hcorr (w, j) hw
    have hk' : w = Value.int k := hk
    have hjlt' : j < st'.2.length := hjlt
    have hrrget' : st'.2[j]? = some rr := hrrget
    have hrrrow' : rowGet rr col = some w := hrrrow
    have hro : rr = o := by
      rw [List.getElem?_eq_getElem hjlt'] at hrrget'
      rw [← hoj, Option.some_inj.mp hrrget']
    have hov : colIntV col o = k := by
      rw [← hro]
      unfold colIntV
      rw [hrrrow', hk']
    have hmin : minV st'.1 ≤ k := by
      have := minV_le st'.1 (fun q hq => (hcorr q hq).1) hsort (w, j) hw
      rw [show (w, j).1 = w from rfl, hk'] at this
      exact this
    rw [hov]
    exact le_trans hrmin hmin

/-- Witness for C2 on the spec's own example group
`[{v:5,id:a},{v:5,id:b},{v:3,id:c}]` with `TopN(v, 2)`. -/
theorem c2_topn_witness :
    (1 ≤ 2 ∧ ∀ r ∈ ([[("v", Value.int 5), ("id", Value.str "a")],
        [("v", Value.int 5), ("id", Value.str "b")],
        [("v", Value.int 3), ("id", Value.str "c")]] : List Row),
      colIntB "v" r = true) ∧
    ∃ out, topNRed "v" 2 []
        [[("v", Value.int 5), ("id", Value.str "a")],
          [("v", Value.int 5), ("id", Value.str "b")],
          [("v", Value.int 3), ("id", Value.str "c")]] = .ok out ∧
      out.length = min 2
        ([[("v", Value.int 5), ("id", Value.str "a")],
          [("v", Value.int 5), ("id", Value.str "b")],
          [("v", Value.int 3), ("id", Value.str "c")]] : List Row).length ∧
      List.Chain' (fun a b => colIntV "v" b ≤ colIntV "v" a) out ∧
      (∀ o ∈ out, o ∈ ([[("v", Value.int 5), ("id", Value.str "a")],
        [("v", Value.int 5), ("id", Value.str "b")],
        [("v", Value.int 3), ("id", Value.str "c")]] : List Row)) ∧
      (∀ r ∈ ([[("v", Value.int 5), ("id", Value.str "a")],
        [("v", Value.int 5), ("id", Value.str "b")],
        [("v", Value.int 3), ("id", Value.str "c")]] : List Row), r ∉ out →
        ∀ o ∈ out, colIntV "v" r ≤ colIntV "v" o) :=
  ⟨⟨by decide, by decide⟩,
    c2_topn "v" 2 []
      [[("v", Value.int 5), ("id", Value.str "a")],
        [("v", Value.int 5), ("id", Value.str "b")],
        [("v", Value.int 3), ("id", Value.str "c")]]
      (by decide) (by decide)⟩

/-- **C2 (counterexample).** On the group with column values `5, 3, 3, 6`
and `n = 3`, the heap's key `(value, slot)` evicts the EARLIEST of the two
equal-valued rows (id 2) and retains the later one (id 3), contradicting the
claimed earliest-occurrence tie-break; and `TopN(column, 0)` raises
`IndexError` on a nonempty group instead of returning no rows. -/
theorem c2_counterexample :
    topNRed "v" 3 []
      [[("v", Value.int 5), ("id", Value.int 1)],
        [("v", Value.int 3), ("id", Value.int 2)],
        [("v", Value.int 3), ("id", Value.int 3)],
        [("v", Value.int 6), ("id", Value.int 4)]] =
      .ok [[("v", Value.int 6), ("id", Value.int 4)],
        [("v", Value.int 5), ("id", Value.int 1)],
        [("v", Value.int 3), ("id", Value.int 3)]] ∧
    ([("v", Value.int 3), ("id", Value.int 2)] : Row) ∉
      [[("v", Value.int 6), ("id", Value.int 4)],
        [("v", Value.int 5), ("id", Value.int 1)],
        [("v", Value.int 3), ("id", Value.int 3)]] ∧
    topNRed "v" 0 [] [[("v", Value.int 5)]] = .error .idxErr := by
  refine ⟨?_, by decide, ?_⟩
  · decide
  · decide

/-! ### C8: the graph pipeline and source resolution (`graph.py`) -/

/-- A pipeline as built by `Graph`: a named iterator source
(`graph_from_iter` / `ReadIterFactory`), extended by map/reduce stages
(`AppendOperation`) and joins of two pipelines (`JoinGraphs`).  `sort`
delegates to `ExternalSort`, which is modelled separately and passes its
kwargs through like any other stage. -/
inductive GraphE where
  | fromIter (name : String)
  | map (m : Row → List Row) (g : GraphE)
  | reduce (red : Reducer) (keys : List String) (g : GraphE)
  | join (j : JoinerFn) (keys : List String) (g1 g2 : GraphE)

/-- The source names a pipeline references. -/
def refs : GraphE → List String
  | .fromIter n => [n]
  | .map _ g => refs g
  | .reduce _ _ g => refs g
  | .join _ _ g1 g2 => refs g1 ++ refs g2

/-- `run(**kwargs)`: `ReadIterFactory` resolves `kwargs[name]` — an absent
name is the `MissingSource` failure, raised where that source is read — and
every stage pulls its upstream, a join pulling its left dataflow first. -/
def runG (S : List (String × List Row)) : GraphE → Except Err (List Row)
  | .fromIter name =>
    match S.lookup name with
    | none => .error (.missingSource name)
    | some rows => .ok rows
  | .map m g =>
    match runG S g with
    | .error e => .error e
    | .ok rows => .ok (mapOp m rows)
  | .reduce red keys g =>
    match runG S g with
    | .error e => .error e
    | .ok rows => reduceOp red keys rows
  | .join j keys g1 g2 =>
    match runG S g1, runG S g2 with
    | .ok ra, .ok rb => joinOp j keys ra rb
    | .error e, _ => .error e
    | _, .error e => .error e

/-- No stage's reducer or joiner fabricates the `MissingSource` failure
itself (true of every operation in the source: only the `kwargs[name]`
lookup raises it). -/
def NoMS : GraphE → Prop
  | .fromIter _ => True
  | .map _ g => NoMS g
  | .reduce red _ g =>
    (∀ ks rs n, red ks rs ≠ .error (.missingSource n)) ∧ NoMS g
  | .join j _ g1 g2 =>
    (∀ ks ga gb n, j ks ga gb ≠ .error (.missingSource n)) ∧
      NoMS g1 ∧ NoMS g2

theorem exceptMapM_error {α β ε : Type} (f : α → Except ε β) :
    ∀ (l : List α) (e : ε), l.mapM f = .error e → ∃ a ∈ l, f a = .error e := by
  intro l
  induction l with
  | nil =>
    intro e h
    exact Except.noConfusion h
  | cons a t ih =>
    intro e h
    rw [List.mapM_cons] at h
    cases hf : f a with
    | error e' =>
      rw [hf] at h
      have h' : (Except.error e' : Except ε (List β)) = .error e := h
      exact ⟨a, by simp, by rw [hf, Except.error.inj h']⟩
    | ok b =>
      rw [hf] at h
      cases hm : t.mapM f with
      | error e' =>
        rw [hm] at h
        have h' : (Except.error e' : Except ε (List β)) = .error e := h
        obtain ⟨x, hx, hfx⟩ := ih e' hm
        exact ⟨x, by simp [hx], by rw [hfx, Except.error.inj h']⟩
      | ok bs =>
        rw [hm] at h
        exact Except.noConfusion h

/-- `Reduce` can only fail with the reducer's own failure or a `KeyError`. -/
theorem reduceOp_ms (red : Reducer) (keys : List String) (rows : List Row)
    (hred : ∀ ks rs n, red ks rs ≠ .error (.missingSource n)) (n : String) :
    reduceOp red keys rows ≠ .error (.missingSource n) := by
  intro h
  unfold reduceOp at h
  by_cases hk : keys.isEmpty
  · rw [if_pos hk] at h
    exact hred [] rows n h
  · rw [if_neg hk] at h
    by_cases hall : ∀ r ∈ rows, (keyTuple keys r).isSome
    · rw [if_pos hall] at h
      cases hm : (groupRuns (keyTuple keys) rows).mapM
          (fun g => red (keys.map Value.str) g.2) with
      | error e' =>
        rw [hm] at h
        have h' : (Except.error e' : Except Err (List Row)) =
            .error (.missingSource n) := h
        obtain ⟨g, hg, hgerr⟩ := exceptMapM_error _ _ e' hm
        rw [Except.error.inj h'] at hgerr
        exact hred (keys.map Value.str) g.2 n hgerr
      | ok ls =>
        rw [hm] at h
        exact Except.noConfusion h
    · rw [if_neg hall] at h
      exact Err.noConfusion (Except.error.inj h)

/-- Any failure of the merge loop originates in the joiner or is the
`TypeError` of an incomparable key pair. -/
theorem joinLoop_error (j : JoinerFn) (keys : List String) :
    ∀ (m : Nat) (gAs gBs : List (List Value × List Row)) (e : Err),
    gAs.length + gBs.length ≤ m →
    joinLoop j keys gAs gBs = .error e →
    (∃ ga gb, j keys ga gb = .error e) ∨ e = .typeErr := by
  intro m
  induction m with
  | zero =>
    intro gAs gBs e hlen h
    have hA : gAs = [] := List.length_eq_zero.mp (by omega)
    have hB : gBs = [] := List.length_eq_zero.mp (by omega)
    subst hA
    subst hB
    simp only [joinLoop] at h
    exact Except.noConfusion h
  | succ m ihm =>
    intro gAs gBs e hlen h
    cases gAs with
    | nil =>
      cases gBs with
      | nil =>
        simp only [joinLoop] at h
        exact Except.noConfusion h
      | cons gbp gbs =>
        obtain ⟨kb, gb⟩ := gbp
        simp only [joinLoop] at h
        cases hj0 : j keys [] gb with
        | error e' =>
          rw [hj0] at h
          have h' : (Except.error e' : Except Err (List Row)) = .error e := by
            cases hrec : joinLoop j keys [] gbs with
            | error e2 => rw [hrec] at h; exact h
            | ok t => rw [hrec] at h; exact h
          exact Or.inl ⟨[], gb, by rw [hj0, Except.error.inj h']⟩
        | ok hr =>
          rw [hj0] at h
          cases hrec : joinLoop j keys [] gbs with
          | error e' =>
            rw [hrec] at h
            have h' : (Except.error e' : Except Err (List Row)) = .error e := h
            rw [← Except.error.inj h']
            exact ihm [] gbs e' (by simp at hlen ⊢; omega) hrec
          | ok t =>
            rw [hrec] at h
            exact Except.noConfusion h
    | cons gap gas =>
      obtain ⟨ka, ga⟩ := gap
      cases gBs with
      | nil =>
        simp only [joinLoop] at h
        cases hj0 : j keys ga [] with
        | error e' =>
          rw [hj0] at h
          have h' : (Except.error e' : Except Err (List Row)) = .error e := by
            cases hrec : joinLoop j keys gas [] with
            | error e2 => rw [hrec] at h; exact h
            | ok t => rw [hrec] at h; exact h
          exact Or.inl ⟨ga, [], by rw [hj0, Except.error.inj h']⟩
        | ok hr =>
          rw [hj0] at h
          cases hrec : joinLoop j keys gas [] with
          | error e' =>
            rw [hrec] at h
            have h' : (Except.error e' : Except Err (List Row)) = .error e := h
            rw [← Except.error.inj h']
            exact ihm gas [] e' (by simp at hlen ⊢; omega) hrec
          | ok t =>
            rw [hrec] at h
            exact Except.noConfusion h
      | cons gbp gbs =>
        obtain ⟨kb, gb⟩ := gbp
        simp only [joinLoop] at h
        cases hcmp : tupleCmp ka kb with
        | none =>
          rw [hcmp] at h
          have h' : (Except.error Err.typeErr : Except Err (List Row)) =
              .error e := h
          exact Or.inr (Except.error.inj h').symm
        | some o =>
          rw [hcmp] at h
          have hstep : ∀ (ga' : List Row) (gb' : List Row)
              (gas' gbs' : List (List Value × List Row)),
              gas'.length + gbs'.length ≤ m →
              (match j keys ga' gb', joinLoop j keys gas' gbs' with
                | .ok h, .ok t => Except.ok (h ++ t)
                | .error e, _ => .error e
                | _, .error e => .error e) = .error e →
              (∃ ga gb, j keys ga gb = .error e) ∨ e = .typeErr := by
            intro ga' gb' gas' gbs' hlen' hh
            cases hj0 : j keys ga' gb' with
            | error e' =>
              rw [hj0] at hh
              have h' : (Except.error e' : Except Err (List Row)) =
                  .error e := by
                cases hrec : joinLoop j keys gas' gbs' with
                | error e2 => rw [hrec] at hh; exact hh
                | ok t => rw [hrec] at hh; exact hh
              exact Or.inl ⟨ga', gb', by rw [hj0, Except.error.inj h']⟩
            | ok hr =>
              rw [hj0] at hh
              cases hrec : joinLoop j keys gas' gbs' with
              | error e' =>
                rw [hrec] at hh
                have h' : (Except.error e' : Except Err (List Row)) =
                    .error e := hh
                rw [← Except.error.inj h']
                exact ihm gas' gbs' e' hlen' hrec
              | ok t =>
                rw [hrec] at hh
                exact Except.noConfusion hh
          cases o with
          | lt =>
            exact hstep ga [] gas ((kb, gb) :: gbs)
              (by simp at hlen ⊢; omega) h
          | eq =>
            exact hstep ga gb gas gbs (by simp at hlen ⊢; omega) h
          | gt =>
            exact hstep [] gb ((ka, ga) :: gas) gbs
              (by simp at hlen ⊢; omega) h

/-- `Join` can only fail with the joiner's own failure, a `TypeError`, or a
`KeyError`; never `MissingSource`. -/
theorem joinOp_ms (j : JoinerFn) (keys : List String) (rowsA rowsB : List Row)
    (hj : ∀ ks ga gb n, j ks ga gb ≠ .error (.missingSource n)) (n : String) :
    joinOp j keys rowsA rowsB ≠ .error (.missingSource n) := by
  intro h
  unfold joinOp at h
  by_cases hc : (∀ r ∈ rowsA, (keyTuple keys r).isSome) ∧
      (∀ r ∈ rowsB, (keyTuple keys r).isSome)
  · rw [if_pos hc] at h
    rcases joinLoop_error j keys
        ((groupRuns (optKey keys) rowsA).length +
          (groupRuns (optKey keys) rowsB).length)
        _ _ _ (le_refl _) h with ⟨ga, gb, hjj⟩ | he
    · exact hj keys ga gb n hjj
    · exact Err.noConfusion he
  · rw [if_neg hc] at h
    exact Err.noConfusion (Except.error.inj h)

/-- Soundness: a `MissingSource n` failure of a run names a referenced
source absent from the supplied mapping. -/
theorem runG_ms_sound (S : List (String × List Row)) :
    ∀ (g : GraphE), NoMS g → ∀ n, runG S g = .error (.missingSource n) →
      n ∈ refs g ∧ S.lookup n = none := by
  intro g
  induction g with
  | fromIter name =>
    intro _ n h
    unfold runG at h
    cases hl : S.lookup name with
    | none =>
      rw [hl] at h
      have h' : (Except.error (Err.missingSource name) :
          Except Err (List Row)) = .error (.missingSource n) := h
      have hn : name = n := by
        have := Except.error.inj h'
        cases this
        rfl
      subst hn
      exact ⟨by simp [refs], hl⟩
    | some rows =>
      rw [hl] at h
      exact Except.noConfusion h
  | map m g ih =>
    intro hg n h
    unfold runG at h
    cases hr : runG S g with
    | error e =>
      rw [hr] at h
      have h' : (Except.error e : Except Err (List Row)) =
          .error (.missingSource n) := h
      rw [Except.error.inj h'] at hr
      exact ih hg n hr
    | ok rows =>
      rw [hr] at h
      exact Except.noConfusion h
  | reduce red keys g ih =>
    intro hg n h
    unfold runG at h
    cases hr : runG S g with
    | error e =>
      rw [hr] at h
      have h' : (Except.error e : Except Err (List Row)) =
          .error (.missingSource n) := h
      rw [Except.error.inj h'] at hr
      exact ih hg.2 n hr
    | ok rows =>
      rw [hr] at h
      exact absurd h (reduceOp_ms red keys rows hg.1 n)
  | join j keys g1 g2 ih1 ih2 =>
    intro hg n h
    unfold runG at h
    cases hr1 : runG S g1 with
    | error e =>
      rw [hr1] at h
      have h' : (Except.error e : Except Err (List Row)) =
          .error (.missingSource n) := by
        cases hr2 : runG S g2 with
        | error e2 => rw [hr2] at h; exact h
        | ok rb => rw [hr2] at h; exact h
      rw [Except.error.inj h'] at hr1
      obtain ⟨hm, hl⟩ := ih1 hg.2.1 n hr1
      exact ⟨List.mem_append.mpr (Or.inl hm), hl⟩
    | ok ra =>
      rw [hr1] at h
      cases hr2 : runG S g2 with
      | error e =>
        rw [hr2] at h
        have h' : (Except.error e : Except Err (List Row)) =
            .error (.missingSource n) := h
        rw [Except.error.inj h'] at hr2
        obtain ⟨hm, hl⟩ := ih2 hg.2.2 n hr2
        exact ⟨List.mem_append.mpr (Or.inr hm), hl⟩
      | ok rb =>
        rw [hr2] at h
        exact absurd h (joinOp_ms j keys ra rb hg.1 n)

/-- Completeness (weak form): a run referencing an absent source fails. -/
theorem runG_absent_fails (S : List (String × List Row)) :
    ∀ (g : GraphE), (∃ n ∈ refs g, S.lookup n = none) →
      ∃ e, runG S g = .error e := by
  intro g
  induction g with
  | fromIter name =>
    rintro ⟨n, hn, hl⟩
    have hne : n = name := by simpa [refs] using hn
    subst hne
    refine ⟨.missingSource n, ?_⟩
    unfold runG
    rw [hl]
  | map m g ih =>
    rintro ⟨n, hn, hl⟩
    obtain ⟨e, he⟩ := ih ⟨n, hn, hl⟩
    exact ⟨e, by unfold runG; rw [he]⟩
  | reduce red keys g ih =>
    rintro ⟨n, hn, hl⟩
    obtain ⟨e, he⟩ := ih ⟨n, hn, hl⟩
    exact ⟨e, by unfold runG; rw [he]⟩
  | join j keys g1 g2 ih1 ih2 =>
    rintro ⟨n, hn, hl⟩
    rcases List.mem_append.mp hn with h1 | h1
    · obtain ⟨e, he⟩ := ih1 ⟨n, h1, hl⟩
      cases hr1 : runG S g1 with
      | error e1 =>
        refine ⟨e1, ?_⟩
        unfold runG
        rw [hr1]
        cases hr2 : runG S g2 with
        | error e2 => rfl
        | ok rb => rfl
      | ok ra =>
        rw [hr1] at he
        exact Except.noConfusion he
    · cases hr1 : runG S g1 with
      | error e1 =>
        refine ⟨e1, ?_⟩
        unfold runG
        rw [hr1]
        cases hr2 : runG S g2 with
        | error e2 => rfl
        | ok rb => rfl
      | ok ra =>
        obtain ⟨e, he⟩ := ih2 ⟨n, h1, hl⟩
        exact ⟨e, by unfold runG; rw [hr1, he]⟩

/-- **C8 (amended).** A run's `MissingSource n` failure names a referenced
source absent from the supplied mapping, and at the reading operation itself
the failure is `MissingSource` exactly when the name is absent (the
synchronous surfacing point); an absent referenced source guarantees the run
fails, but the surfaced failure can be an error raised earlier in the pull
chain, so the claimed if-and-only-if does not hold globally. -/
theorem c8_missing_source (S : List (String × List Row)) (g : GraphE)
    (hg : NoMS g) :
    (∀ n, runG S g = .error (.missingSource n) →
      n ∈ refs g ∧ S.lookup n = none) ∧
    ((∃ n ∈ refs g, S.lookup n = none) → ∃ e, runG S g = .error e) ∧
    (∀ name, runG S (.fromIter name) = .error (.missingSource name) ↔
      S.lookup name = none) :=
  ⟨fun n h => runG_ms_sound S g hg n h,
   fun h => runG_absent_fails S g h,
   fun name =>
    ⟨fun h => (runG_ms_sound S (.fromIter name) True.intro name h).2,
     fun h => by unfold runG; rw [h]⟩⟩

/-- Witness for C8 on a concrete two-stage pipeline. -/
theorem c8_missing_source_witness :
    NoMS (GraphE.map dummyMapper (.fromIter "inp")) ∧
    ((∀ n, runG [("inp", [[("a", Value.int 1)]])]
        (GraphE.map dummyMapper (.fromIter "inp")) =
          .error (.missingSource n) →
      n ∈ refs (GraphE.map dummyMapper (.fromIter "inp")) ∧
        ([("inp", [[("a", Value.int 1)]])] :
          List (String × List Row)).lookup n = none) ∧
    ((∃ n ∈ refs (GraphE.map dummyMapper (.fromIter "inp")),
        ([("inp", [[("a", Value.int 1)]])] :
          List (String × List Row)).lookup n = none) →
      ∃ e, runG [("inp", [[("a", Value.int 1)]])]
        (GraphE.map dummyMapper (.fromIter "inp")) = .error e) ∧
    (∀ name, runG [("inp", [[("a", Value.int 1)]])]
        (GraphE.fromIter name) = .error (.missingSource name) ↔
      ([("inp", [[("a", Value.int 1)]])] :
        List (String × List Row)).lookup name = none)) :=
  ⟨True.intro,
    c8_missing_source [("inp", [[("a", Value.int 1)]])]
      (GraphE.map dummyMapper (.fromIter "inp")) True.intro⟩

/-- **C8 (counterexample to the claimed iff).** A join whose left branch is
a reduce that raises `KeyError` on its data masks the right branch's absent
source: the pipeline references the absent name `src2`, yet the run fails
with `KeyError`, not `MissingSource`. -/
theorem c8_counterexample :
    refs (GraphE.join (innerJoiner "_1" "_2") ["k"]
      (GraphE.reduce (countRed "cnt") ["a"] (.fromIter "src1"))
      (.fromIter "src2")) = ["src1", "src2"] ∧
    ([("src1", [[("b", Value.int 1)]])] :
      List (String × List Row)).lookup "src2" = none ∧
    runG [("src1", [[("b", Value.int 1)]])]
      (GraphE.join (innerJoiner "_1" "_2") ["k"]
        (GraphE.reduce (countRed "cnt") ["a"] (.fromIter "src1"))
        (.fromIter "src2")) = .error .keyErr ∧
    ∀ n, runG [("src1", [[("b", Value.int 1)]])]
      (GraphE.join (innerJoiner "_1" "_2") ["k"]
        (GraphE.reduce (countRed "cnt") ["a"] (.fromIter "src1"))
        (.fromIter "src2")) ≠ .error (.missingSource n) := by
  refine ⟨rfl, rfl, by decide, ?_⟩
  intro n h
  rw [show runG [("src1", [[("b", Value.int 1)]])]
      (GraphE.join (innerJoiner "_1" "_2") ["k"]
        (GraphE.reduce (countRed "cnt") ["a"] (.fromIter "src1"))
        (.fromIter "src2")) = .error .keyErr from by decide] at h
  exact Err.noConfusion (Except.error.inj h)

/-! ### C5: External Sort

`graph.py` imports `ExternalSort` from `.external_sort`, a module of this
repository that is not present under `src/`; the operation below is
therefore modelled from the specification (§4.5) rather than translated
from source code. -/

/-- Key comparison for the sort: `a` may precede `b` (their key tuples are
not strictly descending at this pair); a missing key column is a `KeyError`,
an incomparable pair the non-orderable-key error. -/
def keyLeE (keys : List String) (a b : Row) : Except Err Bool :=
  match keyTuple keys a, keyTuple keys b with
  | some ka, some kb =>
    match tupleCmp ka kb with
    | some .gt => .ok false
    | some _ => .ok true
    | none => .error .typeErr
  | none, _ => .error .keyErr
  | _, none => .error .keyErr

/-- Stable ascending insertion into a sorted buffer: the new row goes after
every row that may precede it. -/
def insAscE (keys : List String) (row : Row) :
    List Row → Except Err (List Row)
  | [] => .ok [row]
  | r :: t =>
    match keyLeE keys r row with
    | .error e => .error e
    | .ok true =>
      match insAscE keys row t with
      | .error e => .error e
      | .ok t' => .ok (r :: t')
    | .ok false => .ok (row :: r :: t)

theorem insAscE_cons (keys : List String) (row r : Row) (t : List Row) :
    insAscE keys row (r :: t) =
      match keyLeE keys r row with
      | .error e => .error e
      | .ok true =>
        match insAscE keys row t with
        | .error e => .error e
        | .ok t' => .ok (r :: t')
      | .ok false => .ok (row :: r :: t) := rfl

/-- Modelled from the spec: sort one run in memory by the key tuple.
Python's `sorted` is stable and the stable ascending permutation is unique,
so stable insertion realises it. -/
def sortRunE (keys : List String) (run : List Row) : Except Err (List Row) :=
  run.foldlM (fun acc r => insAscE keys r acc) []

/-- Modelled from the spec: partition the input into fixed-size runs of
`m + 1` rows each (a configured run holds at least one row). -/
def chunks (m : Nat) : List Row → List (List Row)
  | [] => []
  | x :: xs => (x :: xs.take m) :: chunks m (xs.drop m)
termination_by l => l.length
decreasing_by
  simp only [List.length_cons, List.length_drop]
  omega

theorem chunks_nil (m : Nat) : chunks m [] = [] := by
  simp [chunks]

theorem chunks_cons (m : Nat) (x : Row) (xs : List Row) :
    chunks m (x :: xs) = (x :: xs.take m) :: chunks m (xs.drop m) := by
  simp [chunks]

theorem chunks_flatten (m : Nat) : ∀ (l : List Row), (chunks m l).flatten = l
  | [] => by rw [chunks_nil]; rfl
  | x :: xs => by
    rw [chunks_cons, List.flatten_cons, chunks_flatten m (xs.drop m)]
    simp [List.take_append_drop]
termination_by l => l.length
decreasing_by
  simp only [List.length_cons, List.length_drop]
  omega

theorem mem_of_mem_chunks (m : Nat) (l : List Row) (c : List Row)
    (hc : c ∈ chunks m l) (r : Row) (hr : r ∈ c) : r ∈ l := by
  rw [← chunks_flatten m l]
  exact List.mem_flatten.mpr ⟨c, hc, hr⟩

/-- Modelled from the spec: the k-way merge's priority queue is keyed by
(current head key tuple, run index), so it pops the least head key and, on
equal keys, the smallest run index; hence the first run's head is emitted
exactly when it precedes-or-equals every remaining head — realised as the
stable binary merge of the first run with the merge of the remaining runs,
the left side winning ties. -/
def mergeAscE (keys : List String) :
    List Row → List Row → Except Err (List Row)
  | [], lb => .ok lb
  | a :: la, [] => .ok (a :: la)
  | a :: la, b :: lb =>
    match keyLeE keys a b with
    | .error e => .error e
    | .ok true =>
      match mergeAscE keys la (b :: lb) with
      | .error e => .error e
      | .ok t => .ok (a :: t)
    | .ok false =>
      match mergeAscE keys (a :: la) lb with
      | .error e => .error e
      | .ok t => .ok (b :: t)
termination_by la lb => la.length + lb.length

def mergeRunsE (keys : List String) : List (List Row) → Except Err (List Row)
  | [] => .ok []
  | run :: rest =>
    match mergeRunsE keys rest with
    | .error e => .error e
    | .ok merged => mergeAscE keys run merged

/-- Modelled from the spec: bounded-memory external merge sort — partition
into runs of `m + 1` rows, sort each run in memory, k-way merge the sorted
runs. -/
def externalSort (keys : List String) (m : Nat) (rows : List Row) :
    Except Err (List Row) :=
  match (chunks m rows).mapM (sortRunE keys) with
  | .error e => .error e
  | .ok sortedRuns => mergeRunsE keys sortedRuns

/-- A row carries all key columns with integer values. -/
def KeyedI (keys : List String) (r : Row) : Prop :=
  (keyTuple keys r).isSome = true ∧ IntL (optKey keys r)

/-- Weakly ascending by key tuple. -/
def AscP (keys : List String) (l : List Row) : Prop :=
  List.Pairwise
    (fun a b => tupleCmp (optKey keys a) (optKey keys b) ≠ some .gt) l

/-- The subsequence of rows with a given key tuple. -/
def keyFilt (keys : List String) (k : List Value) (l : List Row) : List Row :=
  l.filter (fun r => decide (optKey keys r = k))

theorem keyFilt_nil (keys : List String) (k : List Value) :
    keyFilt keys k [] = [] := rfl

theorem keyFilt_cons (keys : List String) (k : List Value) (r : Row)
    (l : List Row) :
    keyFilt keys k (r :: l) =
      if optKey keys r = k then r :: keyFilt keys k l
      else keyFilt keys k l := by
  unfold keyFilt
  rw [List.filter_cons]
  by_cases h : optKey keys r = k
  · simp [h]
  · simp [h]

theorem keyFilt_append (keys : List String) (k : List Value)
    (l1 l2 : List Row) :
    keyFilt keys k (l1 ++ l2) = keyFilt keys k l1 ++ keyFilt keys k l2 := by
  unfold keyFilt
  rw [List.filter_append]

theorem keyTuple_optKey (keys : List String) (r : Row)
    (h : (keyTuple keys r).isSome = true) :
    keyTuple keys r = some (optKey keys r) := by
  unfold optKey
  cases hk : keyTuple keys r with
  | none => rw [hk] at h; cases h
  | some k => rfl

theorem keyLeE_true (keys : List String) (a b : Row)
    (ha : KeyedI keys a) (hb : KeyedI keys b)
    (h : tupleCmp (optKey keys a) (optKey keys b) ≠ some .gt) :
    keyLeE keys a b = .ok true := by
  unfold keyLeE
  rw [keyTuple_optKey keys a ha.1, keyTuple_optKey keys b hb.1]
  show (match tupleCmp (optKey keys a) (optKey keys b) with
    | some .gt => Except.ok false
    | some _ => Except.ok true
    | none => Except.error Err.typeErr) = Except.ok true
  rcases tupleCmp_total (optKey keys a) (optKey keys b) ha.2 hb.2 with
    hc | hc | hc
  · rw [hc]
  · rw [hc]
  · exact absurd hc h

theorem keyLeE_false (keys : List String) (a b : Row)
    (ha : KeyedI keys a) (hb : KeyedI keys b)
    (h : tupleCmp (optKey keys a) (optKey keys b) = some .gt) :
    keyLeE keys a b = .ok false := by
  unfold keyLeE
  rw [keyTuple_optKey keys a ha.1, keyTuple_optKey keys b hb.1]
  show (match tupleCmp (optKey keys a) (optKey keys b) with
    | some .gt => Except.ok false
    | some _ => Except.ok true
    | none => Except.error Err.typeErr) = Except.ok false
  rw [h]

/-- Weak-order transitivity of `tupleCmp` on integer tuples. -/
theorem keyle_trans {ka kb kc : List Value}
    (ha : IntL ka) (hb : IntL kb) (hc : IntL kc)
    (h1 : tupleCmp ka kb ≠ some .gt) (h2 : tupleCmp kb kc ≠ some .gt) :
    tupleCmp ka kc ≠ some .gt := by
  rcases tupleCmp_total ka kb ha hb with hab | hab | hab
  · rcases tupleCmp_total kb kc hb hc with hbc | hbc | hbc
    · have hlt := tupleCmp_lt_trans ka kb kc ha hb hc hab hbc
      rw [hlt]
      simp
    · rw [← (tupleCmp_eq_iff kb kc hb hc).mp hbc, hab]
      simp
    · exact absurd hbc h2
  · rw [(tupleCmp_eq_iff ka kb ha hb).mp hab]
    exact h2
  · exact absurd hab h1

theorem keyFilt_eq_nil (keys : List String) (k : List Value) (l : List Row)
    (h : ∀ r ∈ l, optKey keys r ≠ k) : keyFilt keys k l = [] := by
  induction l with
  | nil => rfl
  | cons r t ih =>
    rw [keyFilt_cons, if_neg (h r (by simp))]
    exact ih (fun x hx => h x (by simp [hx]))

/-- Stable ascending insertion: succeeds on integer-keyed rows, permutes
the new row in, keeps the buffer ascending, and appends the new row at the
END of its key's subsequence (stability). -/
theorem insAscE_spec (keys : List String) :
    ∀ (acc : List Row) (row : Row),
    KeyedI keys row → (∀ r ∈ acc, KeyedI keys r) → AscP keys acc →
    ∃ out, insAscE keys row acc = .ok out ∧ out.Perm (row :: acc) ∧
      AscP keys out ∧
      ∀ k, keyFilt keys k out =
        if optKey keys row = k then keyFilt keys k acc ++ [row]
        else keyFilt keys k acc := by
  intro acc
  induction acc with
  | nil =>
    intro row _ _ _
    refine ⟨[row], rfl, List.Perm.refl _, List.pairwise_singleton _ _, ?_⟩
    intro k
    rw [keyFilt_cons, keyFilt_nil]
    by_cases h : optKey keys row = k
    · rw [if_pos h, if_pos h]
      rfl
    · rw [if_neg h, if_neg h]
  | cons r t ih =>
    intro row hrow hacc hasc
    have hr := hacc r (by simp)
    by_cases hgt : tupleCmp (optKey keys r) (optKey keys row) = some .gt
    · refine ⟨row :: r :: t, ?_, List.Perm.refl _, ?_, ?_⟩
      · rw [insAscE_cons, keyLeE_false keys r row hr hrow hgt]
      · refine List.pairwise_cons.mpr ⟨?_, hasc⟩
        intro x hx
        have hlt : tupleCmp (optKey keys row) (optKey keys r) = some .lt :=
          (tupleCmp_gt_iff _ _ hr.2 hrow.2).mp hgt
        rcases List.mem_cons.mp hx with rfl | hx'
        · rw [hlt]
          simp
        · exact keyle_trans hrow.2 hr.2 (hacc x (by simp [hx'])).2
            (by rw [hlt]; simp) ((List.pairwise_cons.mp hasc).1 x hx')
      · intro k
        rw [keyFilt_cons]
        by_cases hk : optKey keys row = k
        · rw [if_pos hk, if_pos hk]
          have hempty : keyFilt keys k (r :: t) = [] := by
            refine keyFilt_eq_nil keys k _ ?_
            intro x hx hxk
            rcases List.mem_cons.mp hx with rfl | hx'
            · have heq : optKey keys x = optKey keys row := by
                rw [hxk, hk]
              rw [heq, tupleCmp_refl] at hgt
              simp at hgt
            · have hrel := (List.pairwise_cons.mp hasc).1 x hx'
              rw [hxk, ← hk] at hrel
              exact hrel hgt
          rw [hempty]
          rfl
        · rw [if_neg hk, if_neg hk]
    · obtain ⟨t', ht', hperm, hasc', hfilt⟩ := ih row hrow
        (fun x hx => hacc x (by simp [hx])) (List.pairwise_cons.mp hasc).2
      refine ⟨r :: t', ?_, ?_, ?_, ?_⟩
      · rw [insAscE_cons, keyLeE_true keys r row hr hrow hgt, ht']
      · exact List.Perm.trans (hperm.cons r) (List.Perm.swap row r t)
      · refine List.pairwise_cons.mpr ⟨?_, hasc'⟩
        intro x hx
        rcases List.mem_cons.mp (hperm.mem_iff.mp hx) with rfl | hx'
        · exact hgt
        · exact (List.pairwise_cons.mp hasc).1 x hx'
      · intro k
        by_cases hk : optKey keys row = k
        · rw [if_pos hk, keyFilt_cons, hfilt k, if_pos hk, keyFilt_cons]
          by_cases hrk : optKey keys r = k
          · rw [if_pos hrk, if_pos hrk]
            rfl
          · rw [if_neg hrk, if_neg hrk]
        · rw [if_neg hk, keyFilt_cons, hfilt k, if_neg hk, keyFilt_cons]

/-- Sorting a run: stable ascending, succeeds, permutation, and every key's
subsequence is preserved verbatim. -/
theorem sortRunE_fold_spec (keys : List String) :
    ∀ (run acc : List Row),
    (∀ r ∈ run, KeyedI keys r) → (∀ r ∈ acc, KeyedI keys r) → AscP keys acc →
    ∃ out, List.foldlM (fun acc r => insAscE keys r acc) acc run = .ok out ∧
      out.Perm (acc ++ run) ∧ AscP keys out ∧
      (∀ r ∈ out, KeyedI keys r) ∧
      ∀ k, keyFilt keys k out = keyFilt keys k acc ++ keyFilt keys k run := by
  intro run
  induction run with
  | nil =>
    intro acc _ hacc hasc
    refine ⟨acc, rfl, by simp, hasc, hacc, ?_⟩
    intro k
    rw [keyFilt_nil, List.append_nil]
  | cons r rest ih =>
    intro acc hrun hacc hasc
    obtain ⟨acc1, hins, hperm1, hasc1, hfilt1⟩ :=
      insAscE_spec keys acc r (hrun r (by simp)) hacc hasc
    have hacc1 : ∀ x ∈ acc1, KeyedI keys x := by
      intro x hx
      rcases List.mem_cons.mp (hperm1.mem_iff.mp hx) with rfl | hx'
      · exact hrun x (by simp)
      · exact hacc x hx'
    obtain ⟨out, hout, hperm, hasc', hkeyd, hfilt⟩ := ih acc1
      (fun x hx => hrun x (by simp [hx])) hacc1 hasc1
    refine ⟨out, ?_, ?_, hasc', hkeyd, ?_⟩
    · rw [List.foldlM_cons, hins]
      exact hout
    · refine hperm.trans ?_
      refine List.Perm.trans (hperm1.append_right rest) ?_
      exact List.perm_middle.symm
    · intro k
      rw [hfilt k, hfilt1 k, keyFilt_cons]
      by_cases hk : optKey keys r = k
      · rw [if_pos hk, if_pos hk, List.append_assoc]
        rfl
      · rw [if_neg hk, if_neg hk]

/-- The stable binary merge of two ascending streams: succeeds, permutes,
stays ascending, and concatenates each key's subsequences left-first
(stability across runs, matching the run-index tie-break). -/
theorem mergeAscE_spec (keys : List String) :
    ∀ (n : Nat) (la lb : List Row), la.length + lb.length ≤ n →
    (∀ r ∈ la, KeyedI keys r) → (∀ r ∈ lb, KeyedI keys r) →
    AscP keys la → AscP keys lb →
    ∃ out, mergeAscE keys la lb = .ok out ∧ out.Perm (la ++ lb) ∧
      AscP keys out ∧
      ∀ k, keyFilt keys k out = keyFilt keys k la ++ keyFilt keys k lb := by
  intro n
  induction n with
  | zero =>
    intro la lb hlen _ _ _ _
    have hA : la = [] := List.length_eq_zero.mp (by omega)
    have hB : lb = [] := List.length_eq_zero.mp (by omega)
    subst hA
    subst hB
    exact ⟨[], by simp [mergeAscE], by simp, List.Pairwise.nil,
      fun k => by rw [keyFilt_nil]; rfl⟩
  | succ n ihn =>
    intro la lb hlen hKa hKb hAa hAb
    cases la with
    | nil =>
      exact ⟨lb, by simp [mergeAscE], by simp, hAb,
        fun k => by rw [keyFilt_nil]; rfl⟩
    | cons a la' =>
      cases lb with
      | nil =>
        refine ⟨a :: la', by simp [mergeAscE], by simp, hAa, ?_⟩
        intro k
        rw [keyFilt_nil, List.append_nil]
      | cons b lb' =>
        have hKa0 := hKa a (by simp)
        have hKb0 := hKb b (by simp)
        by_cases hgt : tupleCmp (optKey keys a) (optKey keys b) = some .gt
        · obtain ⟨out', hout', hperm', hasc', hfilt'⟩ := ihn (a :: la') lb'
            (by simp at hlen ⊢; omega) hKa (fun x hx => hKb x (by simp [hx]))
            hAa (List.pairwise_cons.mp hAb).2
          refine ⟨b :: out', ?_, ?_, ?_, ?_⟩
          · simp only [mergeAscE]
            rw [keyLeE_false keys a b hKa0 hKb0 hgt, hout']
          · refine List.Perm.trans (hperm'.cons b) ?_
            exact List.perm_middle.symm
          · refine List.pairwise_cons.mpr ⟨?_, hasc'⟩
            intro x hx
            have hx' := hperm'.mem_iff.mp hx
            have hblt : tupleCmp (optKey keys b) (optKey keys a) = some .lt :=
              (tupleCmp_gt_iff _ _ hKa0.2 hKb0.2).mp hgt
            rcases List.mem_append.mp hx' with hx'' | hx''
            · rcases List.mem_cons.mp hx'' with rfl | hx3
              · rw [hblt]
                simp
              · exact keyle_trans hKb0.2 hKa0.2 (hKa x (by simp [hx3])).2
                  (by rw [hblt]; simp) ((List.pairwise_cons.mp hAa).1 x hx3)
            · exact (List.pairwise_cons.mp hAb).1 x hx''
          · intro k
            rw [keyFilt_cons, hfilt' k]
            by_cases hk : optKey keys b = k
            · rw [if_pos hk]
              have hempty : keyFilt keys k (a :: la') = [] := by
                refine keyFilt_eq_nil keys k _ ?_
                intro x hx hxk
                rcases List.mem_cons.mp hx with rfl | hx'
                · have heq : optKey keys x = optKey keys b := by
                    rw [hxk, hk]
                  rw [heq, tupleCmp_refl] at hgt
                  simp at hgt
                · have hrel := (List.pairwise_cons.mp hAa).1 x hx'
                  rw [hxk, ← hk] at hrel
                  exact hrel hgt
              rw [hempty, keyFilt_cons keys k b lb', if_pos hk]
              rfl
            · rw [if_neg hk, keyFilt_cons keys k b lb', if_neg hk]
        · obtain ⟨out', hout', hperm', hasc', hfilt'⟩ := ihn la' (b :: lb')
            (by simp at hlen ⊢; omega) (fun x hx => hKa x (by simp [hx])) hKb
            (List.pairwise_cons.mp hAa).2 hAb
          refine ⟨a :: out', ?_, ?_, ?_, ?_⟩
          · simp only [mergeAscE]
            rw [keyLeE_true keys a b hKa0 hKb0 hgt, hout']
          · exact hperm'.cons a
          · refine List.pairwise_cons.mpr ⟨?_, hasc'⟩
            intro x hx
            have hx' := hperm'.mem_iff.mp hx
            rcases List.mem_append.mp hx' with hx'' | hx''
            · exact (List.pairwise_cons.mp hAa).1 x hx''
            · rcases List.mem_cons.mp hx'' with rfl | hx3
              · exact hgt
              · exact keyle_trans hKa0.2 hKb0.2 (hKb x (by simp [hx3])).2 hgt
                  ((List.pairwise_cons.mp hAb).1 x hx3)
          · intro k
            rw [keyFilt_cons, hfilt' k, keyFilt_cons keys k a la']
            by_cases hk : optKey keys a = k
            · rw [if_pos hk, if_pos hk]
              rfl
            · rw [if_neg hk, if_neg hk]

/-- Sorting every run and merging them: succeeds, permutes the whole input,
ascending, and every key's subsequence equals the input's (run order = input
order by `chunks`). -/
theorem sortMerge_spec (keys : List String) :
    ∀ (cs : List (List Row)),
    (∀ c ∈ cs, ∀ r ∈ c, KeyedI keys r) →
    ∃ rs out, cs.mapM (sortRunE keys) = .ok rs ∧
      mergeRunsE keys rs = .ok out ∧
      out.Perm cs.flatten ∧ AscP keys out ∧
      (∀ r ∈ out, KeyedI keys r) ∧
      ∀ k, keyFilt keys k out = keyFilt keys k cs.flatten := by
  intro cs
  induction cs with
  | nil =>
    intro _
    exact ⟨[], [], rfl, rfl, by simp, List.Pairwise.nil,
      fun r hr => absurd hr (List.not_mem_nil r), fun k => rfl⟩
  | cons c cs ih =>
    intro hcs
    obtain ⟨s, hs, hsperm0, hsasc, hskey, hsfilt0⟩ :=
      sortRunE_fold_spec keys c [] (hcs c (by simp))
        (fun r hr => absurd hr (List.not_mem_nil r)) List.Pairwise.nil
    have hsperm : s.Perm c := by simpa using hsperm0
    have hsfilt : ∀ k, keyFilt keys k s = keyFilt keys k c := by
      intro k
      rw [hsfilt0 k, keyFilt_nil]
      rfl
    obtain ⟨rs, out', hrs, hmerge, hperm', hasc', hkey', hfilt'⟩ :=
      ih (fun c' hc' => hcs c' (by simp [hc']))
    obtain ⟨out, hout, hperm, hasc, hfilt⟩ := mergeAscE_spec keys
      (s.length + out'.length) s out' (le_refl _) hskey hkey' hsasc hasc'
    have hs' : sortRunE keys c = Except.ok s := hs
    refine ⟨s :: rs, out, ?_, ?_, ?_, hasc, ?_, ?_⟩
    · rw [List.mapM_cons, hs', hrs]
      rfl
    · show (match mergeRunsE keys rs with
        | Except.error e => (Except.error e : Except Err (List Row))
        | Except.ok merged => mergeAscE keys s merged) = Except.ok out
      rw [hmerge]
      exact hout
    · refine hperm.trans ?_
      exact List.Perm.append hsperm hperm'
    · intro r hr
      rcases List.mem_append.mp (hperm.mem_iff.mp hr) with hr' | hr'
      · exact hskey r hr'
      · exact hkey' r hr'
    · intro k
      rw [hfilt k, hsfilt k, hfilt' k,
        show (c :: cs).flatten = c ++ cs.flatten from rfl, keyFilt_append]

/-- The external sort succeeds on integer-keyed rows, for every configured
run size: output is a permutation of the input, weakly ascending by key
tuple, with every key's subsequence preserved verbatim (stability). -/
theorem externalSort_spec (keys : List String) (m : Nat) (rows : List Row)
    (h : ∀ r ∈ rows, KeyedI keys r) :
    ∃ out, externalSort keys m rows = .ok out ∧ out.Perm rows ∧
      AscP keys out ∧ (∀ r ∈ out, IntL (optKey keys r)) ∧
      ∀ k, keyFilt keys k out = keyFilt keys k rows := by
  obtain ⟨rs, out, hrs, hmerge, hperm, hasc, hkey, hfilt⟩ :=
    sortMerge_spec keys (chunks m rows)
      (fun c hc r hr => h r (mem_of_mem_chunks m rows c hc r hr))
  refine ⟨out, ?_, ?_, hasc, fun r hr => (hkey r hr).2, ?_⟩
  · unfold externalSort
    rw [hrs]
    exact hmerge
  · rw [← chunks_flatten m rows]
    exact hperm
  · intro k
    rw [hfilt k, chunks_flatten]

/-- Two weakly ascending lists with identical key subsequences are equal:
ascending order plus stability determines the output uniquely. -/
theorem asc_filter_unique (keys : List String) :
    ∀ (l1 l2 : List Row),
    (∀ r ∈ l1, IntL (optKey keys r)) → (∀ r ∈ l2, IntL (optKey keys r)) →
    AscP keys l1 → AscP keys l2 →
    (∀ k, keyFilt keys k l1 = keyFilt keys k l2) →
    l1 = l2 := by
  intro l1
  induction l1 with
  | nil =>
    intro l2 _ _ _ _ hf
    cases l2 with
    | nil => rfl
    | cons b t2 =>
      have hb := hf (optKey keys b)
      rw [keyFilt_nil, keyFilt_cons, if_pos rfl] at hb
      exact absurd hb (by simp)
  | cons a t1 ih =>
    intro l2 h1 h2 hs1 hs2 hf
    cases l2 with
    | nil =>
      have ha := hf (optKey keys a)
      rw [keyFilt_cons, if_pos rfl, keyFilt_nil] at ha
      exact absurd ha (by simp)
    | cons b t2 =>
      have hIa : IntL (optKey keys a) := h1 a (by simp)
      have hIb : IntL (optKey keys b) := h2 b (by simp)
      have hkey : optKey keys a = optKey keys b := by
        by_contra hne
        have hfa := hf (optKey keys a)
        rw [keyFilt_cons, if_pos rfl, keyFilt_cons,
          if_neg (fun hh => hne hh.symm)] at hfa
        have hamem : a ∈ keyFilt keys (optKey keys a) t2 := by
          rw [← hfa]
          simp
        have hat2 : a ∈ t2 := List.mem_of_mem_filter hamem
        have hba : tupleCmp (optKey keys b) (optKey keys a) ≠ some .gt :=
          (List.pairwise_cons.mp hs2).1 a hat2
        have hfb := hf (optKey keys b)
        rw [keyFilt_cons keys _ b t2, if_pos rfl, keyFilt_cons,
          if_neg hne] at hfb
        have hbmem : b ∈ keyFilt keys (optKey keys b) t1 := by
          rw [hfb]
          simp
        have hbt1 : b ∈ t1 := List.mem_of_mem_filter hbmem
        have hab : tupleCmp (optKey keys a) (optKey keys b) ≠ some .gt :=
          (List.pairwise_cons.mp hs1).1 b hbt1
        rcases tupleCmp_total (optKey keys a) (optKey keys b) hIa hIb with
          hc | hc | hc
        · exact hba ((tupleCmp_gt_iff _ _ hIb hIa).mpr hc)
        · exact hne ((tupleCmp_eq_iff _ _ hIa hIb).mp hc)
        · exact hab hc
      have hfa := hf (optKey keys a)
      rw [keyFilt_cons, if_pos rfl, keyFilt_cons, if_pos hkey.symm] at hfa
      have hab : a = b := (List.cons.inj hfa).1
      subst hab
      have htails : ∀ k, keyFilt keys k t1 = keyFilt keys k t2 := by
        intro k
        have hk := hf k
        rw [keyFilt_cons, keyFilt_cons] at hk
        by_cases hka : optKey keys a = k
        · rw [if_pos hka, if_pos hka] at hk
          exact (List.cons.inj hk).2
        · rw [if_neg hka, if_neg hka] at hk
          exact hk
      have hteq := ih t2 (fun r hr => h1 r (by simp [hr]))
        (fun r hr => h2 r (by simp [hr]))
        (List.pairwise_cons.mp hs1).2 (List.pairwise_cons.mp hs2).2 htails
      rw [hteq]

/-- **C5.** (The `external_sort` module is absent from `src/`; modelled from
the spec, §4.5.)  For integer-keyed rows the external sort yields, for EVERY
configured run size, one and the same output: a permutation of the input
that is weakly ascending by key tuple and stable — each key tuple's
subsequence equals its subsequence of the input — so 1-row runs and n-row
runs produce identical results. -/
theorem c5_external_sort (keys : List String) (m1 m2 : Nat) (rows : List Row)
    (h : ∀ r ∈ rows, (keyTuple keys r).isSome = true ∧
      ∀ v ∈ optKey keys r, v.isInt = true) :
    ∃ out, externalSort keys m1 rows = .ok out ∧
      externalSort keys m2 rows = .ok out ∧
      out.Perm rows ∧ AscP keys out ∧
      ∀ k, keyFilt keys k out = keyFilt keys k rows := by
  obtain ⟨out1, ho1, hp1, ha1, hi1, hf1⟩ := externalSort_spec keys m1 rows h
  obtain ⟨out2, ho2, hp2, ha2, hi2, hf2⟩ := externalSort_spec keys m2 rows h
  have heq : out1 = out2 := by
    refine asc_filter_unique keys out1 out2 hi1 hi2 ha1 ha2 ?_
    intro k
    rw [hf1 k, hf2 k]
  subst heq
  exact ⟨out1, ho1, ho2, hp1, ha1, hf1⟩

/-- Witness for C5: four rows with duplicate keys and a tag column, sorted
with run size 1 (`m = 0`) and run size 3 (`m = 2`). -/
theorem c5_external_sort_witness :
    (∀ r ∈ ([[("k", Value.int 2), ("t", Value.int 1)],
        [("k", Value.int 1), ("t", Value.int 2)],
        [("k", Value.int 2), ("t", Value.int 3)],
        [("k", Value.int 1), ("t", Value.int 4)]] : List Row),
      (keyTuple ["k"] r).isSome = true ∧
        ∀ v ∈ optKey ["k"] r, v.isInt = true) ∧
    ∃ out, externalSort ["k"] 0
        [[("k", Value.int 2), ("t", Value.int 1)],
          [("k", Value.int 1), ("t", Value.int 2)],
          [("k", Value.int 2), ("t", Value.int 3)],
          [("k", Value.int 1), ("t", Value.int 4)]] = .ok out ∧
      externalSort ["k"] 2
        [[("k", Value.int 2), ("t", Value.int 1)],
          [("k", Value.int 1), ("t", Value.int 2)],
          [("k", Value.int 2), ("t", Value.int 3)],
          [("k", Value.int 1), ("t", Value.int 4)]] = .ok out ∧
      out.Perm [[("k", Value.int 2), ("t", Value.int 1)],
        [("k", Value.int 1), ("t", Value.int 2)],
        [("k", Value.int 2), ("t", Value.int 3)],
        [("k", Value.int 1), ("t", Value.int 4)]] ∧
      AscP ["k"] out ∧
      ∀ k, keyFilt ["k"] k out = keyFilt ["k"] k
        [[("k", Value.int 2), ("t", Value.int 1)],
          [("k", Value.int 1), ("t", Value.int 2)],
          [("k", Value.int 2), ("t", Value.int 3)],
          [("k", Value.int 1), ("t", Value.int 4)]] :=
  ⟨by decide,
    c5_external_sort ["k"] 0 2
      [[("k", Value.int 2), ("t", Value.int 1)],
        [("k", Value.int 1), ("t", Value.int 2)],
        [("k", Value.int 2), ("t", Value.int 3)],
        [("k", Value.int 1), ("t", Value.int 4)]]
      (by decide)⟩

/-- Witness for C9 at a concrete mapper (`DummyMapper`) and input. -/
theorem c9_map_rowwise_witness :
    (∀ r, (dummyMapper r).length = 1) ∧
    (mapOp dummyMapper [[("a", Value.int 1)], [("b", Value.int 2)]]).length = 2 ∧
    mapOp dummyMapper [[("a", Value.int 1)], [("b", Value.int 2)]] =
      [[("a", Value.int 1)], [("b", Value.int 2)]] := by
  have h := c9_map_rowwise dummyMapper
    [[("a", Value.int 1)], [("b", Value.int 2)]] (fun r => rfl)
  exact ⟨fun r => rfl, h.2.2.1, by decide⟩

end Compgraph
